import Mathlib

/-!
Verification of the dynamic memory allocator in `src/mm.c` (64-bit explicit
free list allocator with boundary-tag coalescing).

The development is a shallow embedding of the allocator:

* Word-level encoding (`pack`, `extract_size`, `extract_alloc`,
  `extract_prev_alloc`, `round_up`) is embedded directly on `Nat`, with
  64-bit truncation (`% 2^64`) made explicit where the C `size_t`/`uint64_t`
  arithmetic can wrap.

* The heap is embedded at block granularity: the C heap is a prologue footer
  word, a sequence of physically adjacent blocks, and an epilogue header
  word.  A block's header fields `(size, alloc, prev_alloc)` become a record
  `Blk`; the list `Heap.blocks` holds the blocks in address order, so the
  address of block `i` is `8 + (sum of sizes of blocks 0..i-1)` (the prologue
  footer occupies bytes 0..8).  The epilogue header's `prev_alloc` bit is
  state (`Heap.epiPalloc`).  A free block's footer duplicates its header and
  is used by the C code only to navigate to the physical predecessor
  (`find_prev`); in this representation the predecessor is the preceding
  list entry, so the footer word is not duplicated in the state.

* The free-list linkage is embedded faithfully at the pointer level: the C
  code stores `prev`/`next` pointers in the payload of each free block
  (address `blockaddr + 8`).  The state component `Heap.pmem` is an
  association list from block address to the pair `(prev, next)`; a `none`
  entry models a null pointer.  Stale pointer pairs survive at addresses
  that are no longer block starts, exactly as the bytes would in C.

* The heap-growth collaborator `mem_sbrk` is modelled by a capacity
  `Heap.memCap`: growth succeeds iff the total heap size stays within the
  capacity, and fails atomically otherwise (spec section 6).
-/

namespace MM

/-- 2^64, the size of the `size_t` / `word_t` value space. -/
def W : Nat := 2 ^ 64

/-- `wsize`: word and header size in bytes. -/
def wsize : Nat := 8

/-- `dsize`: double word size in bytes. -/
def dsize : Nat := 16

/-- `min_block_size = 4 * sizeof(word_t)`. -/
def min_block_size : Nat := 32

/-- `chunksize = 1 << 12`. -/
def chunksize : Nat := 4096

/-- `alloc_mask = 0x1`. -/
def alloc_mask : Nat := 0x1

/-- `prev_alloc_mask = 0x2`. -/
def prev_alloc_mask : Nat := 0x2

/-- `size_mask = ~(word_t)0xF`, i.e. the 64-bit word `2^64 - 16`. -/
def size_mask : Nat := W - 16

/-- `pack(size, prev_alloc, alloc)` from mm.c, including its exact branch
structure.  Note that the first branch returns `size | alloc_mask` whenever
`prev_alloc` is false, regardless of `alloc`. -/
def pack (size : Nat) (prev_alloc alloc : Bool) : Nat :=
  if !prev_alloc then size ||| alloc_mask
  else if !alloc then size ||| prev_alloc_mask
  else if alloc && prev_alloc then size ||| prev_alloc_mask ||| alloc_mask
  else size

/-- `extract_size(word) = word & size_mask`. -/
def extract_size (word : Nat) : Nat := word &&& size_mask

/-- `extract_alloc(word) = (bool)(word & alloc_mask)`. -/
def extract_alloc (word : Nat) : Bool := word &&& alloc_mask != 0

/-- `extract_prev_alloc(word) = (bool)(word & prev_alloc_mask)`. -/
def extract_prev_alloc (word : Nat) : Bool := word &&& prev_alloc_mask != 0

/-- `round_up(size, n) = n * ((size + (n-1)) / n)` computed in `size_t`
arithmetic, hence reduced modulo 2^64. -/
def round_up (size n : Nat) : Nat := (n * ((size + (n - 1)) / n)) % W

/-- `max(x, y)` from mm.c. -/
def maxW (x y : Nat) : Nat := if x > y then x else y

/-- 64-bit `size_t` subtraction `x - y` (two's-complement wraparound),
for operands already reduced below 2^64. -/
def subW (x y : Nat) : Nat := (x + W - y % W) % W

section WordLemmas

private theorem and_size_mask_eq {w : Nat} (hw : w < W) :
    w &&& size_mask = w - w % 16 := by
  have e4 : (2:ℕ) ^ 4 = 16 := by norm_num
  have h16 : w - w % 16 = 2 ^ 4 * (w / 16) := by
    have := Nat.div_add_mod w 16
    omega
  apply Nat.eq_of_testBit_eq
  intro j
  have hmask : size_mask = 2 ^ 4 * (2 ^ 60 - 1) + 0 := by decide
  rw [Nat.testBit_and, h16, hmask]
  rw [Nat.testBit_mul_pow_two_add _ (by decide : (0:Nat) < 2 ^ 4) j]
  rw [show 2 ^ 4 * (w / 16) = 2 ^ 4 * (w / 16) + 0 from rfl]
  rw [Nat.testBit_mul_pow_two_add _ (by decide : (0:Nat) < 2 ^ 4) j]
  by_cases hj : j < 4
  · simp [hj]
  · simp only [if_neg hj, Nat.testBit_two_pow_sub_one]
    by_cases hj64 : j < 64
    · have hdiv : (w / 16).testBit (j - 4) = w.testBit j := by
        rw [show w / 16 = w / 2 ^ 4 by rw [e4], ← Nat.shiftRight_eq_div_pow,
          Nat.testBit_shiftRight]
        congr 1
        omega
      rw [hdiv]
      have : j - 4 < 60 := by omega
      simp [this]
    · have hwj : w.testBit j = false := by
        apply Nat.testBit_lt_two_pow
        calc w < W := hw
        _ = 2 ^ 64 := rfl
        _ ≤ 2 ^ j := Nat.pow_le_pow_right (by decide) (by omega)
      have hdj : (w / 16).testBit (j - 4) = false := by
        apply Nat.testBit_lt_two_pow
        have hlt : w / 16 < 2 ^ 60 := by
          have hww : w < 2 ^ 60 * 16 := by
            calc w < W := hw
            _ = 2 ^ 60 * 16 := by decide
          omega
        calc w / 16 < 2 ^ 60 := hlt
        _ ≤ 2 ^ (j - 4) := Nat.pow_le_pow_right (by decide) (by omega)
      simp [hwj, hdj]

private theorem or_flags_eq_add {s c : Nat} (hs : 16 ∣ s) (hc : c < 16) :
    s ||| c = s + c := by
  obtain ⟨k, rfl⟩ := hs
  have h := Nat.mul_add_lt_is_or (b := c) (i := 4) (by omega : c < 2 ^ 4) k
  have e4 : (2:ℕ) ^ 4 = 16 := by norm_num
  rw [e4] at h
  exact h.symm

private theorem pack_eq_add (s : Nat) (p a : Bool) (hs : 16 ∣ s) :
    pack s p a = s + (if p then 2 else 0) + (if a || !p then 1 else 0) := by
  have h1 : s ||| 1 = s + 1 := or_flags_eq_add hs (by decide)
  have h2 : s ||| 2 = s + 2 := or_flags_eq_add hs (by decide)
  have h3 : s ||| 2 ||| 1 = s + 3 := by
    rw [Nat.lor_assoc, show (2 ||| 1 : Nat) = 3 from rfl]
    exact or_flags_eq_add hs (by decide)
  cases p <;> cases a
  · show s ||| 1 = s + 0 + 1
    rw [h1]
  · show s ||| 1 = s + 0 + 1
    rw [h1]
  · show s ||| 2 = s + 2 + 0
    rw [h2]
  · show s ||| 2 ||| 1 = s + 2 + 1
    rw [h3]

private theorem extract_size_add {s f : Nat} (hs : 16 ∣ s) (hf : f < 16)
    (hw : s + f < W) : extract_size (s + f) = s := by
  rw [extract_size, and_size_mask_eq hw]
  obtain ⟨k, rfl⟩ := hs
  omega

private theorem extract_alloc_add {s f : Nat} (hs : 16 ∣ s) :
    extract_alloc (s + f) = decide (f % 2 = 1) := by
  obtain ⟨k, rfl⟩ := hs
  show ((16 * k + f) &&& 1 != 0) = decide (f % 2 = 1)
  rw [Nat.and_one_is_mod]
  have hm : (16 * k + f) % 2 = f % 2 := by omega
  rw [hm]
  rcases Nat.mod_two_eq_zero_or_one f with h | h <;> simp [h]

private theorem extract_prev_alloc_add {s f : Nat} (hs : 16 ∣ s) (_hf : f < 16) :
    extract_prev_alloc (s + f) = decide (f / 2 % 2 = 1) := by
  obtain ⟨k, rfl⟩ := hs
  show ((16 * k + f) &&& 2 != 0) = decide (f / 2 % 2 = 1)
  have h := Nat.and_two_pow (16 * k + f) 1
  have e2 : (2:ℕ) ^ 1 = 2 := by norm_num
  rw [e2] at h
  rw [h]
  have ht : (16 * k + f).testBit 1 = decide (f / 2 % 2 = 1) := by
    rw [Nat.testBit_to_div_mod]
    apply decide_eq_decide.mpr
    rw [e2]
    omega
  rw [ht]
  by_cases hd : f / 2 % 2 = 1 <;> simp [hd]

end WordLemmas

/-- Claim C6 (counterexample): round-tripping `pack` through the unpack
accessors does not recover the triple for every pair of booleans.  At
`(size, prev_alloc, alloc) = (32, false, false)` the first branch of `pack`
returns `size | alloc_mask`, so the unpacked `alloc` flag is `true`, not
`false` (the size and `prev_alloc` bits are recovered correctly). -/
theorem pack_roundtrip_cex :
    extract_alloc (pack 32 false false) ≠ false ∧
      extract_alloc (pack 32 false false) = true ∧
      extract_size (pack 32 false false) = 32 ∧
      extract_prev_alloc (pack 32 false false) = false := by
  decide

/-- Claim C6 (amended): for every 16-byte-aligned size below 2^64 and every
pair of booleans other than `(prev_alloc, alloc) = (false, false)` (a
combination on which `pack` erroneously sets the `alloc` bit), unpacking the
word produced by `pack size prev_alloc alloc` with the size/alloc/prev_alloc
accessors recovers exactly the triple `(size, alloc, prev_alloc)`. -/
theorem pack_unpack_roundtrip (size : Nat) (prev_alloc alloc : Bool)
    (hdvd : 16 ∣ size) (hlt : size < W) (hok : prev_alloc = true ∨ alloc = true) :
    extract_size (pack size prev_alloc alloc) = size ∧
      extract_alloc (pack size prev_alloc alloc) = alloc ∧
      extract_prev_alloc (pack size prev_alloc alloc) = prev_alloc := by
  have hsW : size + 15 < W := by
    obtain ⟨k, hk⟩ := hdvd
    have : (2:ℕ) ^ 64 = 16 * (2 ^ 60) := by norm_num
    rw [W] at hlt ⊢
    omega
  rw [pack_eq_add size prev_alloc alloc hdvd]
  rcases prev_alloc with _ | _ <;> rcases alloc with _ | _
  · exact absurd hok (by simp)
  · refine ⟨?_, ?_, ?_⟩
    · show extract_size (size + 1) = size
      exact extract_size_add hdvd (by decide) (by omega)
    · show extract_alloc (size + 1) = true
      simp [extract_alloc_add hdvd]
    · show extract_prev_alloc (size + 1) = false
      simp [extract_prev_alloc_add (f := 1) hdvd (by decide)]
  · refine ⟨?_, ?_, ?_⟩
    · show extract_size (size + 2) = size
      exact extract_size_add hdvd (by decide) (by omega)
    · show extract_alloc (size + 2) = false
      simp [extract_alloc_add hdvd]
    · show extract_prev_alloc (size + 2) = true
      simp [extract_prev_alloc_add (f := 2) hdvd (by decide)]
  · refine ⟨?_, ?_, ?_⟩
    · show extract_size (size + 3) = size
      exact extract_size_add hdvd (by decide) (by omega)
    · show extract_alloc (size + 3) = true
      simp [extract_alloc_add hdvd]
    · show extract_prev_alloc (size + 3) = true
      simp [extract_prev_alloc_add (f := 3) hdvd (by decide)]

/-- Witness for C6's amended theorem at `size = 48`, `prev_alloc = true`,
`alloc = false`. -/
theorem pack_unpack_roundtrip_witness :
    extract_size (pack 48 true false) = 48 ∧
      extract_alloc (pack 48 true false) = false ∧
      extract_prev_alloc (pack 48 true false) = true :=
  pack_unpack_roundtrip 48 true false (by decide) (by decide) (Or.inl rfl)

/-! ## The heap model -/

/-- Free-list pointer pair stored in a free block's payload:
`(prev, next)`, with `none` modelling a null pointer. -/
abbrev FPtrs := Option Nat × Option Nat

/-- Pointer memory: association list from block address to the free-list
pointer pair stored at that block's payload. -/
abbrev PMem := List (Nat × FPtrs)

/-- Read the pointer pair stored at address `a` (unwritten memory reads as
two null pointers; every free block's pair is explicitly written before the
allocator ever reads it). -/
def pget (m : PMem) (a : Nat) : FPtrs :=
  match m with
  | [] => (none, none)
  | (b, v) :: rest => if b = a then v else pget rest a

/-- Write the pointer pair stored at address `a`. -/
def pset (m : PMem) (a : Nat) (v : FPtrs) : PMem :=
  match m with
  | [] => [(a, v)]
  | (b, w) :: rest => if b = a then (b, v) :: rest else (b, w) :: pset rest a v

/-- The header fields of one heap block (see the file comment: a free
block's footer duplicates these fields and is represented implicitly). -/
structure Blk where
  size : Nat
  alloc : Bool
  palloc : Bool
deriving DecidableEq

/-- The allocator state: the blocks in address order, the epilogue header's
`prev_alloc` bit, `freelist_start`, the free-list pointer memory, and the
capacity of the heap-growth collaborator. -/
structure Heap where
  blocks : List Blk
  epiPalloc : Bool
  flst : Option Nat
  pmem : PMem
  memCap : Nat
deriving DecidableEq

/-- Address of the first block header: the prologue footer occupies
bytes 0..8. -/
def base : Nat := 8

/-- Total size in bytes of a list of blocks. -/
def sumSize : List Blk → Nat
  | [] => 0
  | b :: r => b.size + sumSize r

/-- Bytes obtained so far from the heap-growth collaborator: prologue
footer + epilogue header + all blocks. -/
def heapBytes (s : Heap) : Nat := 2 * wsize + sumSize s.blocks

/-- The heap-growth collaborator: `mem_sbrk(n)` succeeds iff the grown heap
still fits in the capacity. -/
def sbrkOk (s : Heap) (n : Nat) : Bool := heapBytes s + n ≤ s.memCap

/-- Scan the block list (first block at address `cur`) for a block whose
header is at address `a`. -/
def blkAtFrom (cur a : Nat) : List Blk → Option Blk
  | [] => none
  | b :: r => if cur = a then some b else blkAtFrom (cur + b.size) a r

/-- The block whose header is at address `a`, if any. -/
def getBlkA (s : Heap) (a : Nat) : Option Blk := blkAtFrom base a s.blocks

/-- `get_alloc` on an address: reading the `alloc` bit of the header at
address `a`.  An address that is not a block header is outside the model
(undefined behaviour in C); it reads as allocated, which makes the guarded
callers no-ops. -/
def allocAtD (s : Heap) (a : Nat) : Bool :=
  match getBlkA s a with
  | some b => b.alloc
  | none => true

/-- `get_size` on an address (0 when the address is not a block header). -/
def sizeAtD (s : Heap) (a : Nat) : Nat :=
  match getBlkA s a with
  | some b => b.size
  | none => 0

/-- Whether address `a` is the header of a FREE block. -/
def freeAt (s : Heap) (a : Nat) : Bool :=
  match getBlkA s a with
  | some b => !b.alloc
  | none => false

/-- Addresses of the free blocks, in heap (address) order, with the first
block at address `cur`. -/
def freeAddrsFrom (cur : Nat) : List Blk → List Nat
  | [] => []
  | b :: r =>
    if b.alloc then freeAddrsFrom (cur + b.size) r
    else cur :: freeAddrsFrom (cur + b.size) r

/-- Addresses of the free blocks of the heap, in address order. -/
def freeAddrs (s : Heap) : List Nat := freeAddrsFrom base s.blocks

/-! ## Free-list operations (`fl_remove`, `fl_insert`) -/

/-- `fl_remove` from mm.c: unlink `block` from the doubly linked free list.
No-op on a null pointer or an allocated block; otherwise reads the block's
stored `prev`/`next` pointers, clears them, and splices the neighbours (or
the list head) around the block, following the C code's four cases. -/
def fl_remove (s : Heap) (block : Option Nat) : Heap :=
  match block with
  | none => s
  | some a =>
    if allocAtD s a then s
    else
      let nextptr := (pget s.pmem a).2
      let prevptr := (pget s.pmem a).1
      let m := pset s.pmem a (none, none)
      match nextptr, prevptr with
      | none, none => { s with pmem := m, flst := none }
      | some np, none =>
          let m2 := pset m np (none, (pget m np).2)
          { s with pmem := m2, flst := some np }
      | none, some pp =>
          let m2 := pset m pp ((pget m pp).1, none)
          { s with pmem := m2 }
      | some np, some pp =>
          let m2 := pset m pp ((pget m pp).1, some np)
          let m3 := pset m2 np (some pp, (pget m2 np).2)
          { s with pmem := m3 }

/-- `fl_insert` from mm.c: push `block` at the head of the free list.  On a
non-empty list it writes `block->next := freelist_start` and
`freelist_start->prev := block`; it never writes `block->prev`. -/
def fl_insert (s : Heap) (block : Option Nat) : Heap :=
  match block with
  | none => s
  | some a =>
    match s.flst with
    | none => { s with flst := some a }
    | some st =>
      let m1 := pset s.pmem a ((pget s.pmem a).1, some st)
      let m2 := pset m1 st (some a, (pget m1 st).2)
      { s with pmem := m2, flst := some a }

theorem pget_pset_same (m : PMem) (a : Nat) (v : FPtrs) :
    pget (pset m a v) a = v := by
  induction m with
  | nil => simp [pget, pset]
  | cons x rest ih =>
    obtain ⟨c, w⟩ := x
    by_cases h : c = a
    · subst h
      simp [pget, pset]
    · simp [pget, pset, h, ih]

theorem pget_pset_other (m : PMem) {a b : Nat} (v : FPtrs) (h : a ≠ b) :
    pget (pset m a v) b = pget m b := by
  induction m with
  | nil => simp [pget, pset, h]
  | cons x rest ih =>
    obtain ⟨c, w⟩ := x
    by_cases hc : c = a
    · subst hc
      simp [pget, pset, h]
    · by_cases hb : c = b
      · subst hb
        simp [pget, pset, hc]
      · simp [pget, pset, hc, hb, ih]

/-- Claim C8 (counterexample): `fl_insert` does not guarantee that the new
head's `prev_free` pointer is null for every block and free-list state: it
never writes the inserted block's `prev` field, so (i) a block whose
stored `prev` pointer is non-null keeps it after becoming the head, and
(ii) even with a null stored `prev`, inserting the block that is already
the list head executes `freelist_start->prev = block` with
`freelist_start == block`, leaving the new head's `prev_free` pointing at
the block itself. -/
theorem fl_insert_cex :
    ((pget (fl_insert
        (⟨[], true, some 24, [(40, (some 999, none))], 0⟩ : Heap)
        (some 40)).pmem 40).1 ≠ none ∧
      (fl_insert (⟨[], true, some 24, [(40, (some 999, none))], 0⟩ : Heap)
        (some 40)).flst = some 40) ∧
    (pget (fl_insert (⟨[], true, some 40, [(40, (none, none))], 0⟩ : Heap)
      (some 40)).pmem 40).1 = some 40 := by
  decide

/-- Claim C8 (amended): for every non-null block whose stored `prev_free`
pointer is null and which is not already the current list head — both of
which every call site guarantees: the caller has just cleared the block's
list pointers, and the block being inserted is off the free list while the
current head, if any, is on it — `fl_insert` pushes the block at the head:
afterwards the head is the block, the new head's `prev_free` is null, and
the old head's `prev_free` (when the list was non-empty) points to the
inserted block.  Neither head-nullness conclusion survives without the
preconditions, see `fl_insert_cex`. -/
theorem fl_insert_head (s : Heap) (a : Nat)
    (hprev : (pget s.pmem a).1 = none) (hne : s.flst ≠ some a) :
    (fl_insert s (some a)).flst = some a ∧
      (pget (fl_insert s (some a)).pmem a).1 = none ∧
      (∀ h0, s.flst = some h0 →
        (pget (fl_insert s (some a)).pmem h0).1 = some a) := by
  cases hf : s.flst with
  | none =>
    refine ⟨?_, ?_, ?_⟩
    · simp [fl_insert, hf]
    · simp [fl_insert, hf, hprev]
    · intro h0 h
      exact absurd h (by simp)
  | some st =>
    have hst : st ≠ a := fun h => hne (h ▸ hf)
    refine ⟨?_, ?_, ?_⟩
    · simp [fl_insert, hf]
    · simp only [fl_insert, hf]
      rw [pget_pset_other _ _ hst, pget_pset_same]
      exact hprev
    · intro h0 h
      injection h with h
      subst h
      simp only [fl_insert, hf]
      rw [pget_pset_same]

/-- Witness for C8's amended theorem: insert block 40 (with null stored
pointers) in front of the one-element free list headed at 24. -/
theorem fl_insert_head_witness :
    (fl_insert (⟨[], true, some 24, [(40, (none, none))], 0⟩ : Heap)
        (some 40)).flst = some 40 ∧
      (pget (fl_insert (⟨[], true, some 24, [(40, (none, none))], 0⟩ : Heap)
        (some 40)).pmem 40).1 = none ∧
      (∀ h0, (⟨[], true, some 24, [(40, (none, none))], 0⟩ : Heap).flst = some h0 →
        (pget (fl_insert (⟨[], true, some 24, [(40, (none, none))], 0⟩ : Heap)
          (some 40)).pmem h0).1 = some 40) :=
  fl_insert_head ⟨[], true, some 24, [(40, (none, none))], 0⟩ 40 (by decide)
    (by decide)

/-! ## The heap-checker list walk (`check_freelist_correctly_linked`) -/

/-- The loop of `check_freelist_correctly_linked` from mm.c, with explicit
fuel (the C loop does not terminate on a cyclic list; running out of fuel
yields `none`).  Each iteration sets `next = b->next` and fails unless
`b->next == next && next->prev == b`; the walk stops successfully at a null
block or a null `next` pointer. -/
def cfcl (s : Heap) : Nat → Option Nat → Option Bool
  | 0, _ => none
  | _ + 1, none => some true
  | fuel + 1, some b =>
      match (pget s.pmem b).2 with
      | none => some true
      | some nxt =>
          if (pget s.pmem b).2 == some nxt && (pget s.pmem nxt).1 == some b then
            cfcl s fuel (some nxt)
          else some false

/-- `check_freelist_correctly_linked` from mm.c: run the walk from
`freelist_start`. -/
def check_freelist_correctly_linked (s : Heap) (fuel : Nat) : Option Bool :=
  cfcl s fuel s.flst

/-- The `k`-th node reached from `cur` by following `next_free` pointers. -/
def nthNext (s : Heap) : Nat → Option Nat → Option Nat
  | 0, cur => cur
  | k + 1, cur =>
    match cur with
    | none => none
    | some a => nthNext s k (pget s.pmem a).2

/-- Claim C9 (counterexample): `check_freelist_correctly_linked` is not a
tautology.  On a two-node list whose second node's `prev_free` pointer is
broken (`999` instead of the first node), the check returns `false`, because
its condition `b->next == next && next->prev == b` genuinely tests
`next->prev == b` (only the first conjunct is trivially true). -/
theorem cfcl_cex :
    check_freelist_correctly_linked
      (⟨[], true, some 10, [(10, (none, some 20)), (20, (some 999, none))], 0⟩ :
        Heap) 5 = some false ∧
      check_freelist_correctly_linked
        (⟨[], true, some 10, [(10, (none, some 20)), (20, (some 10, none))], 0⟩ :
          Heap) 5 = some true := by
  decide

private theorem nthNext_none (s : Heap) (k : Nat) : nthNext s k none = none := by
  cases k <;> simp [nthNext]

private theorem cfcl_sound_aux (s : Heap) :
    ∀ fuel c, cfcl s fuel c = some true →
      ∀ k a b, nthNext s k c = some a → (pget s.pmem a).2 = some b →
        (pget s.pmem b).1 = some a := by
  intro fuel
  induction fuel with
  | zero => intro c h; simp [cfcl] at h
  | succ fuel ih =>
    intro c h k a b hk hn
    cases c with
    | none =>
      rw [nthNext_none] at hk
      exact absurd hk (by simp)
    | some x =>
      cases hx : (pget s.pmem x).2 with
      | none =>
        cases k with
        | zero =>
          simp only [nthNext] at hk
          injection hk with hk
          subst hk
          rw [hn] at hx
          exact absurd hx (by simp)
        | succ k =>
          simp only [nthNext] at hk
          rw [hx, nthNext_none] at hk
          exact absurd hk (by simp)
      | some nxt =>
        simp only [cfcl, hx, beq_self_eq_true, Bool.true_and] at h
        by_cases hq : ((pget s.pmem nxt).1 == some x) = true
        · rw [if_pos hq] at h
          have hnp : (pget s.pmem nxt).1 = some x := eq_of_beq hq
          cases k with
          | zero =>
            simp only [nthNext] at hk
            injection hk with hk
            subst hk
            rw [hn] at hx
            injection hx with hx
            subst hx
            exact hnp
          | succ k =>
            simp only [nthNext] at hk
            rw [hx] at hk
            exact ih (some nxt) h k a b hk hn
        · rw [if_neg hq] at h
          exact absurd h (by simp)

/-- Claim C9 (amended): in `check_freelist_correctly_linked` the first
conjunct `b->next == next` is trivially true, but the second conjunct
`next->prev == b` is a genuine backward-pointer check: the function returns
`false` on lists with a broken back pointer (see the counterexample), and
whenever it returns `true`, every node reachable from the free-list head
with a non-null `next_free` pointer satisfies `next.prev_free == node`. -/
theorem cfcl_sound (s : Heap) (fuel : Nat)
    (h : check_freelist_correctly_linked s fuel = some true)
    (k a b : Nat) (hk : nthNext s k s.flst = some a)
    (hn : (pget s.pmem a).2 = some b) :
    (pget s.pmem b).1 = some a :=
  cfcl_sound_aux s fuel s.flst h k a b hk hn

/-- Witness for C9's amended theorem: on a well-linked two-node list the
check returns `true`, and the back pointer of the second node is the first
node. -/
theorem cfcl_sound_witness :
    (pget (⟨[], true, some 10, [(10, (none, some 20)), (20, (some 10, none))],
        0⟩ : Heap).pmem 20).1 = some 10 :=
  cfcl_sound
    ⟨[], true, some 10, [(10, (none, some 20)), (20, (some 10, none))], 0⟩
    5 (by decide) 0 10 20 (by decide) (by decide)

/-! ## Allocator operations -/

/-- Split the block list around the block whose header is at address `a`,
scanning in address order with the first block at address `cur`.  Returns
`(blocks before, the block, blocks after)`. -/
def splitBlocks (cur a : Nat) : List Blk → Option (List Blk × Blk × List Blk)
  | [] => none
  | b :: r =>
    if cur = a then some ([], b, r)
    else
      match splitBlocks (cur + b.size) a r with
      | some (A, x, B) => some (b :: A, x, B)
      | none => none

/-- `set_next_prev_alloc` from mm.c: write the `prev_alloc` bit of the
physically next block's header (`find_next` adds the block's size, which in
this representation is the next list entry, or the epilogue header when the
block is last).  When the next block is free the C code also rewrites its
footer, which this representation keeps implicit. -/
def set_next_palloc (s : Heap) (a : Nat) (pa : Bool) : Heap :=
  match splitBlocks base a s.blocks with
  | none => s
  | some (A, x, B) =>
    match B with
    | [] => { s with epiPalloc := pa }
    | y :: B1 => { s with blocks := A ++ x :: { y with palloc := pa } :: B1 }

/-- `coalesce` from mm.c: merge the FREE block at address `a` with its free
physical neighbours, insert the merged block into the free list, and return
(the new state, the merged block's address).  The four cases follow
`(prev_alloc of the block, alloc of the successor)`; `find_prev` reads the
predecessor's size from its footer, which this representation takes from
the preceding list entry.  The `none`/`getLast?` fallbacks are unreachable
when the surrounding heap is well formed (in C they would be undefined
behaviour). -/
def coalesce (s : Heap) (a : Nat) : Heap × Nat :=
  match splitBlocks base a s.blocks with
  | none => (s, a)
  | some (A, x, B) =>
    let next_alloc := match B with | [] => true | y :: _ => y.alloc
    let prev_alloc := x.palloc
    let size := x.size
    if prev_alloc && next_alloc then
      let s1 := set_next_palloc s a false
      (fl_insert s1 (some a), a)
    else if prev_alloc && !next_alloc then
      match B with
      | [] => (s, a)
      | y :: B1 =>
        let s1 := fl_remove s (some (a + size))
        let merged : Blk :=
          { size := (size + y.size) % W, alloc := false, palloc := true }
        let s2 := { s1 with blocks := A ++ merged :: B1 }
        let s3 := set_next_palloc s2 a false
        (fl_insert s3 (some a), a)
    else if !prev_alloc && next_alloc then
      match A.getLast? with
      | none => (s, a)
      | some p =>
        let pa := a - p.size
        let s1 := fl_remove s (some pa)
        let merged : Blk :=
          { size := (size + p.size) % W, alloc := false, palloc := p.palloc }
        let s2 := { s1 with blocks := A.dropLast ++ merged :: B }
        let s3 := set_next_palloc s2 pa false
        (fl_insert s3 (some pa), pa)
    else
      match A.getLast?, B with
      | some p, y :: B1 =>
        let s1 := fl_remove s (some (a + size))
        let s2 := fl_remove s1 (some (a - p.size))
        let merged : Blk :=
          { size := (size + p.size + y.size) % W, alloc := false,
            palloc := p.palloc }
        let s3 := { s2 with blocks := A.dropLast ++ merged :: B1 }
        let s4 := set_next_palloc s3 (a - p.size) false
        (fl_insert s4 (some (a - p.size)), a - p.size)
      | _, _ => (s, a)

/-- `place` from mm.c: allocate `asize` bytes inside the FREE block at
address `a` (already found by the fit search or heap extension): remove it
from the free list; if the remainder is at least the minimum block size,
split off a new FREE remainder block (clearing its list pointers) and
coalesce it, otherwise allocate the whole block and set the successor's
`prev_alloc` bit.  The size subtraction is 64-bit (`size_t`) subtraction. -/
def place (s : Heap) (a : Nat) (asize : Nat) : Heap :=
  match splitBlocks base a s.blocks with
  | none => s
  | some (A, x, B) =>
    let csize := x.size
    let s1 := fl_remove s (some a)
    if min_block_size ≤ subW csize asize then
      let blockA : Blk := { size := asize, alloc := true, palloc := x.palloc }
      let blockN : Blk :=
        { size := subW csize asize, alloc := false, palloc := true }
      let s2 := { s1 with blocks := A ++ blockA :: blockN :: B }
      let s3 := { s2 with pmem := pset s2.pmem (a + asize) (none, none) }
      (coalesce s3 (a + asize)).1
    else
      let s2 := { s1 with blocks := A ++ { x with alloc := true } :: B }
      set_next_palloc s2 a true

/-- The loop of `find_fit` from mm.c, walking the free list's `next`
pointers: an exact-size block returns immediately; a strictly larger block
is a fit and is compared against the best fit so far, and only fits bump
the counter `i`; the loop stops at a null block or once `i` reaches 50.
The fuel argument makes the walk structurally recursive; the top-level
wrapper passes more fuel than any well-formed free list's length. -/
def find_fit_loop (s : Heap) (asize : Nat) :
    Nat → Option Nat → Option Nat → Nat → Option Nat
  | 0, _, best, _ => best
  | _ + 1, none, best, _ => best
  | fuel + 1, some b, best, i =>
    if i < 50 then
      if asize == sizeAtD s b then some b
      else if asize < sizeAtD s b then
        let best1 :=
          if i == 0 then some b
          else
            match best with
            | some bf => if sizeAtD s b < sizeAtD s bf then some b else best
            | none => some b
        find_fit_loop s asize fuel (pget s.pmem b).2 best1 (i + 1)
      else
        find_fit_loop s asize fuel (pget s.pmem b).2 best i
    else best

/-- `find_fit` from mm.c: bounded best-fit search over the free list. -/
def find_fit (s : Heap) (asize : Nat) : Option Nat :=
  find_fit_loop s asize (s.blocks.length + 1) s.flst none 0

/-- `extend_heap` from mm.c: round the request to alignment, grow the heap
through the collaborator (`none` on failure), write the new FREE block over
the old epilogue header (inheriting its `prev_alloc` bit), clear its list
pointers, write a fresh epilogue header with a false `prev_alloc` bit, and
coalesce the new block with a possibly-free last block. -/
def extend_heap (s : Heap) (size : Nat) : Option (Heap × Nat) :=
  let size1 := round_up size dsize
  if sbrkOk s size1 then
    let a := base + sumSize s.blocks
    let nb : Blk := { size := size1, alloc := false, palloc := s.epiPalloc }
    let s1 :=
      { s with blocks := s.blocks ++ [nb], epiPalloc := false,
               pmem := pset s.pmem a (none, none) }
    some (coalesce s1 a)
  else none

/-- `malloc` from mm.c, on an initialized heap (the `heap_start == NULL`
auto-initialization branch is omitted: every run in this development starts
from a successfully initialized heap).  A zero request returns null; the
adjusted size adds one header word and rounds to 16, raised to the minimum
block size; on a fit-search miss the heap grows by
`max(asize, chunksize)`; growth failure returns null.  The returned value
is the payload address, `block + wsize`.  All size arithmetic is `size_t`
arithmetic (modulo 2^64). -/
def malloc (s : Heap) (size : Nat) : Option Nat × Heap :=
  if size == 0 then (none, s)
  else
    let asize0 := round_up ((size + wsize) % W) dsize
    let asize := if asize0 < min_block_size then min_block_size else asize0
    match find_fit s asize with
    | some b => (some (b + wsize), place s b asize)
    | none =>
      let extendsize := maxW asize chunksize
      match extend_heap s extendsize with
      | none => (none, s)
      | some (s1, b) => (some (b + wsize), place s1 b asize)

/-- `free` from mm.c: null is a no-op; otherwise rewrite the block as FREE
(keeping its size and `prev_alloc` bit; the C header word written by
`pack(size, false, false)` would transiently also carry a set alloc bit,
see `pack_roundtrip_cex`, but no code path reads that bit before `coalesce`
rewrites the merged header), write its footer, clear its list pointers and
coalesce it.  A pointer that is not a block payload is a caller contract
violation (undefined behaviour in C) and is outside the model. -/
def free (s : Heap) (bp : Option Nat) : Heap :=
  match bp with
  | none => s
  | some p =>
    let a := p - wsize
    match splitBlocks base a s.blocks with
    | none => s
    | some (A, x, B) =>
      let s1 := { s with blocks := A ++ { x with alloc := false } :: B }
      let s2 := { s1 with pmem := pset s1.pmem a (none, none) }
      (coalesce s2 a).1

/-- `get_payload_size` from mm.c: block size minus one word for an
allocated block (no footer), minus two words for a free block. -/
def get_payload_size (s : Heap) (a : Nat) : Nat :=
  match getBlkA s a with
  | some b => if b.alloc then subW b.size wsize else subW b.size dsize
  | none => 0

/-- `realloc` from mm.c.  The middle component of the result is the number
of bytes passed to `memcpy` (payload contents themselves are not part of
the state, so the copy amount is returned as an observation; it is `0` on
the paths that do not copy). -/
def realloc (s : Heap) (ptr : Option Nat) (size : Nat) :
    Option Nat × Nat × Heap :=
  if size == 0 then (none, 0, free s ptr)
  else
    match ptr with
    | none =>
      let r := malloc s size
      (r.1, 0, r.2)
    | some p =>
      let r := malloc s size
      match r.1 with
      | none => (none, 0, r.2)
      | some q =>
        let copysize0 := get_payload_size r.2 (p - wsize)
        let copysize := if size < copysize0 then size else copysize0
        (some q, copysize, free r.2 (some p))

/-- `calloc` from mm.c: the product `elements * size` is computed in
`size_t` arithmetic and checked by back-division; the C division
`asize / elements` is undefined on a zero divisor, modelled as `.error ()`.
`memset(bp, 0, asize)` touches only payload contents, which are not part
of the state. -/
def calloc (s : Heap) (elements size : Nat) :
    Except Unit (Option Nat × Heap) :=
  let asize := (elements * size) % W
  if elements == 0 then .error ()
  else if asize / elements != size then .ok (none, s)
  else
    let r := malloc s asize
    match r.1 with
    | none => .ok (none, r.2)
    | some p => .ok (some p, r.2)

/-- `mm_init` from mm.c: obtain the two sentinel words from the
collaborator (prologue footer and epilogue header, both packed as
`(0, prev_alloc = true, alloc = true)`), start with an empty free list, and
extend the heap by one chunk.  Returns `none` when either growth fails. -/
def mm_init (cap : Nat) : Option Heap :=
  let s0 : Heap :=
    { blocks := [], epiPalloc := true, flst := none, pmem := [], memCap := cap }
  if 2 * wsize ≤ cap then
    match extend_heap s0 chunksize with
    | none => none
    | some (s1, _) => some s1
  else none

/-- A public operation of the allocator: `allocate(n)` or `release(p)`
(`p` a payload address). -/
inductive Op where
  | alloc : Nat → Op
  | release : Nat → Op
deriving DecidableEq

/-- Whether `p` is the payload address of a currently allocated block
(releasing any other pointer is a caller contract violation, spec section
6, and undefined behaviour in C). -/
def isAllocPayload (s : Heap) (p : Nat) : Bool :=
  wsize ≤ p &&
    match getBlkA s (p - wsize) with
    | some b => b.alloc
    | none => false

/-- One public operation.  `release` is guarded by the caller contract:
sequences considered by the invariant theorem only ever free currently
allocated payloads. -/
def step (s : Heap) : Op → Heap
  | .alloc n => (malloc s n).2
  | .release p => if isAllocPayload s p then free s (some p) else s

/-- Run a sequence of public operations. -/
def run (s : Heap) (ops : List Op) : Heap := ops.foldl step s

/-! ## Heap invariants

The invariants of spec section 3, phrased as executable predicates over the
block list: `segHdrB p bs` says every block's `prev_alloc` bit equals its
physical predecessor's `alloc` state, where `p` is the `alloc` state of the
block before `bs`; `noAdjB p bs` says no two physically adjacent blocks are
both free; `endAlloc p bs` is the `alloc` state of the last block of `bs`
(or `p`); `chainPtrs` checks that a list of addresses is exactly the
doubly linked chain hanging off the free-list head. -/

/-- The `alloc` bit of the last block of `bs`, or `p` when `bs` is empty. -/
def endAlloc (p : Bool) : List Blk → Bool
  | [] => p
  | b :: r => endAlloc b.alloc r

/-- Every block's `prev_alloc` bit equals its predecessor's `alloc` bit
(`p` = the `alloc` bit of the block physically before `bs`). -/
def segHdrB (p : Bool) : List Blk → Bool
  | [] => true
  | b :: r => (b.palloc == p) && segHdrB b.alloc r

/-- No two adjacent blocks are both free (`p` = the `alloc` bit of the
block physically before `bs`; the prologue and epilogue are allocated). -/
def noAdjB (p : Bool) : List Blk → Bool
  | [] => true
  | b :: r => (p || b.alloc) && noAdjB b.alloc r

/-- Block sizes are at least the minimum block size and 16-byte multiples. -/
def sizeOkB (b : Blk) : Bool :=
  decide (min_block_size ≤ b.size) && decide (b.size % 16 = 0)

/-- All blocks satisfy `sizeOkB`. -/
def sizesOkB (bs : List Blk) : Bool := bs.all sizeOkB

/-- `chainPtrs m prev cur L`: starting at pointer `cur` whose previous node
is `prev`, following `next` pointers visits exactly the addresses `L` and
ends at null, with every node's stored `prev` pointer consistent. -/
def chainPtrs (m : PMem) : Option Nat → Option Nat → List Nat → Bool
  | _, cur, [] => cur == none
  | prev, cur, a :: L =>
    cur == some a && ((pget m a).1 == prev) && chainPtrs m (some a) (pget m a).2 L

/-- Well-formedness of a heap state, with `L` the contents of the free
list: the invariants of spec section 3 plus the bookkeeping facts that make
them inductive (capacity accounting; the 2^64 address-space bound). -/
structure WfL (s : Heap) (L : List Nat) : Prop where
  hdr : segHdrB true s.blocks = true
  epi : s.epiPalloc = endAlloc true s.blocks
  adj : noAdjB true s.blocks = true
  sizes : sizesOkB s.blocks = true
  chain : chainPtrs s.pmem none s.flst L = true
  nodup : L.Nodup
  perm : L.Perm (freeAddrs s)
  cap : heapBytes s ≤ s.memCap
  capW : s.memCap < W

/-- Well-formedness of a heap state. -/
def Wf (s : Heap) : Prop := ∃ L, WfL s L

section StructuralLemmas

theorem sumSize_append (A B : List Blk) :
    sumSize (A ++ B) = sumSize A + sumSize B := by
  induction A with
  | nil => simp [sumSize]
  | cons b r ih => simp [sumSize, ih]; omega

theorem endAlloc_append (p : Bool) (A B : List Blk) :
    endAlloc p (A ++ B) = endAlloc (endAlloc p A) B := by
  induction A generalizing p with
  | nil => simp [endAlloc]
  | cons b r ih => simp [endAlloc, ih]

theorem segHdrB_append (p : Bool) (A B : List Blk) :
    segHdrB p (A ++ B) = (segHdrB p A && segHdrB (endAlloc p A) B) := by
  induction A generalizing p with
  | nil => simp [segHdrB, endAlloc]
  | cons b r ih =>
    simp [segHdrB, endAlloc, ih, Bool.and_assoc]

theorem noAdjB_append (p : Bool) (A B : List Blk) :
    noAdjB p (A ++ B) = (noAdjB p A && noAdjB (endAlloc p A) B) := by
  induction A generalizing p with
  | nil => simp [noAdjB, endAlloc]
  | cons b r ih =>
    simp [noAdjB, endAlloc, ih, Bool.and_assoc]

theorem sizesOkB_append (A B : List Blk) :
    sizesOkB (A ++ B) = (sizesOkB A && sizesOkB B) := by
  simp [sizesOkB, List.all_append]

theorem freeAddrsFrom_append (cur : Nat) (A B : List Blk) :
    freeAddrsFrom cur (A ++ B) =
      freeAddrsFrom cur A ++ freeAddrsFrom (cur + sumSize A) B := by
  induction A generalizing cur with
  | nil => simp [freeAddrsFrom, sumSize]
  | cons b r ih =>
    by_cases h : b.alloc <;>
      simp [freeAddrsFrom, h, ih, sumSize, Nat.add_assoc]

theorem freeAddrsFrom_lower {cur : Nat} {bs : List Blk} {a : Nat}
    (h : a ∈ freeAddrsFrom cur bs) : cur ≤ a := by
  induction bs generalizing cur with
  | nil => simp [freeAddrsFrom] at h
  | cons b r ih =>
    by_cases hb : b.alloc
    · simp [freeAddrsFrom, hb] at h
      have := ih h
      omega
    · simp [freeAddrsFrom, hb] at h
      rcases h with h | h
      · omega
      · have := ih h
        omega

theorem freeAddrsFrom_nodup {cur : Nat} {bs : List Blk}
    (hpos : ∀ b ∈ bs, 0 < b.size) : (freeAddrsFrom cur bs).Nodup := by
  induction bs generalizing cur with
  | nil => simp [freeAddrsFrom]
  | cons b r ih =>
    have hb : 0 < b.size := hpos b (by simp)
    have hr : ∀ x ∈ r, 0 < x.size := fun x hx => hpos x (by simp [hx])
    by_cases ha : b.alloc
    · simp only [freeAddrsFrom, ha, if_pos]
      exact ih hr
    · simp only [freeAddrsFrom, ha, if_neg, Bool.false_eq_true,
        not_false_iff]
      refine List.nodup_cons.mpr ⟨?_, ih hr⟩
      intro hmem
      have := freeAddrsFrom_lower hmem
      omega

theorem splitBlocks_sound {cur a : Nat} {bs A B : List Blk} {x : Blk}
    (h : splitBlocks cur a bs = some (A, x, B)) :
    bs = A ++ x :: B ∧ a = cur + sumSize A := by
  induction bs generalizing cur A with
  | nil => simp [splitBlocks] at h
  | cons b r ih =>
    by_cases hc : cur = a
    · simp [splitBlocks, hc] at h
      obtain ⟨hA, hx, hB⟩ := h
      subst hA hx hB
      simp [sumSize, hc]
    · simp only [splitBlocks, if_neg hc] at h
      match hs : splitBlocks (cur + b.size) a r with
      | some (A1, x1, B1) =>
        rw [hs] at h
        simp at h
        obtain ⟨hA, hx, hB⟩ := h
        subst hA hx hB
        obtain ⟨h1, h2⟩ := ih hs
        subst h1
        refine ⟨by simp, ?_⟩
        simp [sumSize]
        omega
      | none =>
        rw [hs] at h
        simp at h

theorem splitBlocks_complete {cur : Nat} {A B : List Blk} {x : Blk}
    (hpos : ∀ b ∈ A, 0 < b.size) :
    splitBlocks cur (cur + sumSize A) (A ++ x :: B) = some (A, x, B) := by
  induction A generalizing cur with
  | nil => simp [splitBlocks, sumSize]
  | cons b r ih =>
    have hb : 0 < b.size := hpos b (by simp)
    have hr : ∀ y ∈ r, 0 < y.size := fun y hy => hpos y (by simp [hy])
    have hne : cur ≠ cur + sumSize (b :: r) := by
      simp [sumSize]
      omega
    simp only [List.cons_append, splitBlocks, if_neg hne]
    have heq : cur + sumSize (b :: r) = (cur + b.size) + sumSize r := by
      simp [sumSize]
      omega
    simp only [List.append_eq]
    rw [heq, ih hr]

theorem blkAtFrom_eq_splitBlocks (cur a : Nat) (bs : List Blk) :
    blkAtFrom cur a bs = (splitBlocks cur a bs).map (fun t => t.2.1) := by
  induction bs generalizing cur with
  | nil => simp [blkAtFrom, splitBlocks]
  | cons b r ih =>
    by_cases hc : cur = a
    · simp [blkAtFrom, splitBlocks, hc]
    · simp only [blkAtFrom, splitBlocks, if_neg hc, ih]
      match hs : splitBlocks (cur + b.size) a r with
      | some (A1, x1, B1) => simp
      | none => simp

end StructuralLemmas

section ChainLemmas

/-- Segment traversal of the doubly linked free list: consuming the
addresses `L` starting from pointer state `(prev, cur)` ends in pointer
state `(p2, c2)`, with every consumed node's stored `prev` pointer
consistent. -/
def SegPtrs (m : PMem) :
    Option Nat → Option Nat → List Nat → Option Nat → Option Nat → Prop
  | prev, cur, [], p2, c2 => p2 = prev ∧ c2 = cur
  | prev, cur, a :: L, p2, c2 =>
    cur = some a ∧ (pget m a).1 = prev ∧
      SegPtrs m (some a) (pget m a).2 L p2 c2

/-- The final `prev` pointer after consuming `L` from previous node
`prev`. -/
def lastOpt (prev : Option Nat) (L : List Nat) : Option Nat :=
  match L.getLast? with
  | some x => some x
  | none => prev

theorem lastOpt_cons (prev : Option Nat) (a : Nat) (L : List Nat) :
    lastOpt prev (a :: L) = lastOpt (some a) L := by
  cases L with
  | nil => simp [lastOpt]
  | cons b r =>
    rw [lastOpt, lastOpt, List.getLast?_cons_cons]
    cases hgl : (b :: r).getLast? with
    | none =>
      rw [List.getLast?_eq_none_iff] at hgl
      exact absurd hgl (by simp)
    | some x => rfl

theorem chainPtrs_iff_seg (m : PMem) (L : List Nat) :
    ∀ prev cur, chainPtrs m prev cur L = true ↔
      SegPtrs m prev cur L (lastOpt prev L) none := by
  induction L with
  | nil =>
    intro prev cur
    show ((cur == none) = true) ↔ (prev = prev ∧ none = cur)
    constructor
    · intro h
      exact ⟨rfl, (eq_of_beq h).symm⟩
    · rintro ⟨-, h⟩
      exact beq_iff_eq.mpr h.symm
  | cons a L ih =>
    intro prev cur
    rw [lastOpt_cons]
    simp only [chainPtrs, SegPtrs, Bool.and_eq_true, beq_iff_eq]
    constructor
    · rintro ⟨⟨h1, h2⟩, h3⟩
      exact ⟨h1, h2, (ih (some a) (pget m a).2).mp h3⟩
    · rintro ⟨h1, h2, h3⟩
      exact ⟨⟨h1, h2⟩, (ih (some a) (pget m a).2).mpr h3⟩

theorem SegPtrs_append {m : PMem} {L1 L2 : List Nat} :
    ∀ {prev cur p2 c2}, SegPtrs m prev cur (L1 ++ L2) p2 c2 ↔
      ∃ p1 c1, SegPtrs m prev cur L1 p1 c1 ∧ SegPtrs m p1 c1 L2 p2 c2 := by
  induction L1 with
  | nil =>
    intro prev cur p2 c2
    constructor
    · intro h; exact ⟨prev, cur, ⟨rfl, rfl⟩, h⟩
    · rintro ⟨p1, c1, ⟨hp, hc⟩, h⟩
      rw [hp, hc] at h
      exact h
  | cons a L ih =>
    intro prev cur p2 c2
    simp only [List.cons_append, SegPtrs]
    constructor
    · rintro ⟨h1, h2, h3⟩
      obtain ⟨p1, c1, hseg1, hseg2⟩ := ih.mp h3
      exact ⟨p1, c1, ⟨h1, h2, hseg1⟩, hseg2⟩
    · rintro ⟨p1, c1, ⟨h1, h2, hseg1⟩, hseg2⟩
      exact ⟨h1, h2, ih.mpr ⟨p1, c1, hseg1, hseg2⟩⟩

theorem SegPtrs_ext {m m' : PMem} {L : List Nat}
    (h : ∀ x ∈ L, pget m' x = pget m x) :
    ∀ {prev cur p2 c2}, SegPtrs m prev cur L p2 c2 →
      SegPtrs m' prev cur L p2 c2 := by
  induction L with
  | nil => intro _ _ _ _ hs; exact hs
  | cons a L ih =>
    intro prev cur p2 c2 hs
    obtain ⟨h1, h2, h3⟩ := hs
    have ha : pget m' a = pget m a := h a (by simp)
    refine ⟨h1, ?_, ?_⟩
    · rw [ha]; exact h2
    · rw [ha]
      exact ih (fun x hx => h x (by simp [hx])) h3

theorem SegPtrs_last {m : PMem} {L : List Nat} :
    ∀ {prev cur p2 c2}, SegPtrs m prev cur L p2 c2 → p2 = lastOpt prev L := by
  induction L with
  | nil => intro prev cur p2 c2 h; simp [lastOpt]; exact h.1
  | cons a L ih =>
    intro prev cur p2 c2 h
    rw [lastOpt_cons]
    exact ih h.2.2

end ChainLemmas

section FlLemmas

theorem lastOpt_append (p : Option Nat) (X Y : List Nat) :
    lastOpt p (X ++ Y) = lastOpt (lastOpt p X) Y := by
  induction X generalizing p with
  | nil => simp [lastOpt]
  | cons x X ih =>
    rw [List.cons_append, lastOpt_cons, ih, lastOpt_cons]

theorem allocAtD_eq_false_of_freeAt {s : Heap} {a : Nat}
    (h : freeAt s a = true) : allocAtD s a = false := by
  unfold freeAt at h
  unfold allocAtD
  cases hg : getBlkA s a with
  | none => rw [hg] at h; simp at h
  | some b =>
    rw [hg] at h
    simp at h
    show b.alloc = false
    exact h

theorem lastOpt_concat (p : Option Nat) (X : List Nat) (y : Nat) :
    lastOpt p (X ++ [y]) = some y := by
  rw [lastOpt, List.getLast?_concat]

theorem SegPtrs_cast_end {m : PMem} {p c p2 c2 : Option Nat} {L : List Nat}
    (h : SegPtrs m p c L p2 c2) : SegPtrs m p c L (lastOpt p L) c2 := by
  rw [← SegPtrs_last h]
  exact h

/-- Effect of `fl_remove` on a well-linked free list: removing the node `a`
of the chain `P ++ a :: Q` yields the chain `P ++ Q`, clears `a`'s stored
pointers, and touches no pointer pair outside the chain.  The heap blocks,
epilogue bit and capacity are untouched. -/
theorem fl_remove_spec (s : Heap) (P Q : List Nat) (a : Nat)
    (hchain : chainPtrs s.pmem none s.flst (P ++ a :: Q) = true)
    (hnd : (P ++ a :: Q).Nodup)
    (halloc : allocAtD s a = false) :
    ∃ m2 f2, fl_remove s (some a) = { s with pmem := m2, flst := f2 } ∧
      chainPtrs m2 none f2 (P ++ Q) = true ∧
      pget m2 a = (none, none) ∧
      (∀ x, x ∉ P ++ a :: Q → pget m2 x = pget s.pmem x) := by
  have hseg0 := (chainPtrs_iff_seg s.pmem (P ++ a :: Q) none s.flst).mp hchain
  obtain ⟨p1, c1, hsegP, hsegA⟩ := SegPtrs_append.mp hseg0
  obtain ⟨hc1, hpA, hsegQ⟩ := hsegA
  have hndm := List.nodup_cons.mp (List.nodup_middle.mp hnd)
  obtain ⟨haPQ, hndPQ⟩ := hndm
  have haP : a ∉ P := fun h => haPQ (List.mem_append.mpr (Or.inl h))
  have haQ : a ∉ Q := fun h => haPQ (List.mem_append.mpr (Or.inr h))
  have hdisj : List.Disjoint P Q := List.disjoint_of_nodup_append hndPQ
  rcases P.eq_nil_or_concat' with rfl | ⟨P0, pl, rfl⟩
  · -- P = []: the removed node is the head; its stored prev is null
    have hp1 : p1 = none := hsegP.1
    have hprev : (pget s.pmem a).1 = none := by rw [hpA, hp1]
    cases Q with
    | nil =>
      -- stored next is null: the list becomes empty
      have hnext : (pget s.pmem a).2 = none := hsegQ.2.symm
      simp only [fl_remove, halloc, Bool.false_eq_true, if_false, hprev, hnext]
      refine ⟨_, _, rfl, ?_, ?_, ?_⟩
      · simp [chainPtrs]
      · rw [pget_pset_same]
      · intro x hx
        have hxa : a ≠ x := by
          intro h
          exact hx (by simp [h])
        rw [pget_pset_other _ _ hxa]
    | cons q Q1 =>
      obtain ⟨hqc, hqprev, hsegQ1⟩ := hsegQ
      have haq : a ≠ q := fun h => haQ (h ▸ List.mem_cons_self q Q1)
      have hndQ : (q :: Q1).Nodup := (List.nodup_cons.mp hnd.of_append_right).2
      have hqQ1 : q ∉ Q1 := (List.nodup_cons.mp hndQ).1
      simp only [fl_remove, halloc, Bool.false_eq_true, if_false, hprev, hqc]
      refine ⟨_, _, rfl, ?_, ?_, ?_⟩
      · -- new chain: q :: Q1 from the new head q
        apply (chainPtrs_iff_seg _ _ _ _).mpr
        rw [List.nil_append, lastOpt_cons]
        have hq1 : pget (pset (pset s.pmem a (none, none)) q
            (none, (pget (pset s.pmem a (none, none)) q).2)) q =
            (none, (pget s.pmem q).2) := by
          rw [pget_pset_same, pget_pset_other _ _ haq]
        refine ⟨rfl, by rw [hq1], ?_⟩
        rw [hq1]
        show SegPtrs _ (some q) (pget s.pmem q).2 Q1 (lastOpt (some q) Q1) none
        apply SegPtrs_ext ?_ (SegPtrs_cast_end hsegQ1)
        intro x hx
        have hxa : a ≠ x := fun h => haQ (h ▸ List.mem_cons_of_mem q hx)
        have hxq : q ≠ x := fun h => hqQ1 (h ▸ hx)
        rw [pget_pset_other _ _ hxq, pget_pset_other _ _ hxa]
      · rw [pget_pset_other _ _ (Ne.symm haq), pget_pset_same]
      · intro x hx
        simp at hx
        obtain ⟨hxa, hxq, hxQ1⟩ := hx
        rw [pget_pset_other _ _ (fun h => hxq h.symm),
          pget_pset_other _ _ (fun h => hxa h.symm)]
  · -- P = P0 ++ [pl]: the removed node has a predecessor pl
    obtain ⟨pA0, cA0, hsegP0, hsegPl⟩ := SegPtrs_append.mp hsegP
    obtain ⟨hcA0, hplprev, hsegPl1⟩ := hsegPl
    have hp1pl : p1 = some pl := hsegPl1.1
    have hc1pl : c1 = (pget s.pmem pl).2 := hsegPl1.2
    have hprev : (pget s.pmem a).1 = some pl := by rw [hpA, hp1pl]
    have hplnext : (pget s.pmem pl).2 = some a := by rw [← hc1pl, hc1]
    have hpla : pl ≠ a := by
      intro h
      exact haP (h ▸ List.mem_append.mpr (Or.inr (List.mem_singleton_self pl)))
    have hndP : (P0 ++ [pl]).Nodup := hnd.of_append_left
    have hplP0 : pl ∉ P0 := by
      intro h
      exact (List.nodup_append.mp hndP).2.2 h (List.mem_singleton_self pl)
    cases Q with
    | nil =>
      have hnext : (pget s.pmem a).2 = none := hsegQ.2.symm
      simp only [fl_remove, halloc, Bool.false_eq_true, if_false, hprev, hnext]
      refine ⟨_, _, rfl, ?_, ?_, ?_⟩
      · -- new chain: P0 ++ [pl] with pl's next cleared
        apply (chainPtrs_iff_seg _ _ _ _).mpr
        rw [List.append_nil, lastOpt_concat]
        apply SegPtrs_append.mpr
        have hpl2 : pget (pset (pset s.pmem a (none, none)) pl
            ((pget (pset s.pmem a (none, none)) pl).1, none)) pl =
            ((pget s.pmem pl).1, none) := by
          rw [pget_pset_same, pget_pset_other _ _ (Ne.symm hpla)]
        refine ⟨pA0, some pl, ?_, ?_⟩
        · rw [hcA0] at hsegP0
          apply SegPtrs_ext ?_ hsegP0
          intro x hx
          have hxpl : pl ≠ x := fun h => hplP0 (h ▸ hx)
          have hxa : a ≠ x :=
            fun h => haP (List.mem_append.mpr (Or.inl (h ▸ hx)))
          rw [pget_pset_other _ _ hxpl, pget_pset_other _ _ hxa]
        · refine ⟨rfl, ?_, ?_, ?_⟩
          · rw [hpl2, hplprev]
          · rfl
          · rw [hpl2]
      · rw [pget_pset_other _ _ hpla, pget_pset_same]
      · intro x hx
        simp at hx
        obtain ⟨hxP0, hxpl, hxa⟩ := hx
        rw [pget_pset_other _ _ (fun h => hxpl h.symm),
          pget_pset_other _ _ (fun h => hxa h.symm)]
    | cons q Q1 =>
      obtain ⟨hqc, hqprev, hsegQ1⟩ := hsegQ
      have haq : a ≠ q := fun h => haQ (h ▸ List.mem_cons_self q Q1)
      have hndQ : (q :: Q1).Nodup := (List.nodup_cons.mp hnd.of_append_right).2
      have hqQ1 : q ∉ Q1 := (List.nodup_cons.mp hndQ).1
      have hplq : pl ≠ q := by
        intro h
        exact hdisj (List.mem_append.mpr (Or.inr (List.mem_singleton_self pl)))
          (h ▸ List.mem_cons_self q Q1)
      simp only [fl_remove, halloc, Bool.false_eq_true, if_false, hprev, hqc]
      refine ⟨_, _, rfl, ?_, ?_, ?_⟩
      · -- new chain: P0 ++ pl :: q :: Q1 with pl and q spliced together
        apply (chainPtrs_iff_seg _ _ _ _).mpr
        have hm2pl : pget (pset (pset s.pmem a (none, none)) pl
            ((pget (pset s.pmem a (none, none)) pl).1, some q)) pl =
            ((pget s.pmem pl).1, some q) := by
          rw [pget_pset_same, pget_pset_other _ _ (Ne.symm hpla)]
        have hm3pl : pget (pset (pset (pset s.pmem a (none, none)) pl
            ((pget (pset s.pmem a (none, none)) pl).1, some q)) q
            (some pl, (pget (pset (pset s.pmem a (none, none)) pl
              ((pget (pset s.pmem a (none, none)) pl).1, some q)) q).2)) pl =
            ((pget s.pmem pl).1, some q) := by
          rw [pget_pset_other _ _ (Ne.symm hplq), hm2pl]
        have hm3q : pget (pset (pset (pset s.pmem a (none, none)) pl
            ((pget (pset s.pmem a (none, none)) pl).1, some q)) q
            (some pl, (pget (pset (pset s.pmem a (none, none)) pl
              ((pget (pset s.pmem a (none, none)) pl).1, some q)) q).2)) q =
            (some pl, (pget s.pmem q).2) := by
          rw [pget_pset_same, pget_pset_other _ _ hplq,
            pget_pset_other _ _ haq]
        have hmx : ∀ x, x ≠ a → x ≠ pl → x ≠ q →
            pget (pset (pset (pset s.pmem a (none, none)) pl
            ((pget (pset s.pmem a (none, none)) pl).1, some q)) q
            (some pl, (pget (pset (pset s.pmem a (none, none)) pl
              ((pget (pset s.pmem a (none, none)) pl).1, some q)) q).2)) x =
            pget s.pmem x := by
          intro x hxa hxpl hxq
          rw [pget_pset_other _ _ (Ne.symm hxq),
            pget_pset_other _ _ (Ne.symm hxpl),
            pget_pset_other _ _ (Ne.symm hxa)]
        rw [show (P0 ++ [pl]) ++ q :: Q1 = P0 ++ (pl :: q :: Q1) by simp]
        rw [lastOpt_append, lastOpt_cons, lastOpt_cons]
        apply SegPtrs_append.mpr
        refine ⟨pA0, some pl, ?_, ?_⟩
        · rw [hcA0] at hsegP0
          apply SegPtrs_ext ?_ hsegP0
          intro x hx
          have hxa : x ≠ a :=
            fun h => haP (List.mem_append.mpr (Or.inl (h ▸ hx)))
          have hxpl : x ≠ pl := fun h => hplP0 (h ▸ hx)
          have hxq : x ≠ q := by
            intro h
            exact hdisj (List.mem_append.mpr (Or.inl hx))
              (h ▸ List.mem_cons_self q Q1)
          exact hmx x hxa hxpl hxq
        · refine ⟨rfl, ?_, ?_⟩
          · rw [hm3pl, hplprev]
          · rw [hm3pl]
            show SegPtrs _ (some pl) (some q) (q :: Q1) _ none
            refine ⟨rfl, ?_, ?_⟩
            · rw [hm3q]
            · rw [hm3q]
              show SegPtrs _ (some q) (pget s.pmem q).2 Q1
                (lastOpt (some q) Q1) none
              apply SegPtrs_ext ?_ (SegPtrs_cast_end hsegQ1)
              intro x hx
              have hxa : x ≠ a :=
                fun h => haQ (List.mem_cons_of_mem q (h ▸ hx))
              have hxq : x ≠ q := fun h => hqQ1 (h ▸ hx)
              have hxpl : x ≠ pl := by
                intro h
                exact hdisj
                  (List.mem_append.mpr (Or.inr (List.mem_singleton_self pl)))
                  (h ▸ List.mem_cons_of_mem q hx)
              exact hmx x hxa hxpl hxq
      · rw [pget_pset_other _ _ (Ne.symm haq), pget_pset_other _ _ hpla,
          pget_pset_same]
      · intro x hx
        simp at hx
        obtain ⟨hxP0, hxpl, hxa, hxq, hxQ1⟩ := hx
        rw [pget_pset_other _ _ (fun h => hxq h.symm),
          pget_pset_other _ _ (fun h => hxpl h.symm),
          pget_pset_other _ _ (fun h => hxa h.symm)]

theorem chainPtrs_ext {m m1 : PMem} {L : List Nat}
    (h : ∀ x ∈ L, pget m1 x = pget m x) :
    ∀ prev cur, chainPtrs m1 prev cur L = chainPtrs m prev cur L := by
  induction L with
  | nil => intro _ _; rfl
  | cons a L ih =>
    intro prev cur
    have ha : pget m1 a = pget m a := h a (List.mem_cons_self a L)
    show (cur == some a && ((pget m1 a).1 == prev) &&
        chainPtrs m1 (some a) (pget m1 a).2 L) = _
    rw [ha, ih (fun x hx => h x (List.mem_cons_of_mem a hx))]
    rfl

/-- Effect of `fl_insert` on a well-linked free list: inserting a block
with cleared stored pointers that is not already in the list prepends it to
the chain, touching no pointer pair outside the new chain. -/
theorem fl_insert_spec (s : Heap) (L : List Nat) (a : Nat)
    (hchain : chainPtrs s.pmem none s.flst L = true)
    (hnd : L.Nodup)
    (hptrs : pget s.pmem a = (none, none))
    (hmem : a ∉ L) :
    ∃ m2, fl_insert s (some a) = { s with pmem := m2, flst := some a } ∧
      chainPtrs m2 none (some a) (a :: L) = true ∧
      (∀ x, x ∉ a :: L → pget m2 x = pget s.pmem x) := by
  cases hf : s.flst with
  | none =>
    have hL : L = [] := by
      cases L with
      | nil => rfl
      | cons b L1 =>
        rw [hf] at hchain
        simp [chainPtrs] at hchain
    subst hL
    refine ⟨s.pmem, ?_, ?_, ?_⟩
    · simp [fl_insert, hf]
    · show (some a == some a && ((pget s.pmem a).1 == none) &&
        chainPtrs s.pmem (some a) (pget s.pmem a).2 []) = true
      rw [hptrs]
      simp [chainPtrs]
    · intro x _
      rfl
  | some st =>
    cases L with
    | nil =>
      rw [hf] at hchain
      simp [chainPtrs] at hchain
    | cons st1 L1 =>
      rw [hf] at hchain
      have hand1 := (Bool.and_eq_true _ _).mp hchain
      have hand2 := (Bool.and_eq_true _ _).mp hand1.1
      have hsthd : st = st1 := by
        have h1 := hand2.1
        simpa using h1
      subst hsthd
      have hsta : st ≠ a := fun h => hmem (h ▸ List.mem_cons_self st L1)
      have hstL1 : st ∉ L1 := (List.nodup_cons.mp hnd).1
      have hrest : chainPtrs s.pmem (some st) (pget s.pmem st).2 L1 = true :=
        hand1.2
      simp only [fl_insert, hf]
      have hm2a : pget (pset (pset s.pmem a ((pget s.pmem a).1, some st))
          st (some a, (pget (pset s.pmem a ((pget s.pmem a).1, some st))
            st).2)) a = (none, some st) := by
        rw [pget_pset_other _ _ hsta, pget_pset_same, hptrs]
      have hm2st : pget (pset (pset s.pmem a ((pget s.pmem a).1, some st))
          st (some a, (pget (pset s.pmem a ((pget s.pmem a).1, some st))
            st).2)) st = (some a, (pget s.pmem st).2) := by
        rw [pget_pset_same, pget_pset_other _ _ (Ne.symm hsta)]
      have hagree : ∀ x ∈ L1,
          pget (pset (pset s.pmem a ((pget s.pmem a).1, some st))
          st (some a, (pget (pset s.pmem a ((pget s.pmem a).1, some st))
            st).2)) x = pget s.pmem x := by
        intro x hx
        have hxa : a ≠ x := fun h => hmem (h ▸ List.mem_cons_of_mem st hx)
        have hxst : st ≠ x := fun h => hstL1 (h ▸ hx)
        rw [pget_pset_other _ _ hxst, pget_pset_other _ _ hxa]
      refine ⟨_, rfl, ?_, ?_⟩
      · show (some a == some a && ((pget _ a).1 == none) &&
          chainPtrs _ (some a) (pget _ a).2 (st :: L1)) = true
        rw [hm2a]
        show (some a == some a && (none == (none : Option Nat)) &&
          (some st == some st && ((pget _ st).1 == some a) &&
            chainPtrs _ (some st) (pget _ st).2 L1)) = true
        rw [hm2st]
        show (some a == some a && (none == (none : Option Nat)) &&
          (some st == some st && (some a == some a) &&
            chainPtrs _ (some st) (pget s.pmem st).2 L1)) = true
        rw [chainPtrs_ext hagree]
        rw [hrest]
        simp
      · intro x hx
        have hxa : a ≠ x := fun h => hx (by rw [h]; exact List.mem_cons_self x _)
        have hxst : st ≠ x := fun h => hx (by
          rw [h]
          exact List.mem_cons_of_mem a (List.mem_cons_self x L1))
        rw [pget_pset_other _ _ hxst, pget_pset_other _ _ hxa]

end FlLemmas

/-! ## Coalescing -/

/-- `alloc` bit of the first block (the epilogue is allocated). -/
def headAllocD : List Blk → Bool
  | [] => true
  | y :: _ => y.alloc

/-- `size` of the first block (0 when there is none). -/
def headSizeD : List Blk → Nat
  | [] => 0
  | y :: _ => y.size

/-- The `prev_alloc` chain is intact from the second block on (the first
block's own `palloc` bit is exempt). -/
def tailSegHdrB : List Blk → Bool
  | [] => true
  | y :: r => segHdrB y.alloc r

/-- No two adjacent blocks are both free, from the first block on, the
first block's relation to its own predecessor being exempt. -/
def tailNoAdjB : List Blk → Bool
  | [] => true
  | y :: r => noAdjB y.alloc r

/-- The epilogue `prev_alloc` bit matches the last block of `bs` (no
constraint when `bs` is empty). -/
def epiTailOk (e : Bool) : List Blk → Bool
  | [] => true
  | y :: r => e == endAlloc y.alloc r

section CoalesceSupport

theorem sizesPos {bs : List Blk} (h : sizesOkB bs = true) :
    ∀ b ∈ bs, 0 < b.size := by
  intro b hb
  have := (List.all_eq_true.mp h) b hb
  unfold sizeOkB at this
  have h1 := ((Bool.and_eq_true _ _).mp this).1
  have h2 := of_decide_eq_true h1
  unfold min_block_size at h2
  omega

theorem sizesOkB_mem {bs : List Blk} (h : sizesOkB bs = true) :
    ∀ b ∈ bs, min_block_size ≤ b.size ∧ b.size % 16 = 0 := by
  intro b hb
  have := (List.all_eq_true.mp h) b hb
  unfold sizeOkB at this
  have h1 := ((Bool.and_eq_true _ _).mp this).1
  have h2 := ((Bool.and_eq_true _ _).mp this).2
  exact ⟨of_decide_eq_true h1, of_decide_eq_true h2⟩

theorem freeAddrsFrom_upper {cur : Nat} {bs : List Blk}
    (hpos : ∀ b ∈ bs, 0 < b.size) :
    ∀ a ∈ freeAddrsFrom cur bs, a < cur + sumSize bs := by
  induction bs generalizing cur with
  | nil => intro a ha; simp [freeAddrsFrom] at ha
  | cons b r ih =>
    intro a ha
    have hb : 0 < b.size := hpos b (by simp)
    have hr : ∀ y ∈ r, 0 < y.size := fun y hy => hpos y (by simp [hy])
    by_cases hal : b.alloc
    · rw [freeAddrsFrom, if_pos hal] at ha
      have := ih hr a ha
      simp [sumSize]
      omega
    · rw [freeAddrsFrom, if_neg hal] at ha
      rcases List.mem_cons.mp ha with rfl | ha
      · simp [sumSize]
        omega
      · have := ih hr a ha
        simp [sumSize]
        omega

theorem erase_middle {l1 l2 : List Nat} {a : Nat} (h : a ∉ l1) :
    (l1 ++ a :: l2).erase a = l1 ++ l2 := by
  rw [List.erase_append_right _ h, List.erase_cons_head]

/-- `freeAddrsFrom` only looks at `alloc` bits and sizes, so patching a
block's `palloc` bit leaves it unchanged. -/
theorem freeAddrsFrom_palloc_patch (cur : Nat) (y : Blk) (pa : Bool)
    (r : List Blk) :
    freeAddrsFrom cur ({ y with palloc := pa } :: r) =
      freeAddrsFrom cur (y :: r) := by
  by_cases h : y.alloc <;> simp [freeAddrsFrom, h]

end CoalesceSupport

theorem sizeOkB_palloc (y : Blk) (pa : Bool) :
    sizeOkB { y with palloc := pa } = sizeOkB y := rfl

/-- The common suffix of all four `coalesce` cases: clear the `prev_alloc`
bit of the block after the merged block (or of the epilogue) and insert the
merged block at the head of the free list.  Starting from a heap whose
blocks are `A2 ++ m :: B2` with `m` the FREE merged block (cleared stored
pointers, not on the free list), this restores full well-formedness with
the free list `merged-address :: L2`. -/
theorem insert_merged_spec (t : Heap) (A2 : List Blk) (m : Blk) (B2 : List Blk)
    (L2 : List Nat)
    (hblocks : t.blocks = A2 ++ m :: B2)
    (hmfree : m.alloc = false)
    (hmptrs : pget t.pmem (base + sumSize A2) = (none, none))
    (hsizes : sizesOkB t.blocks = true)
    (hhdrA : segHdrB true A2 = true)
    (hmpal : m.palloc = endAlloc true A2)
    (hlastA : endAlloc true A2 = true)
    (hheadB : headAllocD B2 = true)
    (hhdrB : tailSegHdrB B2 = true)
    (hepiB : epiTailOk t.epiPalloc B2 = true)
    (hadjA : noAdjB true A2 = true)
    (hadjB : tailNoAdjB B2 = true)
    (hchain : chainPtrs t.pmem none t.flst L2 = true)
    (hnd2 : L2.Nodup)
    (hperm : L2.Perm ((freeAddrs t).erase (base + sumSize A2)))
    (hcap : heapBytes t ≤ t.memCap)
    (hcapW : t.memCap < W) :
    ∃ B3,
      (fl_insert (set_next_palloc t (base + sumSize A2) false)
          (some (base + sumSize A2))).blocks = A2 ++ m :: B3 ∧
      (B2 = [] → B3 = [] ∧
        (fl_insert (set_next_palloc t (base + sumSize A2) false)
          (some (base + sumSize A2))).epiPalloc = false) ∧
      (∀ y r, B2 = y :: r → B3 = { y with palloc := false } :: r) ∧
      WfL (fl_insert (set_next_palloc t (base + sumSize A2) false)
          (some (base + sumSize A2))) ((base + sumSize A2) :: L2) ∧
      (base + sumSize A2) ∉ L2 ∧
      (fl_insert (set_next_palloc t (base + sumSize A2) false)
          (some (base + sumSize A2))).memCap = t.memCap := by
  have hposAll : ∀ b ∈ t.blocks, 0 < b.size := sizesPos hsizes
  have hposA : ∀ b ∈ A2, 0 < b.size := fun b hb =>
    hposAll b (by rw [hblocks]; exact List.mem_append.mpr (Or.inl hb))
  have hsplit : splitBlocks base (base + sumSize A2) t.blocks =
      some (A2, m, B2) := by
    rw [hblocks]
    exact splitBlocks_complete hposA
  have hfreesA_lt : ∀ a ∈ freeAddrsFrom base A2, a < base + sumSize A2 :=
    freeAddrsFrom_upper hposA
  have haMA : (base + sumSize A2) ∉ freeAddrsFrom base A2 := by
    intro h
    have := hfreesA_lt _ h
    omega
  have hfreeT : freeAddrs t = freeAddrsFrom base A2 ++
      (base + sumSize A2) :: freeAddrsFrom (base + sumSize A2 + m.size) B2 := by
    unfold freeAddrs
    rw [hblocks, freeAddrsFrom_append]
    congr 1
    rw [freeAddrsFrom, if_neg (by rw [hmfree]; exact Bool.false_ne_true)]
  have herase : (freeAddrs t).erase (base + sumSize A2) =
      freeAddrsFrom base A2 ++
        freeAddrsFrom (base + sumSize A2 + m.size) B2 := by
    rw [hfreeT, erase_middle haMA]
  have hm : 0 < m.size := hposAll m (by
    rw [hblocks]; exact List.mem_append.mpr (Or.inr (List.mem_cons_self m B2)))
  have haMnot : (base + sumSize A2) ∉ L2 := by
    intro h
    have hin := hperm.mem_iff.mp h
    rw [herase] at hin
    rcases List.mem_append.mp hin with hin | hin
    · exact haMA hin
    · have := freeAddrsFrom_lower hin
      omega
  -- the intermediate state after set_next_palloc
  have hB3 : ∃ B3, set_next_palloc t (base + sumSize A2) false =
      { t with blocks := A2 ++ m :: B3,
               epiPalloc := if B2 = [] then false else t.epiPalloc } ∧
      (B2 = [] → B3 = []) ∧
      (∀ y r, B2 = y :: r → B3 = { y with palloc := false } :: r) := by
    cases B2 with
    | nil =>
      refine ⟨[], ?_, fun _ => rfl, fun y r h => absurd h (by simp)⟩
      simp only [set_next_palloc, hsplit]
      rw [← hblocks]
      simp
    | cons y r =>
      refine ⟨{ y with palloc := false } :: r, ?_, fun h => absurd h (by simp),
        fun y1 r1 h => by injection h with h1 h2; rw [← h1, ← h2]⟩
      simp only [set_next_palloc, hsplit]
      simp
  obtain ⟨B3, hset, hB3nil, hB3cons⟩ := hB3
  obtain ⟨m2, hins, hchain2, hpres⟩ :=
    fl_insert_spec (set_next_palloc t (base + sumSize A2) false) L2
      (base + sumSize A2)
      (by rw [hset]; exact hchain) hnd2 (by rw [hset]; exact hmptrs) haMnot
  have hub : (fl_insert (set_next_palloc t (base + sumSize A2) false)
      (some (base + sumSize A2))).blocks = A2 ++ m :: B3 := by
    rw [hins, hset]
  have hue : (fl_insert (set_next_palloc t (base + sumSize A2) false)
      (some (base + sumSize A2))).epiPalloc =
      (if B2 = [] then false else t.epiPalloc) := by
    rw [hins, hset]
  have hufl : (fl_insert (set_next_palloc t (base + sumSize A2) false)
      (some (base + sumSize A2))).flst = some (base + sumSize A2) := by
    rw [hins]
  have hupm : (fl_insert (set_next_palloc t (base + sumSize A2) false)
      (some (base + sumSize A2))).pmem = m2 := by
    rw [hins]
  have humc : (fl_insert (set_next_palloc t (base + sumSize A2) false)
      (some (base + sumSize A2))).memCap = t.memCap := by
    rw [hins, hset]
  have hB3size : sumSize B3 = sumSize B2 := by
    cases B2 with
    | nil => rw [hB3nil rfl]
    | cons y r => rw [hB3cons y r rfl]; simp [sumSize]
  have hB3sizesOk : sizesOkB (A2 ++ m :: B3) = true := by
    rw [hblocks] at hsizes
    cases B2 with
    | nil => rw [hB3nil rfl]; exact hsizes
    | cons y r =>
      rw [hB3cons y r rfl]
      rw [sizesOkB_append] at hsizes ⊢
      rcases (Bool.and_eq_true _ _).mp hsizes with ⟨h1, h2⟩
      rw [h1]
      simp only [sizesOkB, List.all_cons] at h2 ⊢
      rw [sizeOkB_palloc]
      simpa using h2
  have hB3frees : freeAddrsFrom (base + sumSize A2 + m.size) B3 =
      freeAddrsFrom (base + sumSize A2 + m.size) B2 := by
    cases B2 with
    | nil => rw [hB3nil rfl]
    | cons y r => rw [hB3cons y r rfl, freeAddrsFrom_palloc_patch]
  refine ⟨B3, hub, ?_, hB3cons, ?_, haMnot, humc⟩
  · intro h
    refine ⟨hB3nil h, ?_⟩
    rw [hue, if_pos h]
  · constructor
    · rw [hub, segHdrB_append]
      refine (Bool.and_eq_true _ _).mpr ⟨hhdrA, ?_⟩
      show (m.palloc == endAlloc true A2 && segHdrB m.alloc B3) = true
      rw [hmpal, beq_self_eq_true, Bool.true_and, hmfree]
      cases B2 with
      | nil => rw [hB3nil rfl]; rfl
      | cons y r =>
        rw [hB3cons y r rfl]
        show ((false : Bool) == false && segHdrB y.alloc r) = true
        have := hhdrB
        simp only [tailSegHdrB] at this
        rw [this]
        rfl
    · rw [hub, hue, endAlloc_append]
      show (if B2 = [] then false else t.epiPalloc) = endAlloc m.alloc B3
      cases B2 with
      | nil =>
        rw [hB3nil rfl, if_pos rfl, hmfree]
        rfl
      | cons y r =>
        rw [hB3cons y r rfl, if_neg (by simp)]
        show t.epiPalloc = endAlloc y.alloc r
        have := hepiB
        simp only [epiTailOk] at this
        exact eq_of_beq this
    · rw [hub, noAdjB_append]
      refine (Bool.and_eq_true _ _).mpr ⟨hadjA, ?_⟩
      show ((endAlloc true A2 || m.alloc) && noAdjB m.alloc B3) = true
      rw [hlastA, Bool.true_or, Bool.true_and, hmfree]
      cases B2 with
      | nil => rw [hB3nil rfl]; rfl
      | cons y r =>
        rw [hB3cons y r rfl]
        show ((false || y.alloc) && noAdjB y.alloc r) = true
        have hy : y.alloc = true := hheadB
        have := hadjB
        simp only [tailNoAdjB] at this
        rw [hy] at this
        rw [hy, Bool.false_or, Bool.true_and]
        exact this
    · rw [hub]
      exact hB3sizesOk
    · rw [hupm, hufl]
      exact hchain2
    · exact List.nodup_cons.mpr ⟨haMnot, hnd2⟩
    · show ((base + sumSize A2) :: L2).Perm (freeAddrs _)
      have hfu : freeAddrs (fl_insert (set_next_palloc t
          (base + sumSize A2) false) (some (base + sumSize A2))) =
          freeAddrsFrom base A2 ++ (base + sumSize A2) ::
            freeAddrsFrom (base + sumSize A2 + m.size) B2 := by
        unfold freeAddrs
        rw [hub, freeAddrsFrom_append]
        congr 1
        rw [freeAddrsFrom, if_neg (by rw [hmfree]; exact Bool.false_ne_true)]
        rw [hB3frees]
      rw [hfu]
      refine List.Perm.trans (List.Perm.cons _ (hperm.trans (by rw [herase])))
        List.perm_middle.symm
    · show heapBytes _ ≤ _
      rw [humc]
      unfold heapBytes
      rw [hub, sumSize_append]
      have hsum : sumSize (m :: B3) = m.size + sumSize B2 := by
        show m.size + sumSize B3 = m.size + sumSize B2
        rw [hB3size]
      rw [hsum]
      have hht : heapBytes t = 2 * wsize + (sumSize A2 + (m.size + sumSize B2)) := by
        unfold heapBytes
        rw [hblocks, sumSize_append]
        rfl
      omega
    · rw [humc]
      exact hcapW

/-- `size` of the last block (0 when there is none). -/
def lastSizeD (A : List Blk) : Nat :=
  match A.getLast? with
  | some p => p.size
  | none => 0

section CoalesceEval

theorem coalesce_eval_case1 {s : Heap} {a : Nat} {A : List Blk} {x : Blk}
    {B : List Blk} (hsplit : splitBlocks base a s.blocks = some (A, x, B))
    (hp : x.palloc = true) (hn : headAllocD B = true) :
    coalesce s a = (fl_insert (set_next_palloc s a false) (some a), a) := by
  cases B with
  | nil => simp [coalesce, hsplit, hp]
  | cons y r =>
    have hy : y.alloc = true := hn
    simp [coalesce, hsplit, hp, hy]

theorem coalesce_eval_case2 {s : Heap} {a : Nat} {A : List Blk} {x y : Blk}
    {B1 : List Blk}
    (hsplit : splitBlocks base a s.blocks = some (A, x, y :: B1))
    (hp : x.palloc = true) (hn : y.alloc = false) :
    coalesce s a =
      (fl_insert (set_next_palloc
        { fl_remove s (some (a + x.size)) with
          blocks := A ++ (⟨(x.size + y.size) % W, false, true⟩ : Blk) :: B1 }
          a false) (some a), a) := by
  simp [coalesce, hsplit, hp, hn]

theorem coalesce_eval_case3 {s : Heap} {a : Nat} {A0 : List Blk} {x p : Blk}
    {B : List Blk}
    (hsplit : splitBlocks base a s.blocks = some (A0 ++ [p], x, B))
    (hp : x.palloc = false) (hn : headAllocD B = true) :
    coalesce s a =
      (fl_insert (set_next_palloc
        { fl_remove s (some (a - p.size)) with
          blocks := A0 ++ (⟨(x.size + p.size) % W, false, p.palloc⟩ : Blk) :: B }
          (a - p.size) false)
        (some (a - p.size)), a - p.size) := by
  have hlast : (A0 ++ [p]).getLast? = some p := List.getLast?_concat A0
  have hdrop : (A0 ++ [p]).dropLast = A0 := List.dropLast_concat
  cases B with
  | nil => simp [coalesce, hsplit, hp, hlast, hdrop]
  | cons y r =>
    have hy : y.alloc = true := hn
    simp [coalesce, hsplit, hp, hy, hlast, hdrop]

theorem coalesce_eval_case4 {s : Heap} {a : Nat} {A0 : List Blk} {x p y : Blk}
    {B1 : List Blk}
    (hsplit : splitBlocks base a s.blocks = some (A0 ++ [p], x, y :: B1))
    (hp : x.palloc = false) (hn : y.alloc = false) :
    coalesce s a =
      (fl_insert (set_next_palloc
        { fl_remove (fl_remove s (some (a + x.size))) (some (a - p.size)) with
          blocks :=
            A0 ++ (⟨(x.size + p.size + y.size) % W, false, p.palloc⟩ : Blk) :: B1 }
          (a - p.size) false) (some (a - p.size)), a - p.size) := by
  have hlast : (A0 ++ [p]).getLast? = some p := List.getLast?_concat A0
  have hdrop : (A0 ++ [p]).dropLast = A0 := List.dropLast_concat
  simp [coalesce, hsplit, hp, hn, hlast, hdrop]

end CoalesceEval

section TailHelpers

theorem headAllocD_of_noAdj_false {B : List Blk}
    (h : noAdjB false B = true) : headAllocD B = true := by
  cases B with
  | nil => rfl
  | cons y r =>
    simp only [noAdjB, Bool.false_or, Bool.and_eq_true] at h
    exact h.1

theorem tailSegHdrB_of_seg {p : Bool} {B : List Blk}
    (h : segHdrB p B = true) : tailSegHdrB B = true := by
  cases B with
  | nil => rfl
  | cons y r =>
    simp only [segHdrB, Bool.and_eq_true] at h
    exact h.2

theorem tailNoAdjB_of_noAdj {p : Bool} {B : List Blk}
    (h : noAdjB p B = true) : tailNoAdjB B = true := by
  cases B with
  | nil => rfl
  | cons y r =>
    simp only [noAdjB, Bool.and_eq_true] at h
    exact h.2

theorem epiTailOk_tail {e : Bool} {y : Blk} {B1 : List Blk}
    (h : epiTailOk e (y :: B1) = true) : epiTailOk e B1 = true := by
  cases B1 with
  | nil => rfl
  | cons z r =>
    simp only [epiTailOk, endAlloc] at h ⊢
    exact h

theorem getBlkA_decomp (s : Heap) (A : List Blk) (x : Blk) (B : List Blk)
    (h : s.blocks = A ++ x :: B) (hpos : ∀ b ∈ A, 0 < b.size) :
    getBlkA s (base + sumSize A) = some x := by
  unfold getBlkA
  rw [h, blkAtFrom_eq_splitBlocks, splitBlocks_complete hpos]
  rfl

end TailHelpers

/-- The main specification of `coalesce`, covering all four merge cases.
The hypotheses describe the state in which the allocator always calls
`coalesce`: the heap is `A ++ x :: B` with `x` freshly FREE (header already
rewritten, list pointers cleared, not yet on the free list `L`), all other
invariants intact except that nothing is assumed about the `prev_alloc`
bit of `x`'s successor.  The conclusions: one merged FREE block replaces
the participants, full well-formedness is restored with the merged block's
address pushed once onto the free list, the following block's `prev_alloc`
bit is cleared, the merged block keeps the lowest participant's
`prev_alloc` bit, and the merge is the four-case function of
`(prev_alloc of x, alloc of successor)`. -/
theorem coalesce_spec (s : Heap) (A : List Blk) (x : Blk) (B : List Blk)
    (L : List Nat)
    (hblocks : s.blocks = A ++ x :: B)
    (hxfree : x.alloc = false)
    (hxptrs : pget s.pmem (base + sumSize A) = (none, none))
    (hsizes : sizesOkB s.blocks = true)
    (hhdrA : segHdrB true A = true)
    (hxpal : x.palloc = endAlloc true A)
    (hhdrB : tailSegHdrB B = true)
    (hepiB : epiTailOk s.epiPalloc B = true)
    (hadjA : noAdjB true A = true)
    (hadjB : tailNoAdjB B = true)
    (hchain : chainPtrs s.pmem none s.flst L = true)
    (hnd : L.Nodup)
    (hperm : L.Perm ((freeAddrs s).erase (base + sumSize A)))
    (hcap : heapBytes s ≤ s.memCap)
    (hcapW : s.memCap < W) :
    ∃ A2 m B2 L2,
      (coalesce s (base + sumSize A)).1.blocks = A2 ++ m :: B2 ∧
      (coalesce s (base + sumSize A)).2 = base + sumSize A2 ∧
      WfL (coalesce s (base + sumSize A)).1 ((base + sumSize A2) :: L2) ∧
      (coalesce s (base + sumSize A)).1.memCap = s.memCap ∧
      m.alloc = false ∧
      x.size ≤ m.size ∧
      (base + sumSize A2) ∉ L2 ∧
      (B2 = [] → (coalesce s (base + sumSize A)).1.epiPalloc = false) ∧
      (∀ y r, B2 = y :: r → y.palloc = false) ∧
      (x.palloc = true → m.palloc = true) ∧
      (∀ p, A.getLast? = some p → x.palloc = false → m.palloc = p.palloc) ∧
      (x.palloc = true → headAllocD B = true → A2 = A ∧ m.size = x.size) ∧
      (x.palloc = true → headAllocD B = false →
        A2 = A ∧ m.size = x.size + headSizeD B) ∧
      (x.palloc = false → headAllocD B = true →
        A2 = A.dropLast ∧ m.size = x.size + lastSizeD A) ∧
      (x.palloc = false → headAllocD B = false →
        A2 = A.dropLast ∧ m.size = x.size + lastSizeD A + headSizeD B) := by
  have hposAll : ∀ b ∈ s.blocks, 0 < b.size := sizesPos hsizes
  have hposA : ∀ b ∈ A, 0 < b.size := fun b hb =>
    hposAll b (by rw [hblocks]; exact List.mem_append.mpr (Or.inl hb))
  have hsplit : splitBlocks base (base + sumSize A) s.blocks =
      some (A, x, B) := by
    rw [hblocks]
    exact splitBlocks_complete hposA
  cases hxp : x.palloc with
  | true =>
    cases hhead : headAllocD B with
    | true =>
      -- Case 1: both neighbours allocated, no merge
      rw [coalesce_eval_case1 hsplit hxp hhead]
      obtain ⟨B3, hub, hnil, hcons, hwf, hnot, hmc⟩ :=
        insert_merged_spec s A x B L hblocks hxfree hxptrs hsizes hhdrA hxpal
          (by rw [← hxpal]; exact hxp) hhead hhdrB hepiB hadjA hadjB hchain
          hnd hperm hcap hcapW
      refine ⟨A, x, B3, L, hub, rfl, hwf, hmc, hxfree, Nat.le_refl _, hnot,
        ?_, ?_, fun _ => hxp, ?_, fun _ _ => ⟨rfl, rfl⟩, ?_, ?_, ?_⟩
      · intro h3
        cases hB : B with
        | nil => exact (hnil hB).2
        | cons y r =>
          rw [hcons y r hB] at h3
          exact absurd h3 (by simp)
      · intro y r h3
        cases hB : B with
        | nil =>
          rw [(hnil hB).1] at h3
          exact absurd h3 (by simp)
        | cons y0 r0 =>
          rw [hcons y0 r0 hB] at h3
          injection h3 with h4 h5
          rw [← h4]
      · intro p hgl hxf
        exact absurd hxf (by simp)
      · intro _ hh
        exact absurd hh (by simp)
      · intro hxf
        exact absurd hxf (by simp)
      · intro hxf
        exact absurd hxf (by simp)
    | false =>
      -- Case 2: predecessor allocated, successor free
      cases hB : B with
      | nil =>
        rw [hB] at hhead
        exact absurd hhead (by simp [headAllocD])
      | cons y B1 =>
        subst hB
        have hy : y.alloc = false := by
          simp only [headAllocD] at hhead
          exact hhead
        have hxmem : x ∈ s.blocks := by
          rw [hblocks]
          exact List.mem_append.mpr (Or.inr (List.mem_cons_self _ _))
        have hymem : y ∈ s.blocks := by
          rw [hblocks]
          exact List.mem_append.mpr
            (Or.inr (List.mem_cons_of_mem _ (List.mem_cons_self _ _)))
        obtain ⟨hx32, hx16⟩ := sizesOkB_mem hsizes x hxmem
        obtain ⟨hy32, hy16⟩ := sizesOkB_mem hsizes y hymem
        have hw16 : 2 * wsize = 16 := rfl
        have hsum_blocks : sumSize s.blocks =
            sumSize A + (x.size + (y.size + sumSize B1)) := by
          rw [hblocks, sumSize_append]
          rfl
        have hcap2 : 2 * wsize + sumSize s.blocks ≤ s.memCap := hcap
        have hxyW : x.size + y.size < W := by omega
        have hmod : (x.size + y.size) % W = x.size + y.size :=
          Nat.mod_eq_of_lt hxyW
        have hfreesAlt : ∀ a ∈ freeAddrsFrom base A, a < base + sumSize A :=
          freeAddrsFrom_upper hposA
        have hfreeT : freeAddrs s = freeAddrsFrom base A ++
            (base + sumSize A) :: (base + sumSize A + x.size) ::
              freeAddrsFrom (base + sumSize A + x.size + y.size) B1 := by
          unfold freeAddrs
          rw [hblocks, freeAddrsFrom_append]
          congr 1
          rw [freeAddrsFrom, if_neg (by rw [hxfree]; exact Bool.false_ne_true)]
          congr 1
          rw [freeAddrsFrom, if_neg (by rw [hy]; exact Bool.false_ne_true)]
        have haXA : (base + sumSize A) ∉ freeAddrsFrom base A := by
          intro h
          have := hfreesAlt _ h
          omega
        have herase : (freeAddrs s).erase (base + sumSize A) =
            freeAddrsFrom base A ++ (base + sumSize A + x.size) ::
              freeAddrsFrom (base + sumSize A + x.size + y.size) B1 := by
          rw [hfreeT, erase_middle haXA]
        have h32 : min_block_size = 32 := rfl
        have hxpos : 0 < x.size := by omega
        have haYA : (base + sumSize A + x.size) ∉ freeAddrsFrom base A := by
          intro h
          have := hfreesAlt _ h
          omega
        have haY_mem : (base + sumSize A + x.size) ∈ L := by
          apply hperm.mem_iff.mpr
          rw [herase]
          exact List.mem_append.mpr (Or.inr (List.mem_cons_self _ _))
        obtain ⟨P, Q, hPQ⟩ := List.append_of_mem haY_mem
        have hchain2 : chainPtrs s.pmem none s.flst
            (P ++ (base + sumSize A + x.size) :: Q) = true := by
          rw [← hPQ]
          exact hchain
        have hndPQ : (P ++ (base + sumSize A + x.size) :: Q).Nodup := hPQ ▸ hnd
        have hndPQ2 : (P ++ Q).Nodup :=
          (List.nodup_cons.mp (List.nodup_middle.mp hndPQ)).2
        have haYP : (base + sumSize A + x.size) ∉ P := by
          intro h
          exact (List.nodup_cons.mp (List.nodup_middle.mp hndPQ)).1
            (List.mem_append.mpr (Or.inl h))
        have hsumAx : base + sumSize A + x.size = base + sumSize (A ++ [x]) := by
          rw [sumSize_append]
          show base + sumSize A + x.size = base + (sumSize A + (x.size + 0))
          omega
        have hposAx : ∀ b ∈ A ++ [x], 0 < b.size := by
          intro b hb
          rcases List.mem_append.mp hb with hb | hb
          · exact hposA b hb
          · rw [List.mem_singleton.mp hb]
            omega
        have hallocY : allocAtD s (base + sumSize A + x.size) = false := by
          unfold allocAtD
          rw [hsumAx, getBlkA_decomp s (A ++ [x]) y B1 (by rw [hblocks]; simp)
            hposAx]
          exact hy
        obtain ⟨m2, f2, hrm, hchainPQ, hYnull, hpres⟩ :=
          fl_remove_spec s P Q (base + sumSize A + x.size) hchain2 hndPQ hallocY
        have hndF : (freeAddrs s).Nodup := freeAddrsFrom_nodup hposAll
        have haXL : (base + sumSize A) ∉ L := by
          intro h
          have h2 := hperm.mem_iff.mp h
          exact absurd (hndF.mem_erase_iff.mp h2).1 (by simp)
        rw [coalesce_eval_case2 hsplit hxp hy]
        have hsz2 : sizesOkB
            (A ++ (⟨(x.size + y.size) % W, false, true⟩ : Blk) :: B1) = true := by
          rw [hblocks] at hsizes
          rw [sizesOkB_append] at hsizes ⊢
          obtain ⟨h1, h2⟩ := (Bool.and_eq_true _ _).mp hsizes
          rw [h1]
          simp only [sizesOkB, List.all_cons, Bool.and_eq_true] at h2 ⊢
          refine ⟨trivial, ?_, h2.2.2⟩
          simp only [sizeOkB, Bool.and_eq_true, decide_eq_true_eq]
          constructor
          · show min_block_size ≤ (x.size + y.size) % W
            rw [hmod]
            omega
          · show (x.size + y.size) % W % 16 = 0
            rw [hmod]
            omega
        obtain ⟨B4, hub, hnil, hcons, hwf, hnot, hmc⟩ :=
          insert_merged_spec
            { fl_remove s (some (base + sumSize A + x.size)) with
              blocks := A ++ (⟨(x.size + y.size) % W, false, true⟩ : Blk) :: B1 }
            A (⟨(x.size + y.size) % W, false, true⟩ : Blk) B1 (P ++ Q)
            rfl rfl
            (by show pget (fl_remove s (some (base + sumSize A + x.size))).pmem
                  (base + sumSize A) = (none, none)
                rw [hrm]
                show pget m2 (base + sumSize A) = (none, none)
                rw [hpres _ (by rw [← hPQ]; exact haXL)]
                exact hxptrs)
            hsz2
            hhdrA
            (by show (true : Bool) = endAlloc true A
                rw [← hxpal]
                exact hxp.symm)
            (by rw [← hxpal]; exact hxp)
            (by apply headAllocD_of_noAdj_false
                have h3 := hadjB
                simp only [tailNoAdjB] at h3
                rw [hy] at h3
                exact h3)
            (by have h3 := hhdrB
                simp only [tailSegHdrB] at h3
                exact tailSegHdrB_of_seg h3)
            (by show epiTailOk
                  (fl_remove s (some (base + sumSize A + x.size))).epiPalloc
                  B1 = true
                rw [hrm]
                exact epiTailOk_tail hepiB)
            hadjA
            (by have h3 := hadjB
                simp only [tailNoAdjB] at h3
                exact tailNoAdjB_of_noAdj h3)
            (by show chainPtrs
                  (fl_remove s (some (base + sumSize A + x.size))).pmem none
                  (fl_remove s (some (base + sumSize A + x.size))).flst
                  (P ++ Q) = true
                rw [hrm]
                exact hchainPQ)
            hndPQ2
            (by -- (P ++ Q).Perm ((freeAddrs after surgery).erase aX)
                have hfu : freeAddrs
                    { fl_remove s (some (base + sumSize A + x.size)) with
                      blocks := A ++
                        (⟨(x.size + y.size) % W, false, true⟩ : Blk) :: B1 } =
                    freeAddrsFrom base A ++ (base + sumSize A) ::
                      freeAddrsFrom (base + sumSize A + x.size + y.size) B1 := by
                  show freeAddrsFrom base
                    (A ++ (⟨(x.size + y.size) % W, false, true⟩ : Blk) :: B1) = _
                  rw [freeAddrsFrom_append]
                  congr 1
                  rw [freeAddrsFrom]
                  rw [if_neg (by simp)]
                  congr 2
                  show base + sumSize A + ((x.size + y.size) % W) =
                    base + sumSize A + x.size + y.size
                  rw [hmod]
                  omega
                rw [hfu, erase_middle haXA]
                have e1 : L.erase (base + sumSize A + x.size) = P ++ Q := by
                  rw [hPQ]
                  exact erase_middle haYP
                have e2 := hperm.erase (base + sumSize A + x.size)
                rw [e1, herase, erase_middle haYA] at e2
                exact e2)
            (by show heapBytes
                  { fl_remove s (some (base + sumSize A + x.size)) with
                    blocks := A ++
                      (⟨(x.size + y.size) % W, false, true⟩ : Blk) :: B1 } ≤ _
                show 2 * wsize + sumSize (A ++
                  (⟨(x.size + y.size) % W, false, true⟩ : Blk) :: B1) ≤ _
                rw [sumSize_append]
                show 2 * wsize + (sumSize A + ((x.size + y.size) % W +
                  sumSize B1)) ≤ (fl_remove s
                    (some (base + sumSize A + x.size))).memCap
                rw [hrm, hmod]
                show _ ≤ s.memCap
                omega)
            (by show (fl_remove s
                  (some (base + sumSize A + x.size))).memCap < W
                rw [hrm]
                exact hcapW)
        refine ⟨A, ⟨(x.size + y.size) % W, false, true⟩, B4, P ++ Q,
          hub, rfl, hwf, ?_, rfl, ?_, hnot, ?_, ?_, fun _ => rfl, ?_,
          ?_, ?_, ?_, ?_⟩
        · rw [hmc, hrm]
        · show x.size ≤ (x.size + y.size) % W
          rw [hmod]
          omega
        · intro h3
          have hd : B1 = [] ∨ ∃ z r, B1 = z :: r := by
            cases B1 with
            | nil => exact Or.inl rfl
            | cons z r => exact Or.inr ⟨z, r, rfl⟩
          rcases hd with hB1 | ⟨z, r, hB1⟩
          · exact (hnil hB1).2
          · rw [hcons z r hB1] at h3
            exact absurd h3 (by simp)
        · intro z r h3
          have hd : B1 = [] ∨ ∃ z0 r0, B1 = z0 :: r0 := by
            cases B1 with
            | nil => exact Or.inl rfl
            | cons z0 r0 => exact Or.inr ⟨z0, r0, rfl⟩
          rcases hd with hB1 | ⟨z0, r0, hB1⟩
          · rw [(hnil hB1).1] at h3
            exact absurd h3 (by simp)
          · rw [hcons z0 r0 hB1] at h3
            injection h3 with h4 h5
            rw [← h4]
        · intro p hgl hxf
          exact absurd hxf (by simp)
        · intro _ hh
          exact absurd hh (by simp)
        · intro _ _
          refine ⟨rfl, ?_⟩
          show (x.size + y.size) % W = x.size + headSizeD (y :: B1)
          rw [hmod]
          rfl
        · intro hxf
          exact absurd hxf (by simp)
        · intro hxf
          exact absurd hxf (by simp)
  | false =>
    -- The predecessor is free: `A` ends in a free block `p`.
    have hend : endAlloc true A = false := by rw [← hxpal]; exact hxp
    rcases List.eq_nil_or_concat' A with hA | ⟨A0, p, hA⟩
    · rw [hA] at hend
      exact absurd hend (by simp [endAlloc])
    subst hA
    have hpfree : p.alloc = false := by
      rw [endAlloc_append] at hend
      simpa [endAlloc] using hend
    have hposA0 : ∀ b ∈ A0, 0 < b.size := fun b hb =>
      hposA b (List.mem_append.mpr (Or.inl hb))
    have hppos : 0 < p.size :=
      hposA p (List.mem_append.mpr (Or.inr (List.mem_singleton.mpr rfl)))
    have hsumA : sumSize (A0 ++ [p]) = sumSize A0 + p.size := by
      rw [sumSize_append]
      show sumSize A0 + (p.size + 0) = sumSize A0 + p.size
      omega
    have haddr : base + sumSize (A0 ++ [p]) - p.size = base + sumSize A0 := by
      omega
    have hhdrA' := hhdrA
    rw [segHdrB_append, Bool.and_eq_true] at hhdrA'
    have hhdrA0 : segHdrB true A0 = true := hhdrA'.1
    have hppal : p.palloc = endAlloc true A0 := by
      have h2 := hhdrA'.2
      simp only [segHdrB, Bool.and_eq_true, beq_iff_eq] at h2
      exact h2.1
    have hadjA' := hadjA
    rw [noAdjB_append, Bool.and_eq_true] at hadjA'
    have hadjA0 : noAdjB true A0 = true := hadjA'.1
    have hlastA0 : endAlloc true A0 = true := by
      have h2 := hadjA'.2
      simp only [noAdjB, Bool.and_eq_true, Bool.or_eq_true] at h2
      rcases h2.1 with h | h
      · exact h
      · rw [hpfree] at h
        exact absurd h (by simp)
    have hxmem : x ∈ s.blocks := by
      rw [hblocks]
      exact List.mem_append.mpr (Or.inr (List.mem_cons_self _ _))
    have hpmem : p ∈ s.blocks := by
      rw [hblocks]
      exact List.mem_append.mpr
        (Or.inl (List.mem_append.mpr (Or.inr (List.mem_singleton.mpr rfl))))
    obtain ⟨hx32, hx16⟩ := sizesOkB_mem hsizes x hxmem
    obtain ⟨hp32, hp16⟩ := sizesOkB_mem hsizes p hpmem
    have h32 : min_block_size = 32 := rfl
    have hw16 : 2 * wsize = 16 := rfl
    have hcap2 : 2 * wsize + sumSize s.blocks ≤ s.memCap := hcap
    have hfreesA0 : ∀ a ∈ freeAddrsFrom base A0, a < base + sumSize A0 :=
      freeAddrsFrom_upper hposA0
    have hfA : freeAddrsFrom base (A0 ++ [p]) =
        freeAddrsFrom base A0 ++ [base + sumSize A0] := by
      rw [freeAddrsFrom_append]
      congr 1
      rw [freeAddrsFrom, if_neg (by rw [hpfree]; exact Bool.false_ne_true)]
      rfl
    have hfreeS : freeAddrs s =
        (freeAddrsFrom base A0 ++ [base + sumSize A0]) ++
          (base + sumSize (A0 ++ [p])) ::
            freeAddrsFrom (base + sumSize (A0 ++ [p]) + x.size) B := by
      unfold freeAddrs
      rw [hblocks, freeAddrsFrom_append, hfA]
      congr 1
      rw [freeAddrsFrom, if_neg (by rw [hxfree]; exact Bool.false_ne_true)]
    have hnotF : (base + sumSize (A0 ++ [p])) ∉
        freeAddrsFrom base A0 ++ [base + sumSize A0] := by
      intro h
      rcases List.mem_append.mp h with h | h
      · have := hfreesA0 _ h
        omega
      · rw [List.mem_singleton] at h
        omega
    have herase : (freeAddrs s).erase (base + sumSize (A0 ++ [p])) =
        (freeAddrsFrom base A0 ++ [base + sumSize A0]) ++
          freeAddrsFrom (base + sumSize (A0 ++ [p]) + x.size) B := by
      rw [hfreeS]
      exact erase_middle hnotF
    have haP_memL : (base + sumSize A0) ∈ L := by
      apply hperm.mem_iff.mpr
      rw [herase]
      exact List.mem_append.mpr
        (Or.inl (List.mem_append.mpr (Or.inr (List.mem_singleton.mpr rfl))))
    cases hhead : headAllocD B with
    | true =>
      -- Case 3: predecessor free, successor allocated
      obtain ⟨P, Q, hPQ⟩ := List.append_of_mem haP_memL
      have hchain2 : chainPtrs s.pmem none s.flst
          (P ++ (base + sumSize A0) :: Q) = true := by
        rw [← hPQ]
        exact hchain
      have hndPQ : (P ++ (base + sumSize A0) :: Q).Nodup := hPQ ▸ hnd
      have hndPQ2 : (P ++ Q).Nodup :=
        (List.nodup_cons.mp (List.nodup_middle.mp hndPQ)).2
      have haPP : (base + sumSize A0) ∉ P := fun h =>
        (List.nodup_cons.mp (List.nodup_middle.mp hndPQ)).1
          (List.mem_append.mpr (Or.inl h))
      have hblocks0 : s.blocks = A0 ++ p :: (x :: B) := by
        rw [hblocks]
        simp
      have hallocP : allocAtD s (base + sumSize A0) = false := by
        unfold allocAtD
        rw [getBlkA_decomp s A0 p (x :: B) hblocks0 hposA0]
        exact hpfree
      obtain ⟨m2, f2, hrm, hchainPQ, hPnull, hpres⟩ :=
        fl_remove_spec s P Q (base + sumSize A0) hchain2 hndPQ hallocP
      have hsum_blocks : sumSize s.blocks =
          sumSize A0 + (p.size + (x.size + sumSize B)) := by
        rw [hblocks0, sumSize_append]
        rfl
      have hxpW : x.size + p.size < W := by omega
      have hmod : (x.size + p.size) % W = x.size + p.size :=
        Nat.mod_eq_of_lt hxpW
      have haddr2 : base + sumSize A0 + ((x.size + p.size) % W) =
          base + sumSize (A0 ++ [p]) + x.size := by
        rw [hmod]
        omega
      rw [coalesce_eval_case3 hsplit hxp hhead, haddr]
      have hsz2 : sizesOkB
          (A0 ++ (⟨(x.size + p.size) % W, false, p.palloc⟩ : Blk) :: B)
            = true := by
        rw [hblocks0] at hsizes
        rw [sizesOkB_append] at hsizes ⊢
        rw [Bool.and_eq_true] at hsizes ⊢
        refine ⟨hsizes.1, ?_⟩
        have h2 := hsizes.2
        simp only [sizesOkB, List.all_cons, Bool.and_eq_true] at h2 ⊢
        refine ⟨?_, h2.2.2⟩
        simp only [sizeOkB, Bool.and_eq_true, decide_eq_true_eq]
        constructor
        · show min_block_size ≤ (x.size + p.size) % W
          rw [hmod]
          omega
        · show (x.size + p.size) % W % 16 = 0
          rw [hmod]
          omega
      obtain ⟨B4, hub, hnil, hcons, hwf, hnot, hmc⟩ :=
        insert_merged_spec
          { fl_remove s (some (base + sumSize A0)) with
            blocks := A0 ++ (⟨(x.size + p.size) % W, false, p.palloc⟩ : Blk) :: B }
          A0 (⟨(x.size + p.size) % W, false, p.palloc⟩ : Blk) B (P ++ Q)
          rfl rfl
          (by show pget (fl_remove s (some (base + sumSize A0))).pmem
                (base + sumSize A0) = (none, none)
              rw [hrm]
              exact hPnull)
          hsz2
          hhdrA0
          hppal
          hlastA0
          hhead
          hhdrB
          (by show epiTailOk (fl_remove s (some (base + sumSize A0))).epiPalloc
                B = true
              rw [hrm]
              exact hepiB)
          hadjA0
          hadjB
          (by show chainPtrs (fl_remove s (some (base + sumSize A0))).pmem none
                (fl_remove s (some (base + sumSize A0))).flst (P ++ Q) = true
              rw [hrm]
              exact hchainPQ)
          hndPQ2
          (by have hfu : freeAddrs
                { fl_remove s (some (base + sumSize A0)) with
                  blocks := A0 ++
                    (⟨(x.size + p.size) % W, false, p.palloc⟩ : Blk) :: B } =
                  freeAddrsFrom base A0 ++ (base + sumSize A0) ::
                    freeAddrsFrom (base + sumSize (A0 ++ [p]) + x.size) B := by
                show freeAddrsFrom base (A0 ++
                  (⟨(x.size + p.size) % W, false, p.palloc⟩ : Blk) :: B) = _
                rw [freeAddrsFrom_append]
                congr 1
                rw [freeAddrsFrom]
                rw [if_neg (by simp)]
                rw [haddr2]
              rw [hfu, erase_middle (fun h => by have := hfreesA0 _ h; omega)]
              have e1 : L.erase (base + sumSize A0) = P ++ Q := by
                rw [hPQ]
                exact erase_middle haPP
              have e2 := hperm.erase (base + sumSize A0)
              rw [e1, herase] at e2
              rw [show (freeAddrsFrom base A0 ++ [base + sumSize A0]) ++
                    freeAddrsFrom (base + sumSize (A0 ++ [p]) + x.size) B =
                  freeAddrsFrom base A0 ++ (base + sumSize A0) ::
                    freeAddrsFrom (base + sumSize (A0 ++ [p]) + x.size) B from
                by simp] at e2
              rw [erase_middle (fun h => by have := hfreesA0 _ h; omega)] at e2
              exact e2)
          (by show 2 * wsize + sumSize (A0 ++
                (⟨(x.size + p.size) % W, false, p.palloc⟩ : Blk) :: B) ≤
                (fl_remove s (some (base + sumSize A0))).memCap
              rw [sumSize_append, hrm]
              show 2 * wsize + (sumSize A0 + ((x.size + p.size) % W +
                sumSize B)) ≤ s.memCap
              rw [hmod]
              omega)
          (by show (fl_remove s (some (base + sumSize A0))).memCap < W
              rw [hrm]
              exact hcapW)
      refine ⟨A0, ⟨(x.size + p.size) % W, false, p.palloc⟩, B4, P ++ Q,
        hub, rfl, hwf, ?_, rfl, ?_, hnot, ?_, ?_, ?_, ?_, ?_, ?_, ?_, ?_⟩
      · rw [hmc, hrm]
      · show x.size ≤ (x.size + p.size) % W
        rw [hmod]
        omega
      · intro h3
        have hd : B = [] ∨ ∃ z r, B = z :: r := by
          cases B with
          | nil => exact Or.inl rfl
          | cons z r => exact Or.inr ⟨z, r, rfl⟩
        rcases hd with hB | ⟨z, r, hB⟩
        · exact (hnil hB).2
        · rw [hcons z r hB] at h3
          exact absurd h3 (by simp)
      · intro z r h3
        have hd : B = [] ∨ ∃ z0 r0, B = z0 :: r0 := by
          cases B with
          | nil => exact Or.inl rfl
          | cons z0 r0 => exact Or.inr ⟨z0, r0, rfl⟩
        rcases hd with hB | ⟨z0, r0, hB⟩
        · rw [(hnil hB).1] at h3
          exact absurd h3 (by simp)
        · rw [hcons z0 r0 hB] at h3
          injection h3 with h4 h5
          rw [← h4]
      · intro hxf
        exact absurd hxf (by simp)
      · intro p' hgl _
        rw [List.getLast?_concat] at hgl
        injection hgl with h4
        rw [← h4]
      · intro hxf
        exact absurd hxf (by simp)
      · intro hxf
        exact absurd hxf (by simp)
      · intro _ _
        refine ⟨(List.dropLast_concat).symm, ?_⟩
        show (x.size + p.size) % W = x.size + lastSizeD (A0 ++ [p])
        rw [hmod]
        simp [lastSizeD, List.getLast?_concat]
      · intro _ hh
        exact absurd hh (by simp)
    | false =>
      -- Case 4: both neighbours free
      cases hB : B with
      | nil =>
        rw [hB] at hhead
        exact absurd hhead (by simp [headAllocD])
      | cons y B1 =>
        subst hB
        have hy : y.alloc = false := by
          simp only [headAllocD] at hhead
          exact hhead
        have hymem : y ∈ s.blocks := by
          rw [hblocks]
          exact List.mem_append.mpr
            (Or.inr (List.mem_cons_of_mem _ (List.mem_cons_self _ _)))
        obtain ⟨hy32, hy16⟩ := sizesOkB_mem hsizes y hymem
        have hblocks0 : s.blocks = A0 ++ p :: (x :: y :: B1) := by
          rw [hblocks]
          simp
        have hsum_blocks : sumSize s.blocks =
            sumSize A0 + (p.size + (x.size + (y.size + sumSize B1))) := by
          rw [hblocks0, sumSize_append]
          rfl
        have hxpyW : x.size + p.size + y.size < W := by omega
        have hmod : (x.size + p.size + y.size) % W =
            x.size + p.size + y.size := Nat.mod_eq_of_lt hxpyW
        have haddr3 : base + sumSize A0 + ((x.size + p.size + y.size) % W) =
            base + sumSize (A0 ++ [p]) + x.size + y.size := by
          rw [hmod]
          omega
        have herase2 : (freeAddrs s).erase (base + sumSize (A0 ++ [p])) =
            (freeAddrsFrom base A0 ++ [base + sumSize A0]) ++
              (base + sumSize (A0 ++ [p]) + x.size) ::
                freeAddrsFrom (base + sumSize (A0 ++ [p]) + x.size + y.size)
                  B1 := by
          rw [herase]
          congr 1
          rw [freeAddrsFrom, if_neg (by rw [hy]; exact Bool.false_ne_true)]
        have hnotY : (base + sumSize (A0 ++ [p]) + x.size) ∉
            freeAddrsFrom base A0 ++ [base + sumSize A0] := by
          intro h
          rcases List.mem_append.mp h with h | h
          · have := hfreesA0 _ h
            omega
          · rw [List.mem_singleton] at h
            omega
        have haY_memL : (base + sumSize (A0 ++ [p]) + x.size) ∈ L := by
          apply hperm.mem_iff.mpr
          rw [herase2]
          exact List.mem_append.mpr (Or.inr (List.mem_cons_self _ _))
        obtain ⟨P1, Q1, hPQ1⟩ := List.append_of_mem haY_memL
        have hchain1 : chainPtrs s.pmem none s.flst
            (P1 ++ (base + sumSize (A0 ++ [p]) + x.size) :: Q1) = true := by
          rw [← hPQ1]
          exact hchain
        have hndPQ1 : (P1 ++ (base + sumSize (A0 ++ [p]) + x.size) :: Q1).Nodup :=
          hPQ1 ▸ hnd
        have hndPQ1' : (P1 ++ Q1).Nodup :=
          (List.nodup_cons.mp (List.nodup_middle.mp hndPQ1)).2
        have haYP1 : (base + sumSize (A0 ++ [p]) + x.size) ∉ P1 := fun h =>
          (List.nodup_cons.mp (List.nodup_middle.mp hndPQ1)).1
            (List.mem_append.mpr (Or.inl h))
        have hsumApx : base + sumSize (A0 ++ [p]) + x.size =
            base + sumSize ((A0 ++ [p]) ++ [x]) := by
          rw [sumSize_append (A0 ++ [p]) [x]]
          show _ = base + (sumSize (A0 ++ [p]) + (x.size + 0))
          omega
        have hposApx : ∀ b ∈ (A0 ++ [p]) ++ [x], 0 < b.size := by
          intro b hb
          rcases List.mem_append.mp hb with hb | hb
          · exact hposA b hb
          · rw [List.mem_singleton.mp hb]
            exact hposAll x hxmem
        have hallocY : allocAtD s (base + sumSize (A0 ++ [p]) + x.size)
            = false := by
          unfold allocAtD
          rw [hsumApx, getBlkA_decomp s ((A0 ++ [p]) ++ [x]) y B1
            (by rw [hblocks]; simp) hposApx]
          exact hy
        obtain ⟨m2, f2, hrm1, hchain1', hYnull, hpres1⟩ :=
          fl_remove_spec s P1 Q1 (base + sumSize (A0 ++ [p]) + x.size)
            hchain1 hndPQ1 hallocY
        have haP_mem2 : (base + sumSize A0) ∈ P1 ++ Q1 := by
          have h1 : (base + sumSize A0) ∈
              P1 ++ (base + sumSize (A0 ++ [p]) + x.size) :: Q1 := by
            rw [← hPQ1]
            exact haP_memL
          rcases List.mem_append.mp h1 with h | h
          · exact List.mem_append.mpr (Or.inl h)
          · rcases List.mem_cons.mp h with h | h
            · exfalso
              have hxpos : 0 < x.size := by omega
              omega
            · exact List.mem_append.mpr (Or.inr h)
        obtain ⟨P2, Q2, hPQ2⟩ := List.append_of_mem haP_mem2
        have hchain2 : chainPtrs m2 none f2
            (P2 ++ (base + sumSize A0) :: Q2) = true := by
          rw [← hPQ2]
          exact hchain1'
        have hndPQ2 : (P2 ++ (base + sumSize A0) :: Q2).Nodup := hPQ2 ▸ hndPQ1'
        have hndPQ2' : (P2 ++ Q2).Nodup :=
          (List.nodup_cons.mp (List.nodup_middle.mp hndPQ2)).2
        have haPP2 : (base + sumSize A0) ∉ P2 := fun h =>
          (List.nodup_cons.mp (List.nodup_middle.mp hndPQ2)).1
            (List.mem_append.mpr (Or.inl h))
        have hallocP1 : allocAtD { s with pmem := m2, flst := f2 }
            (base + sumSize A0) = false := by
          unfold allocAtD
          rw [getBlkA_decomp { s with pmem := m2, flst := f2 } A0 p
            (x :: y :: B1) (by show s.blocks = _; exact hblocks0) hposA0]
          exact hpfree
        obtain ⟨m3, f3, hrm2, hchain2', hPnull, hpres2⟩ :=
          fl_remove_spec { s with pmem := m2, flst := f2 } P2 Q2
            (base + sumSize A0) hchain2 hndPQ2 hallocP1
        rw [coalesce_eval_case4 hsplit hxp hy, haddr]
        have hsz2 : sizesOkB (A0 ++
            (⟨(x.size + p.size + y.size) % W, false, p.palloc⟩ : Blk) :: B1)
              = true := by
          rw [hblocks0] at hsizes
          rw [sizesOkB_append] at hsizes ⊢
          rw [Bool.and_eq_true] at hsizes ⊢
          refine ⟨hsizes.1, ?_⟩
          have h2 := hsizes.2
          simp only [sizesOkB, List.all_cons, Bool.and_eq_true] at h2 ⊢
          refine ⟨?_, h2.2.2.2⟩
          simp only [sizeOkB, Bool.and_eq_true, decide_eq_true_eq]
          constructor
          · show min_block_size ≤ (x.size + p.size + y.size) % W
            rw [hmod]
            omega
          · show (x.size + p.size + y.size) % W % 16 = 0
            rw [hmod]
            omega
        obtain ⟨B4, hub, hnil, hcons, hwf, hnot, hmc⟩ :=
          insert_merged_spec
            { fl_remove (fl_remove s
                (some (base + sumSize (A0 ++ [p]) + x.size)))
                (some (base + sumSize A0)) with
              blocks := A0 ++
                (⟨(x.size + p.size + y.size) % W, false, p.palloc⟩ : Blk)
                  :: B1 }
            A0 (⟨(x.size + p.size + y.size) % W, false, p.palloc⟩ : Blk) B1
            (P2 ++ Q2)
            rfl rfl
            (by show pget (fl_remove (fl_remove s
                  (some (base + sumSize (A0 ++ [p]) + x.size)))
                  (some (base + sumSize A0))).pmem
                  (base + sumSize A0) = (none, none)
                rw [hrm1, hrm2]
                exact hPnull)
            hsz2
            hhdrA0
            hppal
            hlastA0
            (by apply headAllocD_of_noAdj_false
                have h3 := hadjB
                simp only [tailNoAdjB] at h3
                rw [hy] at h3
                exact h3)
            (by have h3 := hhdrB
                simp only [tailSegHdrB] at h3
                exact tailSegHdrB_of_seg h3)
            (by show epiTailOk (fl_remove (fl_remove s
                  (some (base + sumSize (A0 ++ [p]) + x.size)))
                  (some (base + sumSize A0))).epiPalloc B1 = true
                rw [hrm1, hrm2]
                exact epiTailOk_tail hepiB)
            hadjA0
            (by have h3 := hadjB
                simp only [tailNoAdjB] at h3
                exact tailNoAdjB_of_noAdj h3)
            (by show chainPtrs (fl_remove (fl_remove s
                  (some (base + sumSize (A0 ++ [p]) + x.size)))
                  (some (base + sumSize A0))).pmem none
                  (fl_remove (fl_remove s
                    (some (base + sumSize (A0 ++ [p]) + x.size)))
                    (some (base + sumSize A0))).flst (P2 ++ Q2) = true
                rw [hrm1, hrm2]
                exact hchain2')
            hndPQ2'
            (by have hfu : freeAddrs
                  { fl_remove (fl_remove s
                      (some (base + sumSize (A0 ++ [p]) + x.size)))
                      (some (base + sumSize A0)) with
                    blocks := A0 ++
                      (⟨(x.size + p.size + y.size) % W, false, p.palloc⟩ : Blk)
                        :: B1 } =
                    freeAddrsFrom base A0 ++ (base + sumSize A0) ::
                      freeAddrsFrom
                        (base + sumSize (A0 ++ [p]) + x.size + y.size) B1 := by
                  show freeAddrsFrom base (A0 ++
                    (⟨(x.size + p.size + y.size) % W, false, p.palloc⟩ : Blk)
                      :: B1) = _
                  rw [freeAddrsFrom_append]
                  congr 1
                  rw [freeAddrsFrom]
                  rw [if_neg (by simp)]
                  rw [haddr3]
                rw [hfu, erase_middle (fun h => by have := hfreesA0 _ h; omega)]
                have e1 : L.erase (base + sumSize (A0 ++ [p]) + x.size) =
                    P1 ++ Q1 := by
                  rw [hPQ1]
                  exact erase_middle haYP1
                have e2 := hperm.erase (base + sumSize (A0 ++ [p]) + x.size)
                rw [e1, herase2, erase_middle hnotY] at e2
                have e3 := e2.erase (base + sumSize A0)
                have e4 : (P1 ++ Q1).erase (base + sumSize A0) = P2 ++ Q2 := by
                  rw [hPQ2]
                  exact erase_middle haPP2
                rw [e4] at e3
                rw [show (freeAddrsFrom base A0 ++ [base + sumSize A0]) ++
                      freeAddrsFrom
                        (base + sumSize (A0 ++ [p]) + x.size + y.size) B1 =
                    freeAddrsFrom base A0 ++ (base + sumSize A0) ::
                      freeAddrsFrom
                        (base + sumSize (A0 ++ [p]) + x.size + y.size) B1 from
                  by simp] at e3
                rw [erase_middle (fun h => by have := hfreesA0 _ h; omega)]
                  at e3
                exact e3)
            (by show 2 * wsize + sumSize (A0 ++
                  (⟨(x.size + p.size + y.size) % W, false, p.palloc⟩ : Blk)
                    :: B1) ≤
                  (fl_remove (fl_remove s
                    (some (base + sumSize (A0 ++ [p]) + x.size)))
                    (some (base + sumSize A0))).memCap
                rw [sumSize_append, hrm1, hrm2]
                show 2 * wsize + (sumSize A0 +
                  ((x.size + p.size + y.size) % W + sumSize B1)) ≤ s.memCap
                rw [hmod]
                omega)
            (by show (fl_remove (fl_remove s
                  (some (base + sumSize (A0 ++ [p]) + x.size)))
                  (some (base + sumSize A0))).memCap < W
                rw [hrm1, hrm2]
                exact hcapW)
        refine ⟨A0, ⟨(x.size + p.size + y.size) % W, false, p.palloc⟩, B4,
          P2 ++ Q2, hub, rfl, hwf, ?_, rfl, ?_, hnot, ?_, ?_, ?_, ?_, ?_, ?_,
          ?_, ?_⟩
        · rw [hmc, hrm1, hrm2]
        · show x.size ≤ (x.size + p.size + y.size) % W
          rw [hmod]
          omega
        · intro h3
          have hd : B1 = [] ∨ ∃ z r, B1 = z :: r := by
            cases B1 with
            | nil => exact Or.inl rfl
            | cons z r => exact Or.inr ⟨z, r, rfl⟩
          rcases hd with hB1 | ⟨z, r, hB1⟩
          · exact (hnil hB1).2
          · rw [hcons z r hB1] at h3
            exact absurd h3 (by simp)
        · intro z r h3
          have hd : B1 = [] ∨ ∃ z0 r0, B1 = z0 :: r0 := by
            cases B1 with
            | nil => exact Or.inl rfl
            | cons z0 r0 => exact Or.inr ⟨z0, r0, rfl⟩
          rcases hd with hB1 | ⟨z0, r0, hB1⟩
          · rw [(hnil hB1).1] at h3
            exact absurd h3 (by simp)
          · rw [hcons z0 r0 hB1] at h3
            injection h3 with h4 h5
            rw [← h4]
        · intro hxf
          exact absurd hxf (by simp)
        · intro p' hgl _
          rw [List.getLast?_concat] at hgl
          injection hgl with h4
          rw [← h4]
        · intro hxf
          exact absurd hxf (by simp)
        · intro hxf
          exact absurd hxf (by simp)
        · intro _ hh
          exact absurd hh (by simp)
        · intro _ _
          refine ⟨(List.dropLast_concat).symm, ?_⟩
          show (x.size + p.size + y.size) % W =
            x.size + lastSizeD (A0 ++ [p]) + headSizeD (y :: B1)
          rw [hmod]
          simp [lastSizeD, headSizeD, List.getLast?_concat]

/-! ## The allocation path: `place`, `find_fit`, `extend_heap`, `malloc`,
`free` preserve well-formedness -/

section AllocPath

/-- Splitting `segHdrB` around a distinguished block. -/
theorem segHdrB_mid {q : Bool} {A : List Blk} {x : Blk} {B : List Blk}
    (h : segHdrB q (A ++ x :: B) = true) :
    segHdrB q A = true ∧ x.palloc = endAlloc q A ∧ segHdrB x.alloc B = true := by
  rw [segHdrB_append, Bool.and_eq_true] at h
  obtain ⟨h1, h2⟩ := h
  simp only [segHdrB, Bool.and_eq_true, beq_iff_eq] at h2
  exact ⟨h1, h2.1, h2.2⟩

/-- Splitting `noAdjB` around a distinguished block. -/
theorem noAdjB_mid {q : Bool} {A : List Blk} {x : Blk} {B : List Blk}
    (h : noAdjB q (A ++ x :: B) = true) :
    noAdjB q A = true ∧ (endAlloc q A || x.alloc) = true ∧
      noAdjB x.alloc B = true := by
  rw [noAdjB_append, Bool.and_eq_true] at h
  obtain ⟨h1, h2⟩ := h
  simp only [noAdjB, Bool.and_eq_true] at h2
  exact ⟨h1, h2.1, h2.2⟩

/-- The epilogue bit computed over the whole heap satisfies `epiTailOk` for
any tail. -/
theorem epiTailOk_mid (q : Bool) (A : List Blk) (x : Blk) (B : List Blk) :
    epiTailOk (endAlloc q (A ++ x :: B)) B = true := by
  cases B with
  | nil => rfl
  | cons y B1 => simp [epiTailOk, endAlloc_append, endAlloc]

/-- A member of `freeAddrsFrom` is the address of a FREE block. -/
theorem freeAddrsFrom_mem_decomp {cur : Nat} {bs : List Blk} {a : Nat}
    (h : a ∈ freeAddrsFrom cur bs) :
    ∃ A x B, bs = A ++ x :: B ∧ a = cur + sumSize A ∧ x.alloc = false := by
  induction bs generalizing cur with
  | nil => simp [freeAddrsFrom] at h
  | cons b r ih =>
    by_cases hb : b.alloc
    · rw [freeAddrsFrom, if_pos hb] at h
      obtain ⟨A, x, B, h1, h2, h3⟩ := ih h
      refine ⟨b :: A, x, B, by rw [h1]; rfl, ?_, h3⟩
      simp only [sumSize]
      omega
    · rw [freeAddrsFrom, if_neg hb] at h
      rcases List.mem_cons.mp h with rfl | h
      · exact ⟨[], b, r, rfl, by simp [sumSize], Bool.eq_false_iff.mpr hb⟩
      · obtain ⟨A, x, B, h1, h2, h3⟩ := ih h
        refine ⟨b :: A, x, B, by rw [h1]; rfl, ?_, h3⟩
        simp only [sumSize]
        omega

/-- The free addresses around a distinguished FREE block. -/
theorem freeAddrs_decomp_free (s : Heap) (A : List Blk) (x : Blk)
    (B : List Blk) (h : s.blocks = A ++ x :: B) (hx : x.alloc = false) :
    freeAddrs s = freeAddrsFrom base A ++ (base + sumSize A) ::
      freeAddrsFrom (base + sumSize A + x.size) B := by
  unfold freeAddrs
  rw [h, freeAddrsFrom_append]
  congr 1
  rw [freeAddrsFrom, if_neg (by rw [hx]; exact Bool.false_ne_true)]

/-- The free addresses around a distinguished allocated block. -/
theorem freeAddrs_decomp_alloc (s : Heap) (A : List Blk) (x : Blk)
    (B : List Blk) (h : s.blocks = A ++ x :: B) (hx : x.alloc = true) :
    freeAddrs s = freeAddrsFrom base A ++
      freeAddrsFrom (base + sumSize A + x.size) B := by
  unfold freeAddrs
  rw [h, freeAddrsFrom_append]
  congr 1
  rw [freeAddrsFrom, if_pos hx]

/-- The address of an allocated block is not a free address. -/
theorem alloc_notin_freeAddrs {s : Heap} {A : List Blk} {x : Blk}
    {B : List Blk} (h : s.blocks = A ++ x :: B) (hx : x.alloc = true)
    (hpos : ∀ b ∈ s.blocks, 0 < b.size) :
    (base + sumSize A) ∉ freeAddrs s := by
  intro hmem
  obtain ⟨A2, x2, B2, h2, ha2, hx2⟩ := freeAddrsFrom_mem_decomp hmem
  have hposA : ∀ b ∈ A, 0 < b.size := fun b hb =>
    hpos b (by rw [h]; exact List.mem_append.mpr (Or.inl hb))
  have hposA2 : ∀ b ∈ A2, 0 < b.size := fun b hb =>
    hpos b (by rw [h2]; exact List.mem_append.mpr (Or.inl hb))
  have g1 : getBlkA s (base + sumSize A) = some x := getBlkA_decomp s A x B h hposA
  have g2 : getBlkA s (base + sumSize A2) = some x2 :=
    getBlkA_decomp s A2 x2 B2 h2 hposA2
  rw [← ha2, g1] at g2
  injection g2 with h4
  rw [← h4, hx] at hx2
  exact absurd hx2 (by simp)

/-- Evaluating `place` once the block is located. -/
theorem place_eval {s : Heap} {a asize : Nat} {A : List Blk} {x : Blk}
    {B : List Blk} (hsplit : splitBlocks base a s.blocks = some (A, x, B)) :
    place s a asize =
      if min_block_size ≤ subW x.size asize then
        (coalesce { fl_remove s (some a) with
            blocks := A ++
              ({ size := asize, alloc := true, palloc := x.palloc } : Blk) ::
                ({ size := subW x.size asize, alloc := false,
                   palloc := true } : Blk) :: B,
            pmem := pset (fl_remove s (some a)).pmem (a + asize)
              (none, none) } (a + asize)).1
      else
        set_next_palloc { fl_remove s (some a) with
          blocks := A ++ { x with alloc := true } :: B } a true := by
  unfold place
  rw [hsplit]

/-- Evaluating `set_next_palloc` on the last block. -/
theorem set_next_palloc_eval_nil {s : Heap} {a : Nat} {pa : Bool}
    {A : List Blk} {x : Blk}
    (hsplit : splitBlocks base a s.blocks = some (A, x, [])) :
    set_next_palloc s a pa = { s with epiPalloc := pa } := by
  unfold set_next_palloc
  rw [hsplit]

/-- Evaluating `set_next_palloc` on a block with a successor. -/
theorem set_next_palloc_eval_cons {s : Heap} {a : Nat} {pa : Bool}
    {A : List Blk} {x y : Blk} {B1 : List Blk}
    (hsplit : splitBlocks base a s.blocks = some (A, x, y :: B1)) :
    set_next_palloc s a pa =
      { s with blocks := A ++ x :: { y with palloc := pa } :: B1 } := by
  unfold set_next_palloc
  rw [hsplit]

/-- `place` on a FREE block of sufficient size found on the free list of a
well-formed heap: the result is well formed again, and the distinguished
block is now allocated with the same address, at least the requested size,
and an unchanged `prev_alloc` bit. -/
theorem place_spec (s : Heap) (A : List Blk) (x : Blk) (B : List Blk)
    (L : List Nat) (asize : Nat)
    (hL : WfL s L) (hblocks : s.blocks = A ++ x :: B)
    (hxfree : x.alloc = false)
    (h32a : min_block_size ≤ asize) (h16a : asize % 16 = 0)
    (hle : asize ≤ x.size) :
    ∃ y Bp L2, (place s (base + sumSize A) asize).blocks = A ++ y :: Bp ∧
      y.alloc = true ∧ y.size < W ∧ asize ≤ y.size ∧ y.palloc = x.palloc ∧
      WfL (place s (base + sumSize A) asize) L2 := by
  obtain ⟨hhdr, hepi, hadj, hsizes, hchain, hnd, hperm, hcap, hcapW⟩ := hL
  have hposAll : ∀ b ∈ s.blocks, 0 < b.size := sizesPos hsizes
  have hposA : ∀ b ∈ A, 0 < b.size := fun b hb =>
    hposAll b (by rw [hblocks]; exact List.mem_append.mpr (Or.inl hb))
  have hxmem : x ∈ s.blocks := by
    rw [hblocks]
    exact List.mem_append.mpr (Or.inr (List.mem_cons_self _ _))
  obtain ⟨hx32, hx16⟩ := sizesOkB_mem hsizes x hxmem
  have h32 : min_block_size = 32 := rfl
  have hw16 : 2 * wsize = 16 := rfl
  have hcap2 : 2 * wsize + sumSize s.blocks ≤ s.memCap := hcap
  have hsum_blocks : sumSize s.blocks = sumSize A + (x.size + sumSize B) := by
    rw [hblocks, sumSize_append]
    rfl
  have hxW : x.size < W := by omega
  have hsplit : splitBlocks base (base + sumSize A) s.blocks
      = some (A, x, B) := by
    rw [hblocks]
    exact splitBlocks_complete hposA
  have hfreeT := freeAddrs_decomp_free s A x B hblocks hxfree
  have haX_mem : (base + sumSize A) ∈ L := by
    rw [hperm.mem_iff, hfreeT]
    exact List.mem_append.mpr (Or.inr (List.mem_cons_self _ _))
  obtain ⟨P, Q, hPQ⟩ := List.append_of_mem haX_mem
  have hchain2 : chainPtrs s.pmem none s.flst
      (P ++ (base + sumSize A) :: Q) = true := by
    rw [← hPQ]
    exact hchain
  have hndPQ : (P ++ (base + sumSize A) :: Q).Nodup := hPQ ▸ hnd
  have hndPQ2 : (P ++ Q).Nodup :=
    (List.nodup_cons.mp (List.nodup_middle.mp hndPQ)).2
  have haXP : (base + sumSize A) ∉ P := fun h =>
    (List.nodup_cons.mp (List.nodup_middle.mp hndPQ)).1
      (List.mem_append.mpr (Or.inl h))
  have haXPQ : (base + sumSize A) ∉ P ++ Q :=
    (List.nodup_cons.mp (List.nodup_middle.mp hndPQ)).1
  have hallocX : allocAtD s (base + sumSize A) = false := by
    unfold allocAtD
    rw [getBlkA_decomp s A x B hblocks hposA]
    exact hxfree
  obtain ⟨m2, f2, hrm, hchainPQ, hXnull, hpres⟩ :=
    fl_remove_spec s P Q (base + sumSize A) hchain2 hndPQ hallocX
  obtain ⟨hhdrA, hxpal, hhdrBx⟩ := segHdrB_mid (hblocks ▸ hhdr)
  obtain ⟨hadjA, hadjX, hadjBx⟩ := noAdjB_mid (hblocks ▸ hadj)
  have hfreesA : ∀ a2 ∈ freeAddrsFrom base A, a2 < base + sumSize A :=
    freeAddrsFrom_upper hposA
  have haXA : (base + sumSize A) ∉ freeAddrsFrom base A := fun h => by
    have := hfreesA _ h
    omega
  have heraseX : (freeAddrs s).erase (base + sumSize A) =
      freeAddrsFrom base A ++
        freeAddrsFrom (base + sumSize A + x.size) B := by
    rw [hfreeT, erase_middle haXA]
  have hLerase : L.erase (base + sumSize A) = P ++ Q := by
    rw [hPQ]
    exact erase_middle haXP
  have hpermPQ : (P ++ Q).Perm (freeAddrsFrom base A ++
      freeAddrsFrom (base + sumSize A + x.size) B) := by
    have e := hperm.erase (base + sumSize A)
    rw [hLerase, heraseX] at e
    exact e
  have hsub : subW x.size asize = x.size - asize := by
    unfold subW
    rw [Nat.mod_eq_of_lt (show asize < W by omega)]
    rw [show x.size + W - asize = (x.size - asize) + W from by omega]
    rw [Nat.add_mod_right]
    exact Nat.mod_eq_of_lt (by omega)
  rw [place_eval hsplit, hsub]
  rw [hblocks] at hsizes
  by_cases hsp : min_block_size ≤ x.size - asize
  · -- split: allocate `asize`, free remainder, coalesce the remainder
    rw [if_pos hsp]
    have haA : base + sumSize (A ++
        [({ size := asize, alloc := true, palloc := x.palloc } : Blk)]) =
        base + sumSize A + asize := by
      rw [sumSize_append]
      show base + (sumSize A + (asize + 0)) = _
      omega
    rw [← haA]
    have hposAA : ∀ b ∈ A ++
        [({ size := asize, alloc := true, palloc := x.palloc } : Blk)],
        0 < b.size := by
      intro b hb
      rcases List.mem_append.mp hb with hb | hb
      · exact hposA b hb
      · rw [List.mem_singleton.mp hb]
        show 0 < asize
        omega
    have hnotMid : ∀ z ∈ P ++ Q, z ≠ base + sumSize (A ++
        [({ size := asize, alloc := true, palloc := x.palloc } : Blk)]) := by
      intro z hz
      have hzL : z ∈ L := by
        rw [hPQ]
        rcases List.mem_append.mp hz with h | h
        · exact List.mem_append.mpr (Or.inl h)
        · exact List.mem_append.mpr (Or.inr (List.mem_cons_of_mem _ h))
      have hzF : z ∈ freeAddrs s := hperm.mem_iff.mp hzL
      rw [hfreeT] at hzF
      rw [haA]
      rcases List.mem_append.mp hzF with h | h
      · have := hfreesA _ h
        omega
      · rcases List.mem_cons.mp h with h | h
        · subst h
          exact absurd hz haXPQ
        · have := freeAddrsFrom_lower h
          omega
    obtain ⟨A2, m, B2, L2, hub, haddr2, hwf, hmcap, hmfree, hszle, hnot,
        hepi2, hpal2, hxptrue, hgl, c1, c2, c3, c4⟩ :=
      coalesce_spec
        { fl_remove s (some (base + sumSize A)) with
          blocks := A ++
            ({ size := asize, alloc := true, palloc := x.palloc } : Blk) ::
              ({ size := x.size - asize, alloc := false,
                 palloc := true } : Blk) :: B,
          pmem := pset (fl_remove s (some (base + sumSize A))).pmem
            (base + sumSize (A ++
              [({ size := asize, alloc := true, palloc := x.palloc } : Blk)]))
            (none, none) }
        (A ++ [({ size := asize, alloc := true, palloc := x.palloc } : Blk)])
        ({ size := x.size - asize, alloc := false, palloc := true } : Blk)
        B (P ++ Q)
        (by show A ++ _ :: _ :: B = _
            simp)
        rfl
        (by exact pget_pset_same _ _ _)
        (by show sizesOkB (A ++ _ :: _ :: B) = true
            rw [sizesOkB_append] at hsizes ⊢
            rw [Bool.and_eq_true] at hsizes ⊢
            refine ⟨hsizes.1, ?_⟩
            have h2 := hsizes.2
            simp only [sizesOkB, List.all_cons, Bool.and_eq_true] at h2 ⊢
            refine ⟨?_, ?_, h2.2⟩
            · simp only [sizeOkB, Bool.and_eq_true, decide_eq_true_eq]
              exact ⟨h32a, by omega⟩
            · simp only [sizeOkB, Bool.and_eq_true, decide_eq_true_eq]
              exact ⟨hsp, by omega⟩)
        (by rw [segHdrB_append, hhdrA]
            simp [segHdrB, hxpal])
        (by simp [endAlloc_append, endAlloc])
        (by exact tailSegHdrB_of_seg hhdrBx)
        (by show epiTailOk (fl_remove s (some (base + sumSize A))).epiPalloc
              B = true
            rw [hrm]
            show epiTailOk s.epiPalloc B = true
            rw [hepi, hblocks]
            exact epiTailOk_mid true A x B)
        (by rw [noAdjB_append, hadjA]
            simp [noAdjB])
        (by exact tailNoAdjB_of_noAdj hadjBx)
        (by show chainPtrs (pset (fl_remove s (some (base + sumSize A))).pmem
              _ (none, none)) none
              (fl_remove s (some (base + sumSize A))).flst (P ++ Q) = true
            rw [hrm]
            show chainPtrs (pset m2 _ (none, none)) none f2 (P ++ Q) = true
            rw [chainPtrs_ext (fun z hz =>
              pget_pset_other m2 (none, none) fun he =>
                hnotMid z hz he.symm)]
            exact hchainPQ)
        hndPQ2
        (by have hfu : freeAddrs
              { fl_remove s (some (base + sumSize A)) with
                blocks := A ++
                  ({ size := asize, alloc := true, palloc := x.palloc } : Blk) ::
                    ({ size := x.size - asize, alloc := false,
                       palloc := true } : Blk) :: B,
                pmem := pset (fl_remove s (some (base + sumSize A))).pmem
                  (base + sumSize (A ++
                    [({ size := asize, alloc := true,
                        palloc := x.palloc } : Blk)])) (none, none) } =
              freeAddrsFrom base A ++ (base + sumSize (A ++
                [({ size := asize, alloc := true,
                    palloc := x.palloc } : Blk)])) ::
                freeAddrsFrom (base + sumSize A + x.size) B := by
              show freeAddrsFrom base (A ++ _ :: _ :: B) = _
              rw [freeAddrsFrom_append]
              congr 1
              rw [freeAddrsFrom, if_pos rfl]
              rw [freeAddrsFrom, if_neg (by simp)]
              rw [haA]
              show (base + sumSize A + asize) ::
                freeAddrsFrom (base + sumSize A + asize + (x.size - asize))
                  B = _
              rw [show base + sumSize A + asize + (x.size - asize) =
                base + sumSize A + x.size from by omega]
            rw [hfu, erase_middle (fun h => by
              have := hfreesA _ h
              rw [haA] at this
              omega)]
            exact hpermPQ)
        (by show 2 * wsize + sumSize (A ++ _ :: _ :: B) ≤
              (fl_remove s (some (base + sumSize A))).memCap
            rw [sumSize_append, hrm]
            show 2 * wsize + (sumSize A + (asize + ((x.size - asize) +
              sumSize B))) ≤ s.memCap
            omega)
        (by show (fl_remove s (some (base + sumSize A))).memCap < W
            rw [hrm]
            exact hcapW)
    have hA2 : A2 = A ++
        [({ size := asize, alloc := true, palloc := x.palloc } : Blk)] := by
      cases hhd : headAllocD B with
      | true => exact (c1 rfl hhd).1
      | false => exact (c2 rfl hhd).1
    refine ⟨{ size := asize, alloc := true, palloc := x.palloc }, m :: B2,
      (base + sumSize A2) :: L2, ?_, rfl, (by show asize < W; omega),
      Nat.le_refl _, rfl, hwf⟩
    rw [hub, hA2]
    simp
  · -- no split: allocate the whole block
    rw [if_neg hsp]
    have hsplit2 : splitBlocks base (base + sumSize A)
        ({ fl_remove s (some (base + sumSize A)) with
           blocks := A ++ { x with alloc := true } :: B } : Heap).blocks =
        some (A, { x with alloc := true }, B) := by
      show splitBlocks base (base + sumSize A)
        (A ++ { x with alloc := true } :: B) = _
      exact splitBlocks_complete hposA
    have hszOk : sizesOkB (A ++ { x with alloc := true } :: B) = true := by
      rw [sizesOkB_append] at hsizes ⊢
      rw [Bool.and_eq_true] at hsizes ⊢
      refine ⟨hsizes.1, ?_⟩
      have h2 := hsizes.2
      simp only [sizesOkB, List.all_cons, Bool.and_eq_true] at h2 ⊢
      exact ⟨h2.1, h2.2⟩
    cases hB : B with
    | nil =>
      subst hB
      rw [set_next_palloc_eval_nil hsplit2]
      refine ⟨{ x with alloc := true }, [], P ++ Q, by simp, rfl, hxW,
        hle, rfl, ?_, ?_, ?_, ?_, ?_, hndPQ2, ?_, ?_, ?_⟩
      · show segHdrB true (A ++ [{ x with alloc := true }]) = true
        rw [segHdrB_append, hhdrA]
        simp [segHdrB, hxpal]
      · show true = endAlloc true (A ++ [{ x with alloc := true }])
        simp [endAlloc_append, endAlloc]
      · show noAdjB true (A ++ [{ x with alloc := true }]) = true
        rw [noAdjB_append, hadjA]
        simp [noAdjB]
      · exact hszOk
      · show chainPtrs (fl_remove s (some (base + sumSize A))).pmem none
          (fl_remove s (some (base + sumSize A))).flst (P ++ Q) = true
        rw [hrm]
        exact hchainPQ
      · show (P ++ Q).Perm (freeAddrsFrom base
          (A ++ [{ x with alloc := true }]))
        rw [freeAddrsFrom_append]
        rw [freeAddrsFrom, if_pos rfl]
        exact hpermPQ
      · show 2 * wsize + sumSize (A ++ [{ x with alloc := true }]) ≤
          (fl_remove s (some (base + sumSize A))).memCap
        rw [sumSize_append, hrm]
        show 2 * wsize + (sumSize A + (x.size + 0)) ≤ s.memCap
        omega
      · show (fl_remove s (some (base + sumSize A))).memCap < W
        rw [hrm]
        exact hcapW
    | cons y B1 =>
      subst hB
      rw [set_next_palloc_eval_cons hsplit2]
      have hhdrB2 := hhdrBx
      simp only [segHdrB, Bool.and_eq_true, beq_iff_eq] at hhdrB2
      have hadjB2 := hadjBx
      simp only [noAdjB, Bool.and_eq_true] at hadjB2
      refine ⟨{ x with alloc := true },
        { y with palloc := true } :: B1, P ++ Q, by simp, rfl, hxW,
        hle, rfl, ?_, ?_, ?_, ?_, ?_, hndPQ2, ?_, ?_, ?_⟩
      · show segHdrB true (A ++ { x with alloc := true } ::
          { y with palloc := true } :: B1) = true
        simp [segHdrB_append, segHdrB, hhdrA, hxpal, hhdrB2.2]
      · show (fl_remove s (some (base + sumSize A))).epiPalloc =
          endAlloc true (A ++ { x with alloc := true } ::
            { y with palloc := true } :: B1)
        rw [hrm]
        show s.epiPalloc = _
        rw [hepi, hblocks]
        simp [endAlloc_append, endAlloc]
      · show noAdjB true (A ++ { x with alloc := true } ::
          { y with palloc := true } :: B1) = true
        simp [noAdjB_append, noAdjB, hadjA, hadjB2.2]
      · show sizesOkB (A ++ { x with alloc := true } ::
          { y with palloc := true } :: B1) = true
        rw [sizesOkB_append] at hszOk ⊢
        rw [Bool.and_eq_true] at hszOk ⊢
        refine ⟨hszOk.1, ?_⟩
        have h2 := hszOk.2
        simp only [sizesOkB, List.all_cons, Bool.and_eq_true] at h2 ⊢
        exact ⟨h2.1, ⟨h2.2.1, h2.2.2⟩⟩
      · show chainPtrs (fl_remove s (some (base + sumSize A))).pmem none
          (fl_remove s (some (base + sumSize A))).flst (P ++ Q) = true
        rw [hrm]
        exact hchainPQ
      · show (P ++ Q).Perm (freeAddrsFrom base
          (A ++ { x with alloc := true } :: { y with palloc := true } :: B1))
        rw [freeAddrsFrom_append]
        rw [freeAddrsFrom, if_pos rfl]
        rw [freeAddrsFrom_palloc_patch]
        exact hpermPQ
      · show 2 * wsize + sumSize (A ++ { x with alloc := true } ::
          { y with palloc := true } :: B1) ≤
          (fl_remove s (some (base + sumSize A))).memCap
        rw [sumSize_append, hrm]
        show 2 * wsize + (sumSize A + (x.size + (y.size + sumSize B1))) ≤
          s.memCap
        have hg : sumSize (y :: B1) = y.size + sumSize B1 := rfl
        omega
      · show (fl_remove s (some (base + sumSize A))).memCap < W
        rw [hrm]
        exact hcapW

/-- `round_up _ 16` always yields a 16-byte multiple. -/
theorem round_up_16_mod (v : Nat) : round_up v dsize % 16 = 0 := by
  unfold round_up dsize
  rw [Nat.mod_mod_of_dvd _ (⟨2 ^ 60, by norm_num [W]⟩ : (16:Nat) ∣ W)]
  exact Nat.mul_mod_right 16 _

/-- Below the top of the address space, `round_up _ 16` does not wrap and
rounds upward. -/
theorem round_up_16_ge {v : Nat} (h : v ≤ W - 16) : v ≤ round_up v dsize := by
  unfold round_up dsize
  have hW : W = 18446744073709551616 := by norm_num [W]
  rw [hW] at h ⊢
  omega

/-- `round_up _ 16` fixes 16-byte multiples below the top of the address
space. -/
theorem round_up_16_of_dvd {v : Nat} (h16 : v % 16 = 0) (h : v ≤ W - 16) :
    round_up v dsize = v := by
  unfold round_up dsize
  have hW : W = 18446744073709551616 := by norm_num [W]
  rw [hW] at h ⊢
  omega

/-- `extend_heap` on a well-formed heap: on success the heap is well formed
again, with a FREE block of at least the rounded request size at the
returned address, freshly pushed onto the free list. -/
theorem extend_heap_spec (s : Heap) (L : List Nat) (size : Nat)
    (hL : WfL s L) (h32e : min_block_size ≤ round_up size dsize)
    {s1 : Heap} {b : Nat}
    (hext : extend_heap s size = some (s1, b)) :
    ∃ A2 m B2 L2, s1.blocks = A2 ++ m :: B2 ∧ b = base + sumSize A2 ∧
      m.alloc = false ∧ round_up size dsize ≤ m.size ∧
      b ∉ L2 ∧ WfL s1 (b :: L2) := by
  obtain ⟨hhdr, hepi, hadj, hsizes, hchain, hnd, hperm, hcap, hcapW⟩ := hL
  have hposAll : ∀ b2 ∈ s.blocks, 0 < b2.size := sizesPos hsizes
  simp only [extend_heap] at hext
  by_cases hsb : sbrkOk s (round_up size dsize) = true
  case neg =>
    rw [if_neg hsb] at hext
    exact absurd hext (by simp)
  rw [if_pos hsb] at hext
  have hroom : heapBytes s + round_up size dsize ≤ s.memCap :=
    of_decide_eq_true hsb
  injection hext with h1
  have hnotin : (base + sumSize s.blocks) ∉ freeAddrs s := by
    intro h
    have := freeAddrsFrom_upper hposAll _ h
    omega
  have hLlt : ∀ z ∈ L, z ≠ base + sumSize s.blocks := by
    intro z hz
    have h2 := hperm.mem_iff.mp hz
    have := freeAddrsFrom_upper hposAll _ h2
    omega
  have hw16 : 2 * wsize = 16 := rfl
  have hcap2 : 2 * wsize + sumSize s.blocks ≤ s.memCap := hcap
  obtain ⟨A2, m, B2, L2, hub, haddr2, hwf, hmcap, hmfree, hszle, hnot,
      hepi2, hpal2, hxptrue, hgl, c1, c2, c3, c4⟩ :=
    coalesce_spec
      { s with
        blocks := s.blocks ++
          [({ size := round_up size dsize, alloc := false,
              palloc := s.epiPalloc } : Blk)],
        epiPalloc := false,
        pmem := pset s.pmem (base + sumSize s.blocks) (none, none) }
      s.blocks
      ({ size := round_up size dsize, alloc := false,
         palloc := s.epiPalloc } : Blk)
      [] L
      rfl
      rfl
      (by exact pget_pset_same _ _ _)
      (by show sizesOkB (s.blocks ++ [_]) = true
          rw [sizesOkB_append, hsizes]
          show (true && (sizeOkB
            (⟨round_up size dsize, false, s.epiPalloc⟩ : Blk) && true)) = true
          rw [Bool.true_and, Bool.and_true]
          simp only [sizeOkB, Bool.and_eq_true, decide_eq_true_eq]
          exact ⟨h32e, round_up_16_mod size⟩)
      hhdr
      hepi
      rfl
      rfl
      hadj
      rfl
      (by show chainPtrs (pset s.pmem (base + sumSize s.blocks) (none, none))
            none s.flst L = true
          rw [chainPtrs_ext (fun z hz =>
            pget_pset_other s.pmem (none, none) fun he =>
              hLlt z hz he.symm)]
          exact hchain)
      hnd
      (by show L.Perm ((freeAddrsFrom base (s.blocks ++ [_])).erase
            (base + sumSize s.blocks))
          rw [freeAddrsFrom_append]
          rw [freeAddrsFrom, if_neg (by simp)]
          show L.Perm ((freeAddrs s ++ (base + sumSize s.blocks) :: []).erase
            (base + sumSize s.blocks))
          rw [erase_middle hnotin, List.append_nil]
          exact hperm)
      (by show 2 * wsize + sumSize (s.blocks ++ [_]) ≤ s.memCap
          rw [sumSize_append]
          show 2 * wsize + (sumSize s.blocks + (round_up size dsize + 0)) ≤
            s.memCap
          unfold heapBytes at hroom
          omega)
      hcapW
  refine ⟨A2, m, B2, L2, ?_, ?_, hmfree, hszle, ?_, ?_⟩
  · show s1.blocks = _
    rw [show s1 = _ from congrArg Prod.fst h1.symm]
    exact hub
  · rw [show b = _ from congrArg Prod.snd h1.symm]
    exact haddr2
  · rw [show b = _ from congrArg Prod.snd h1.symm, haddr2]
    exact hnot
  · rw [show s1 = _ from congrArg Prod.fst h1.symm,
      show b = _ from congrArg Prod.snd h1.symm, haddr2]
    exact hwf

/-- `round_up _ 16` stays at least 16 below 2^64. -/
theorem round_up_16_le (v : Nat) : round_up v dsize ≤ W - 16 := by
  have h1 : round_up v dsize < W := by
    unfold round_up
    exact Nat.mod_lt _ (by norm_num [W])
  have h2 := round_up_16_mod v
  have hW : W = 18446744073709551616 := by norm_num [W]
  omega

/-- The fit-search loop only ever returns a node of the chain it walks (or
of the initial best candidate) whose size is at least the request. -/
theorem find_fit_loop_spec (s : Heap) (asize : Nat) (L0 : List Nat) :
    ∀ (fuel : Nat) (cur prev : Option Nat) (Lsub : List Nat)
      (best : Option Nat) (i : Nat) (b : Nat),
      chainPtrs s.pmem prev cur Lsub = true →
      (∀ z ∈ Lsub, z ∈ L0) →
      (∀ bf, best = some bf → bf ∈ L0 ∧ asize ≤ sizeAtD s bf) →
      find_fit_loop s asize fuel cur best i = some b →
      b ∈ L0 ∧ asize ≤ sizeAtD s b := by
  intro fuel
  induction fuel with
  | zero =>
    intro cur prev Lsub best i b _ _ hbest hres
    exact hbest b hres
  | succ fuel ih =>
    intro cur prev Lsub best i b hchain hsub hbest hres
    cases cur with
    | none => exact hbest b hres
    | some c =>
      cases Lsub with
      | nil => simp [chainPtrs] at hchain
      | cons a Ls =>
        simp only [chainPtrs, Bool.and_eq_true, beq_iff_eq] at hchain
        obtain ⟨⟨hc, hp⟩, hch⟩ := hchain
        injection hc with hca
        subst hca
        simp only [find_fit_loop] at hres
        by_cases hi : i < 50
        · rw [if_pos hi] at hres
          by_cases heq : (asize == sizeAtD s c) = true
          · rw [if_pos heq] at hres
            injection hres with hb
            subst hb
            exact ⟨hsub c (List.mem_cons_self _ _),
              Nat.le_of_eq (eq_of_beq heq)⟩
          · rw [if_neg heq] at hres
            by_cases hlt : asize < sizeAtD s c
            · rw [if_pos hlt] at hres
              refine ih (pget s.pmem c).2 (some c) Ls _ (i + 1) b hch
                (fun z hz => hsub z (List.mem_cons_of_mem _ hz)) ?_ hres
              intro bf hbf
              by_cases hi0 : (i == 0) = true
              · rw [if_pos hi0] at hbf
                injection hbf with h2
                subst h2
                exact ⟨hsub c (List.mem_cons_self _ _), Nat.le_of_lt hlt⟩
              · rw [if_neg hi0] at hbf
                cases hbb : best with
                | none =>
                  rw [hbb] at hbf
                  injection hbf with h2
                  subst h2
                  exact ⟨hsub c (List.mem_cons_self _ _), Nat.le_of_lt hlt⟩
                | some bfold =>
                  rw [hbb] at hbf
                  have hbf2 : (if sizeAtD s c < sizeAtD s bfold then some c
                      else some bfold) = some bf := hbf
                  by_cases hcmp : sizeAtD s c < sizeAtD s bfold
                  · rw [if_pos hcmp] at hbf2
                    injection hbf2 with h2
                    subst h2
                    exact ⟨hsub c (List.mem_cons_self _ _), Nat.le_of_lt hlt⟩
                  · rw [if_neg hcmp] at hbf2
                    injection hbf2 with h2
                    subst h2
                    exact hbest bfold hbb
            · rw [if_neg hlt] at hres
              exact ih (pget s.pmem c).2 (some c) Ls best i b hch
                (fun z hz => hsub z (List.mem_cons_of_mem _ hz)) hbest hres
        · rw [if_neg hi] at hres
          exact hbest b hres

/-- A successful `find_fit` returns a free-list node of sufficient size. -/
theorem find_fit_spec {s : Heap} {asize : Nat} {L : List Nat} {b : Nat}
    (hchain : chainPtrs s.pmem none s.flst L = true)
    (hres : find_fit s asize = some b) :
    b ∈ L ∧ asize ≤ sizeAtD s b :=
  find_fit_loop_spec s asize L (s.blocks.length + 1) s.flst none L none 0 b
    hchain (fun _ hz => hz) (fun _ hbf => absurd hbf (by simp)) hres

/-- `malloc` preserves well-formedness. -/
theorem malloc_wf {s : Heap} (n : Nat) (hwf : Wf s) : Wf (malloc s n).2 := by
  obtain ⟨L, hL⟩ := hwf
  by_cases h0 : (n == 0) = true
  · simp only [malloc]
    rw [if_pos h0]
    exact ⟨L, hL⟩
  simp only [malloc]
  rw [if_neg h0]
  have hW : W = 18446744073709551616 := by norm_num [W]
  have h32c : min_block_size = 32 := rfl
  generalize hA0 : round_up ((n + wsize) % W) dsize = a0
  generalize hA : (if a0 < min_block_size then min_block_size else a0) = asz
  have h16 : asz % 16 = 0 := by
    rw [← hA]
    by_cases hc : a0 < min_block_size
    · rw [if_pos hc]
      omega
    · rw [if_neg hc]
      rw [← hA0]
      exact round_up_16_mod _
  have h32 : min_block_size ≤ asz := by
    rw [← hA]
    by_cases hc : a0 < min_block_size
    · rw [if_pos hc]
    · rw [if_neg hc]
      omega
  have hle : asz ≤ W - 16 := by
    rw [← hA]
    by_cases hc : a0 < min_block_size
    · rw [if_pos hc]
      omega
    · rw [if_neg hc]
      rw [← hA0]
      exact round_up_16_le _
  cases hff : find_fit s asz with
  | some b =>
    show Wf (place s b asz)
    obtain ⟨hbL, hbsz⟩ := find_fit_spec hL.chain hff
    have hbF : b ∈ freeAddrs s := hL.perm.mem_iff.mp hbL
    obtain ⟨A, x, B, hbs, hba, hxf⟩ := freeAddrsFrom_mem_decomp hbF
    subst hba
    have hposA : ∀ bb ∈ A, 0 < bb.size := fun bb hb =>
      sizesPos hL.sizes bb (by rw [hbs]; exact List.mem_append.mpr (Or.inl hb))
    have hsz : sizeAtD s (base + sumSize A) = x.size := by
      unfold sizeAtD
      rw [getBlkA_decomp s A x B hbs hposA]
    rw [hsz] at hbsz
    obtain ⟨y, Bp, L2, _, _, _, _, _, hwf2⟩ :=
      place_spec s A x B L asz hL hbs hxf h32 h16 hbsz
    exact ⟨L2, hwf2⟩
  | none =>
    cases hee : extend_heap s (maxW asz chunksize) with
    | none =>
      show Wf s
      exact ⟨L, hL⟩
    | some pr =>
      obtain ⟨s1, b⟩ := pr
      show Wf (place s1 b asz)
      have hmax16 : maxW asz chunksize % 16 = 0 := by
        unfold maxW chunksize
        split <;> omega
      have hmaxle : maxW asz chunksize ≤ W - 16 := by
        unfold maxW chunksize
        split <;> omega
      have hmaxge : asz ≤ maxW asz chunksize := by
        unfold maxW chunksize
        split <;> omega
      have hru : round_up (maxW asz chunksize) dsize = maxW asz chunksize :=
        round_up_16_of_dvd hmax16 hmaxle
      have h32e : min_block_size ≤ round_up (maxW asz chunksize) dsize := by
        rw [hru]
        omega
      obtain ⟨A2, m, B2, L2, hub, hbeq, hmfree, hmsz, hnotL2, hwf1⟩ :=
        extend_heap_spec s L (maxW asz chunksize) hL h32e hee
      subst hbeq
      have hasz_le : asz ≤ m.size := by
        rw [hru] at hmsz
        omega
      obtain ⟨y, Bp, L3, _, _, _, _, _, hwf2⟩ :=
        place_spec s1 A2 m B2 ((base + sumSize A2) :: L2) asz hwf1 hub hmfree
          h32 h16 hasz_le
      exact ⟨L3, hwf2⟩

/-- Evaluating `free` once the block is located. -/
theorem free_eval {s : Heap} {p : Nat} {A : List Blk} {x : Blk}
    {B : List Blk}
    (hsplit : splitBlocks base (p - wsize) s.blocks = some (A, x, B)) :
    free s (some p) = (coalesce
      { s with
        blocks := A ++ { x with alloc := false } :: B,
        pmem := pset s.pmem (p - wsize) (none, none) } (p - wsize)).1 := by
  simp only [free]
  rw [hsplit]

/-- `free` on a currently allocated payload preserves well-formedness. -/
theorem free_wf {s : Heap} {p : Nat} (hwf : Wf s)
    (hap : isAllocPayload s p = true) : Wf (free s (some p)) := by
  obtain ⟨L, hL⟩ := hwf
  obtain ⟨hhdr, hepi, hadj, hsizes, hchain, hnd, hperm, hcap, hcapW⟩ := hL
  have hposAll : ∀ b ∈ s.blocks, 0 < b.size := sizesPos hsizes
  unfold isAllocPayload at hap
  rw [Bool.and_eq_true] at hap
  obtain ⟨hwp, hblk⟩ := hap
  cases hg : getBlkA s (p - wsize) with
  | none =>
    rw [hg] at hblk
    exact absurd hblk (by simp)
  | some x0 =>
    rw [hg] at hblk
    unfold getBlkA at hg
    rw [blkAtFrom_eq_splitBlocks] at hg
    obtain ⟨⟨A, x, B⟩, hsp, hfx⟩ := Option.map_eq_some'.mp hg
    simp only at hfx
    subst hfx
    have hxa : x.alloc = true := hblk
    obtain ⟨hbs, hba⟩ := splitBlocks_sound hsp
    have hposA : ∀ bb ∈ A, 0 < bb.size := fun bb hb =>
      hposAll bb (by rw [hbs]; exact List.mem_append.mpr (Or.inl hb))
    have hxmem : x ∈ s.blocks := by
      rw [hbs]
      exact List.mem_append.mpr (Or.inr (List.mem_cons_self _ _))
    obtain ⟨hx32, hx16⟩ := sizesOkB_mem hsizes x hxmem
    have hw16 : 2 * wsize = 16 := rfl
    have hcap2 : 2 * wsize + sumSize s.blocks ≤ s.memCap := hcap
    have hsum_blocks : sumSize s.blocks = sumSize A + (x.size + sumSize B) := by
      rw [hbs, sumSize_append]
      rfl
    have hnotF : (base + sumSize A) ∉ freeAddrs s :=
      alloc_notin_freeAddrs hbs hxa hposAll
    have hnotL : ∀ z ∈ L, z ≠ base + sumSize A := by
      intro z hz he
      exact hnotF (he ▸ hperm.mem_iff.mp hz)
    obtain ⟨hhdrA, hxpal, hhdrBx⟩ := segHdrB_mid (hbs ▸ hhdr)
    obtain ⟨hadjA, hadjX, hadjBx⟩ := noAdjB_mid (hbs ▸ hadj)
    have hfreesA : ∀ a2 ∈ freeAddrsFrom base A, a2 < base + sumSize A :=
      freeAddrsFrom_upper hposA
    rw [free_eval hsp, hba]
    obtain ⟨A2, m, B2, L2, hub, haddr2, hwf2, hmcap, hmfree, hszle, hnot,
        hepi2, hpal2, hxptrue, hgl, c1, c2, c3, c4⟩ :=
      coalesce_spec
        { s with
          blocks := A ++ { x with alloc := false } :: B,
          pmem := pset s.pmem (base + sumSize A) (none, none) }
        A ({ x with alloc := false }) B L
        rfl
        rfl
        (by exact pget_pset_same _ _ _)
        (by show sizesOkB (A ++ { x with alloc := false } :: B) = true
            rw [hbs] at hsizes
            rw [sizesOkB_append] at hsizes ⊢
            rw [Bool.and_eq_true] at hsizes ⊢
            refine ⟨hsizes.1, ?_⟩
            have h2 := hsizes.2
            simp only [sizesOkB, List.all_cons, Bool.and_eq_true] at h2 ⊢
            exact ⟨h2.1, h2.2⟩)
        hhdrA
        (by show x.palloc = endAlloc true A
            exact hxpal)
        (by exact tailSegHdrB_of_seg hhdrBx)
        (by show epiTailOk s.epiPalloc B = true
            rw [hepi, hbs]
            exact epiTailOk_mid true A x B)
        hadjA
        (by exact tailNoAdjB_of_noAdj hadjBx)
        (by show chainPtrs (pset s.pmem (base + sumSize A) (none, none))
              none s.flst L = true
            rw [chainPtrs_ext (fun z hz =>
              pget_pset_other s.pmem (none, none) fun he =>
                hnotL z hz he.symm)]
            exact hchain)
        hnd
        (by show L.Perm ((freeAddrsFrom base
              (A ++ { x with alloc := false } :: B)).erase
              (base + sumSize A))
            rw [freeAddrsFrom_append]
            rw [freeAddrsFrom, if_neg (by simp)]
            have haXA : (base + sumSize A) ∉ freeAddrsFrom base A :=
              fun h => by have := hfreesA _ h; omega
            rw [erase_middle haXA]
            have hfs := freeAddrs_decomp_alloc s A x B hbs hxa
            unfold freeAddrs at hfs
            rw [← hfs]
            exact hperm)
        (by show 2 * wsize + sumSize (A ++ { x with alloc := false } :: B) ≤
              s.memCap
            rw [sumSize_append]
            show 2 * wsize + (sumSize A + (x.size + sumSize B)) ≤ s.memCap
            omega)
        hcapW
    exact ⟨(base + sumSize A2) :: L2, hwf2⟩

/-- One public operation preserves well-formedness. -/
theorem step_wf {s : Heap} (op : Op) (h : Wf s) : Wf (step s op) := by
  cases op with
  | alloc n => exact malloc_wf n h
  | release p =>
    show Wf (if isAllocPayload s p then free s (some p) else s)
    by_cases hg : isAllocPayload s p = true
    · rw [if_pos hg]
      exact free_wf h hg
    · rw [if_neg hg]
      exact h

/-- Any sequence of public operations preserves well-formedness. -/
theorem run_wf {s : Heap} (ops : List Op) (h : Wf s) : Wf (run s ops) := by
  induction ops generalizing s with
  | nil => exact h
  | cons op r ih => exact ih (step_wf op h)

/-- A successfully initialized heap is well formed. -/
theorem mm_init_wf {cap : Nat} {s : Heap} (hcapW : cap < W)
    (h : mm_init cap = some s) : Wf s := by
  simp only [mm_init] at h
  by_cases hc : 2 * wsize ≤ cap
  case neg =>
    rw [if_neg hc] at h
    exact absurd h (by simp)
  rw [if_pos hc] at h
  cases hee : extend_heap (⟨[], true, none, [], cap⟩ : Heap) chunksize with
  | none =>
    rw [hee] at h
    exact absurd h (by simp)
  | some pr =>
    rw [hee] at h
    obtain ⟨s1, b⟩ := pr
    injection h with h1
    have hL0 : WfL (⟨[], true, none, [], cap⟩ : Heap) [] := by
      refine ⟨rfl, rfl, rfl, rfl, rfl, List.nodup_nil, List.Perm.refl _,
        ?_, hcapW⟩
      show 2 * wsize + sumSize ([] : List Blk) ≤ cap
      have h0 : sumSize ([] : List Blk) = 0 := rfl
      omega
    have h32e : min_block_size ≤ round_up chunksize dsize := by
      rw [round_up_16_of_dvd (by norm_num [chunksize])
        (by norm_num [chunksize, W])]
      norm_num [min_block_size, chunksize]
    obtain ⟨A2, m, B2, L2, _, _, _, _, _, hwf⟩ :=
      extend_heap_spec _ [] chunksize hL0 h32e hee
    rw [← h1]
    exact ⟨_, hwf⟩

end AllocPath

/-! ## Claim C1 -/

/-- C1: for every sequence of public allocate/release operations starting
from a successfully initialized heap, after each operation completes the
heap invariants hold: no two physically adjacent blocks are both FREE,
every block's `prev_alloc` bit equals its physical predecessor's alloc
state, every block's size is at least the minimum block size (32) and a
multiple of 16, and the blocks reachable from the free-list head are
exactly the FREE heap blocks (same count and same set, expressed as a
permutation between the chain and the address-ordered free-block list). -/
theorem malloc_free_invariants (cap : Nat) (ops : List Op) (s0 : Heap)
    (hcap : cap < W) (hinit : mm_init cap = some s0) :
    noAdjB true (run s0 ops).blocks = true ∧
    segHdrB true (run s0 ops).blocks = true ∧
    sizesOkB (run s0 ops).blocks = true ∧
    ∃ L, chainPtrs (run s0 ops).pmem none (run s0 ops).flst L = true ∧
      L.Perm (freeAddrs (run s0 ops)) := by
  obtain ⟨L, hL⟩ := run_wf ops (mm_init_wf hcap hinit)
  exact ⟨hL.adj, hL.hdr, hL.sizes, L, hL.chain, hL.perm⟩

/-- Witness for C1 at a concrete capacity, initial state and operation
sequence. -/
theorem malloc_free_invariants_witness :
    4200 < W ∧
    (noAdjB true (run (⟨[⟨4096, false, true⟩], false, some 8,
        [(8, (none, none))], 4200⟩ : Heap)
        [Op.alloc 100, Op.release 16]).blocks = true ∧
      segHdrB true (run (⟨[⟨4096, false, true⟩], false, some 8,
        [(8, (none, none))], 4200⟩ : Heap)
        [Op.alloc 100, Op.release 16]).blocks = true ∧
      sizesOkB (run (⟨[⟨4096, false, true⟩], false, some 8,
        [(8, (none, none))], 4200⟩ : Heap)
        [Op.alloc 100, Op.release 16]).blocks = true ∧
      ∃ L, chainPtrs (run (⟨[⟨4096, false, true⟩], false, some 8,
          [(8, (none, none))], 4200⟩ : Heap)
          [Op.alloc 100, Op.release 16]).pmem none
          (run (⟨[⟨4096, false, true⟩], false, some 8,
            [(8, (none, none))], 4200⟩ : Heap)
            [Op.alloc 100, Op.release 16]).flst L = true ∧
        L.Perm (freeAddrs (run (⟨[⟨4096, false, true⟩], false, some 8,
          [(8, (none, none))], 4200⟩ : Heap)
          [Op.alloc 100, Op.release 16]))) :=
  ⟨by decide,
    malloc_free_invariants 4200 [Op.alloc 100, Op.release 16]
      (⟨[⟨4096, false, true⟩], false, some 8, [(8, (none, none))], 4200⟩ :
        Heap)
      (by decide) rfl⟩

/-! ## Claim C3 -/

/-- C3: for every FREE input block (in the state in which the allocator
calls `coalesce`: header rewritten FREE, stored list pointers cleared, not
yet on the free list, all other invariants intact), `coalesce` performs the
four-case merge selected by (`prev_alloc` of the block, `alloc` of its
physical successor); in every case exactly one merged FREE block replaces
the participants and is pushed onto the free list exactly once (it heads
the new free list `merged :: L2` and does not occur in `L2`), the block
immediately after the merged block has its `prev_alloc` bit cleared (the
epilogue's bit when the merged block is last), and the merged block keeps
the `prev_alloc` bit that the lowest-address participant held before the
merge. -/
theorem coalesce_four_cases (s : Heap) (A : List Blk) (x : Blk) (B : List Blk)
    (L : List Nat)
    (hblocks : s.blocks = A ++ x :: B)
    (hxfree : x.alloc = false)
    (hxptrs : pget s.pmem (base + sumSize A) = (none, none))
    (hsizes : sizesOkB s.blocks = true)
    (hhdrA : segHdrB true A = true)
    (hxpal : x.palloc = endAlloc true A)
    (hhdrB : tailSegHdrB B = true)
    (hepiB : epiTailOk s.epiPalloc B = true)
    (hadjA : noAdjB true A = true)
    (hadjB : tailNoAdjB B = true)
    (hchain : chainPtrs s.pmem none s.flst L = true)
    (hnd : L.Nodup)
    (hperm : L.Perm ((freeAddrs s).erase (base + sumSize A)))
    (hcap : heapBytes s ≤ s.memCap)
    (hcapW : s.memCap < W) :
    ∃ A2 m B2 L2,
      (coalesce s (base + sumSize A)).1.blocks = A2 ++ m :: B2 ∧
      (coalesce s (base + sumSize A)).2 = base + sumSize A2 ∧
      WfL (coalesce s (base + sumSize A)).1 ((base + sumSize A2) :: L2) ∧
      (coalesce s (base + sumSize A)).1.memCap = s.memCap ∧
      m.alloc = false ∧
      x.size ≤ m.size ∧
      (base + sumSize A2) ∉ L2 ∧
      (B2 = [] → (coalesce s (base + sumSize A)).1.epiPalloc = false) ∧
      (∀ y r, B2 = y :: r → y.palloc = false) ∧
      (x.palloc = true → m.palloc = true) ∧
      (∀ p, A.getLast? = some p → x.palloc = false → m.palloc = p.palloc) ∧
      (x.palloc = true → headAllocD B = true → A2 = A ∧ m.size = x.size) ∧
      (x.palloc = true → headAllocD B = false →
        A2 = A ∧ m.size = x.size + headSizeD B) ∧
      (x.palloc = false → headAllocD B = true →
        A2 = A.dropLast ∧ m.size = x.size + lastSizeD A) ∧
      (x.palloc = false → headAllocD B = false →
        A2 = A.dropLast ∧ m.size = x.size + lastSizeD A + headSizeD B) :=
  coalesce_spec s A x B L hblocks hxfree hxptrs hsizes hhdrA hxpal hhdrB
    hepiB hadjA hadjB hchain hnd hperm hcap hcapW

/-- Witness for C3 on a concrete single-block heap. -/
theorem coalesce_four_cases_witness :
    ∃ A2 m B2 L2,
      (coalesce (⟨[⟨32, false, true⟩], false, none, [], 48⟩ : Heap)
        (base + sumSize ([] : List Blk))).1.blocks = A2 ++ m :: B2 ∧
      (coalesce (⟨[⟨32, false, true⟩], false, none, [], 48⟩ : Heap)
        (base + sumSize ([] : List Blk))).2 = base + sumSize A2 ∧
      WfL (coalesce (⟨[⟨32, false, true⟩], false, none, [], 48⟩ : Heap)
        (base + sumSize ([] : List Blk))).1 ((base + sumSize A2) :: L2) ∧
      (coalesce (⟨[⟨32, false, true⟩], false, none, [], 48⟩ : Heap)
        (base + sumSize ([] : List Blk))).1.memCap =
        (⟨[⟨32, false, true⟩], false, none, [], 48⟩ : Heap).memCap ∧
      m.alloc = false ∧
      (⟨32, false, true⟩ : Blk).size ≤ m.size ∧
      (base + sumSize A2) ∉ L2 ∧
      (B2 = [] → (coalesce (⟨[⟨32, false, true⟩], false, none, [], 48⟩ :
        Heap) (base + sumSize ([] : List Blk))).1.epiPalloc = false) ∧
      (∀ y r, B2 = y :: r → y.palloc = false) ∧
      ((⟨32, false, true⟩ : Blk).palloc = true → m.palloc = true) ∧
      (∀ p, ([] : List Blk).getLast? = some p →
        (⟨32, false, true⟩ : Blk).palloc = false → m.palloc = p.palloc) ∧
      ((⟨32, false, true⟩ : Blk).palloc = true →
        headAllocD [] = true →
        A2 = [] ∧ m.size = (⟨32, false, true⟩ : Blk).size) ∧
      ((⟨32, false, true⟩ : Blk).palloc = true →
        headAllocD [] = false →
        A2 = [] ∧ m.size = (⟨32, false, true⟩ : Blk).size + headSizeD []) ∧
      ((⟨32, false, true⟩ : Blk).palloc = false →
        headAllocD [] = true →
        A2 = ([] : List Blk).dropLast ∧
          m.size = (⟨32, false, true⟩ : Blk).size + lastSizeD []) ∧
      ((⟨32, false, true⟩ : Blk).palloc = false →
        headAllocD [] = false →
        A2 = ([] : List Blk).dropLast ∧
          m.size = (⟨32, false, true⟩ : Blk).size + lastSizeD [] +
            headSizeD []) :=
  coalesce_four_cases (⟨[⟨32, false, true⟩], false, none, [], 48⟩ : Heap)
    [] (⟨32, false, true⟩ : Blk) [] [] rfl rfl rfl (by decide) rfl rfl rfl
    rfl rfl rfl rfl (by decide) (by decide) (by decide) (by decide)

/-! ## Claims C7 and C10 -/

/-- C7: for every `count ≥ 1` and `size` such that `count * size` overflows
the unsigned word, `zero_allocate` (calloc) detects the overflow by the
back-division check and returns null with the heap unchanged (no heap
growth, no allocation).  The back-division check is complete for a nonzero
`count`: a wrapped product `(count * size) % 2^64` is strictly below
`count * size`, so dividing it back by `count` falls short of `size`. -/
theorem calloc_overflow (s : Heap) (count size : Nat)
    (h1 : 1 ≤ count) (hov : W ≤ count * size) :
    calloc s count size = .ok (none, s) := by
  have hW : (0:Nat) < W := by norm_num [W]
  have hdivlt : (count * size) % W / count < size := by
    rw [Nat.div_lt_iff_lt_mul (by omega), Nat.mul_comm size count]
    have hlt : (count * size) % W < W := Nat.mod_lt _ hW
    omega
  simp only [calloc]
  rw [if_neg (by simp only [beq_iff_eq]; omega)]
  rw [if_pos (by simp only [bne_iff_ne]; exact Nat.ne_of_lt hdivlt)]

/-- Witness for C7 at the spec's scenario `zero_allocate(SIZE_MAX, 2)`. -/
theorem calloc_overflow_witness :
    1 ≤ 2 ^ 64 - 1 ∧ W ≤ (2 ^ 64 - 1) * 2 ∧
      calloc (⟨[], true, none, [], 0⟩ : Heap) (2 ^ 64 - 1) 2 =
        .ok (none, (⟨[], true, none, [], 0⟩ : Heap)) :=
  ⟨by decide, by decide,
    calloc_overflow (⟨[], true, none, [], 0⟩ : Heap) (2 ^ 64 - 1) 2
      (by decide) (by decide)⟩

/-- C10: `zero_allocate` (calloc) is well defined only for `count ≠ 0`: a
zero `count` reaches the unguarded back-division `asize / elements` with a
zero divisor before any null-return or allocation can occur (modelled as
the `.error ()` outcome, division by zero being undefined behaviour in C),
while for every `count ≥ 1` the overflow-check branch is total and the call
reaches a defined `.ok` outcome. -/
theorem calloc_count_zero_div (s : Heap) (n : Nat) :
    calloc s 0 n = .error () ∧
      ∀ c, 0 < c → ∃ r, calloc s c n = .ok r := by
  constructor
  · rfl
  · intro c hc
    simp only [calloc]
    rw [if_neg (by simp only [beq_iff_eq]; omega)]
    by_cases hchk : ((c * n) % W / c != n) = true
    · rw [if_pos hchk]
      exact ⟨(none, s), rfl⟩
    · rw [if_neg hchk]
      cases hm : (malloc s ((c * n) % W)).1 with
      | none => exact ⟨(none, (malloc s ((c * n) % W)).2), rfl⟩
      | some p => exact ⟨(some p, (malloc s ((c * n) % W)).2), rfl⟩

/-- Witness for C10 on a concrete empty heap: `count = 0` is the
division-by-zero outcome, `count = 1` is defined. -/
theorem calloc_count_zero_div_witness :
    calloc (⟨[], true, none, [], 0⟩ : Heap) 0 7 = .error () ∧
      ∃ r, calloc (⟨[], true, none, [], 0⟩ : Heap) 1 7 = .ok r :=
  ⟨(calloc_count_zero_div (⟨[], true, none, [], 0⟩ : Heap) 7).1,
    (calloc_count_zero_div (⟨[], true, none, [], 0⟩ : Heap) 7).2 1
      (by decide)⟩

/-! ## Claim C4 -/

/-- A free list of 50 undersized FREE blocks followed by an exact match:
blocks of size 32 at addresses `8, 40, ..., 1576`, then a block of size 48
at `1608`, chained in address order from `freelist_start = 8`. -/
def ffCexHeap : Heap :=
  { blocks := List.replicate 50 (⟨32, false, true⟩ : Blk) ++
      [(⟨48, false, true⟩ : Blk)],
    epiPalloc := false,
    flst := some 8,
    pmem := (List.range 51).map (fun i =>
      (8 + 32 * i,
        ((if i = 0 then none else some (8 + 32 * (i - 1))),
         (if i = 50 then none else some (8 + 32 * (i + 1)))))),
    memCap := 2000 }

/-- Claim C4 (counterexample): the fit search does not examine at most 50
candidates.  Its counter `i` is bumped only on blocks that fit, so on a
free list whose first 50 nodes are all too small the loop walks past all of
them (candidates 1..50, none a fit) and returns the 51st node — under the
claimed 50-candidate bound the scanned prefix holds no fit and the search
would have to return null. -/
theorem find_fit_cex :
    find_fit ffCexHeap 48 = some 1608 ∧
      ((List.range 50).all (fun k =>
        match nthNext ffCexHeap k ffCexHeap.flst with
        | some a => decide (sizeAtD ffCexHeap a < 48)
        | none => false)) = true := by
  decide

/-- The loop of the fit search, fully characterized.  `Ldone` is the list
of nodes already examined, none an exact match; `best` is the smallest
strict fit among them (`none` exactly when there is none; the first of
equal-size fits is kept, matching the strict comparison in the code); the
loop counter equals the number of strict fits among them.  Then a null
result means no node fits at all, and a non-null result is no larger than
any fitting node provided at most 50 nodes fit in total. -/
theorem find_fit_loop_best (s : Heap) (asize : Nat) :
    ∀ (fuel : Nat) (Lsub Ldone : List Nat) (prev cur best : Option Nat),
      chainPtrs s.pmem prev cur Lsub = true →
      Lsub.length < fuel →
      (∀ z ∈ Ldone, sizeAtD s z ≠ asize) →
      (∀ bf, best = some bf → asize < sizeAtD s bf ∧
        ∀ z ∈ Ldone, asize < sizeAtD s z → sizeAtD s bf ≤ sizeAtD s z) →
      (best = none → ∀ z ∈ Ldone, ¬ asize < sizeAtD s z) →
      (find_fit_loop s asize fuel cur best
          (Ldone.countP (fun z => decide (asize < sizeAtD s z))) = none →
        ∀ z ∈ Ldone ++ Lsub, sizeAtD s z < asize) ∧
      (∀ b, find_fit_loop s asize fuel cur best
          (Ldone.countP (fun z => decide (asize < sizeAtD s z))) = some b →
        (Ldone ++ Lsub).countP (fun z => decide (asize ≤ sizeAtD s z)) ≤ 50 →
        ∀ z ∈ Ldone ++ Lsub, asize ≤ sizeAtD s z →
          sizeAtD s b ≤ sizeAtD s z) := by
  intro fuel
  induction fuel with
  | zero =>
    intro Lsub Ldone prev cur best hchain hfuel hexact hbest hnone
    exact absurd hfuel (by omega)
  | succ fuel ih =>
    intro Lsub Ldone prev cur best hchain hfuel hexact hbest hnone
    cases cur with
    | none =>
      cases Lsub with
      | cons a Ls => simp [chainPtrs] at hchain
      | nil =>
        constructor
        · intro hres z hz
          rw [List.append_nil] at hz
          have hb0 : best = none := hres
          have h1 := hnone hb0 z hz
          have h2 := hexact z hz
          omega
        · intro b hres hcnt z hz hzfit
          rw [List.append_nil] at hz
          have hbs : best = some b := hres
          obtain ⟨hb1, hb2⟩ := hbest b hbs
          have h2 := hexact z hz
          exact hb2 z hz (by omega)
    | some c =>
      cases Lsub with
      | nil => simp [chainPtrs] at hchain
      | cons a Ls =>
        simp only [chainPtrs, Bool.and_eq_true, beq_iff_eq] at hchain
        obtain ⟨⟨hc, hp⟩, hch⟩ := hchain
        injection hc with hca
        subst hca
        have hfl : Ls.length < fuel := by
          have hlc : (c :: Ls).length = Ls.length + 1 := rfl
          omega
        by_cases hi : Ldone.countP (fun z => decide (asize < sizeAtD s z)) < 50
        case neg =>
          -- the 50-fit cutoff: the loop returns `best`
          have hstep : find_fit_loop s asize (fuel + 1) (some c) best
              (Ldone.countP (fun z => decide (asize < sizeAtD s z))) =
              best := by
            simp only [find_fit_loop]
            rw [if_neg hi]
          constructor
          · intro hres
            rw [hstep] at hres
            obtain ⟨z0, hz0, hpz⟩ := List.countP_pos_iff.mp
              (show 0 < Ldone.countP
                (fun z => decide (asize < sizeAtD s z)) by omega)
            simp only [decide_eq_true_eq] at hpz
            exact absurd hpz (hnone hres z0 hz0)
          · intro b hres hcnt z hz hzfit
            rw [hstep] at hres
            obtain ⟨hb1, hb2⟩ := hbest b hres
            have hmono : Ldone.countP (fun z => decide (asize < sizeAtD s z))
                ≤ Ldone.countP (fun z => decide (asize ≤ sizeAtD s z)) :=
              List.countP_mono_left (fun a _ ha => by
                simp only [decide_eq_true_eq] at ha ⊢
                omega)
            have happ : (Ldone ++ (c :: Ls)).countP
                (fun z => decide (asize ≤ sizeAtD s z)) =
                Ldone.countP (fun z => decide (asize ≤ sizeAtD s z)) +
                (c :: Ls).countP (fun z => decide (asize ≤ sizeAtD s z)) :=
              List.countP_append _ _ _
            have hz0 : (c :: Ls).countP
                (fun z => decide (asize ≤ sizeAtD s z)) = 0 := by omega
            rcases List.mem_append.mp hz with h | h
            · have hne := hexact z h
              exact hb2 z h (by omega)
            · have h3 := List.countP_eq_zero.mp hz0 z h
              simp only [decide_eq_true_eq] at h3
              omega
        case pos =>
        by_cases heq : (asize == sizeAtD s c) = true
        · -- exact match: immediate return
          have hstep : find_fit_loop s asize (fuel + 1) (some c) best
              (Ldone.countP (fun z => decide (asize < sizeAtD s z))) =
              some c := by
            simp only [find_fit_loop]
            rw [if_pos hi, if_pos heq]
          constructor
          · intro hres
            rw [hstep] at hres
            exact absurd hres (by simp)
          · intro b hres hcnt z hz hzfit
            rw [hstep] at hres
            injection hres with hbc
            subst hbc
            have hbsz : asize = sizeAtD s c := eq_of_beq heq
            omega
        · by_cases hlt : asize < sizeAtD s c
          · -- a strict fit: the counter bumps and `best` is updated
            have hexact2 : ∀ z ∈ Ldone ++ [c], sizeAtD s z ≠ asize := by
              intro z hz
              rcases List.mem_append.mp hz with h | h
              · exact hexact z h
              · rw [List.mem_singleton.mp h]
                intro he
                exact heq (beq_iff_eq.mpr he.symm)
            have hc1 : (Ldone ++ [c]).countP
                (fun z => decide (asize < sizeAtD s z)) =
                Ldone.countP (fun z => decide (asize < sizeAtD s z)) + 1 := by
              simp [List.countP_append, List.countP_cons, List.countP_nil,
                hlt]
            by_cases hc0 : (Ldone.countP
                (fun z => decide (asize < sizeAtD s z)) == 0) = true
            · -- first fit: `best` becomes this block
              have hstep : find_fit_loop s asize (fuel + 1) (some c) best
                  (Ldone.countP (fun z => decide (asize < sizeAtD s z))) =
                  find_fit_loop s asize fuel (pget s.pmem c).2 (some c)
                    (Ldone.countP
                      (fun z => decide (asize < sizeAtD s z)) + 1) := by
                simp only [find_fit_loop]
                rw [if_pos hi, if_neg heq, if_pos hlt, if_pos hc0]
              have hzero : Ldone.countP
                  (fun z => decide (asize < sizeAtD s z)) = 0 :=
                eq_of_beq hc0
              have hnostrict := List.countP_eq_zero.mp hzero
              have hrec := ih Ls (Ldone ++ [c]) (some c) (pget s.pmem c).2
                (some c) hch hfl hexact2
                (by intro bf hbf
                    injection hbf with hbf2
                    subst hbf2
                    refine ⟨hlt, ?_⟩
                    intro z hz hzs
                    rcases List.mem_append.mp hz with h | h
                    · have h6 := hnostrict z h
                      simp only [decide_eq_true_eq] at h6
                      omega
                    · rw [List.mem_singleton.mp h])
                (by intro hbf
                    exact absurd hbf (by simp))
              rw [hc1, List.append_assoc, List.singleton_append] at hrec
              constructor
              · intro hres
                rw [hstep] at hres
                exact hrec.1 hres
              · intro b hres hcnt z hz hzfit
                rw [hstep] at hres
                exact hrec.2 b hres hcnt z hz hzfit
            · -- a fit was seen before, so `best` is non-null
              cases hbb : best with
              | none =>
                exfalso
                have hzero : Ldone.countP
                    (fun z => decide (asize < sizeAtD s z)) = 0 :=
                  List.countP_eq_zero.mpr (fun z hz => by
                    simp only [decide_eq_true_eq]
                    exact hnone hbb z hz)
                exact hc0 (beq_iff_eq.mpr hzero)
              | some bf =>
                obtain ⟨hbf1, hbf2⟩ := hbest bf hbb
                have hstep0 : find_fit_loop s asize (fuel + 1) (some c)
                    (some bf) (Ldone.countP
                      (fun z => decide (asize < sizeAtD s z))) =
                    find_fit_loop s asize fuel (pget s.pmem c).2
                      (if sizeAtD s c < sizeAtD s bf then some c
                        else some bf)
                      (Ldone.countP
                        (fun z => decide (asize < sizeAtD s z)) + 1) := by
                  simp only [find_fit_loop]
                  rw [if_pos hi, if_neg heq, if_pos hlt, if_neg hc0]
                by_cases hcmp : sizeAtD s c < sizeAtD s bf
                · rw [if_pos hcmp] at hstep0
                  have hrec := ih Ls (Ldone ++ [c]) (some c)
                    (pget s.pmem c).2 (some c) hch hfl hexact2
                    (by intro bf2 hbf'
                        injection hbf' with hbf2'
                        subst hbf2'
                        refine ⟨hlt, ?_⟩
                        intro z hz hzs
                        rcases List.mem_append.mp hz with h | h
                        · have h6 := hbf2 z h hzs
                          omega
                        · rw [List.mem_singleton.mp h])
                    (by intro hbf'
                        exact absurd hbf' (by simp))
                  rw [hc1, List.append_assoc, List.singleton_append] at hrec
                  constructor
                  · intro hres
                    rw [hstep0] at hres
                    exact hrec.1 hres
                  · intro b hres hcnt z hz hzfit
                    rw [hstep0] at hres
                    exact hrec.2 b hres hcnt z hz hzfit
                · rw [if_neg hcmp] at hstep0
                  have hrec := ih Ls (Ldone ++ [c]) (some c)
                    (pget s.pmem c).2 (some bf) hch hfl hexact2
                    (by intro bf2 hbf'
                        injection hbf' with hbf2'
                        subst hbf2'
                        refine ⟨hbf1, ?_⟩
                        intro z hz hzs
                        rcases List.mem_append.mp hz with h | h
                        · exact hbf2 z h hzs
                        · rw [List.mem_singleton.mp h]
                          omega)
                    (by intro hbf'
                        exact absurd hbf' (by simp))
                  rw [hc1, List.append_assoc, List.singleton_append] at hrec
                  constructor
                  · intro hres
                    rw [hstep0] at hres
                    exact hrec.1 hres
                  · intro b hres hcnt z hz hzfit
                    rw [hstep0] at hres
                    exact hrec.2 b hres hcnt z hz hzfit
          · -- too small: skipped without bumping the counter
            have hsmall : sizeAtD s c < asize := by
              have h5 : ¬ asize = sizeAtD s c := fun he =>
                heq (beq_iff_eq.mpr he)
              omega
            have hexact2 : ∀ z ∈ Ldone ++ [c], sizeAtD s z ≠ asize := by
              intro z hz
              rcases List.mem_append.mp hz with h | h
              · exact hexact z h
              · rw [List.mem_singleton.mp h]
                omega
            have hc1 : (Ldone ++ [c]).countP
                (fun z => decide (asize < sizeAtD s z)) =
                Ldone.countP (fun z => decide (asize < sizeAtD s z)) := by
              simp [List.countP_append, List.countP_cons, List.countP_nil,
                hlt]
            have hstep : find_fit_loop s asize (fuel + 1) (some c) best
                (Ldone.countP (fun z => decide (asize < sizeAtD s z))) =
                find_fit_loop s asize fuel (pget s.pmem c).2 best
                  (Ldone.countP (fun z => decide (asize < sizeAtD s z)))
                := by
              simp only [find_fit_loop]
              rw [if_pos hi, if_neg heq, if_neg hlt]
            have hrec := ih Ls (Ldone ++ [c]) (some c) (pget s.pmem c).2
              best hch hfl hexact2
              (by intro bf hbf
                  obtain ⟨hbf1, hbf2⟩ := hbest bf hbf
                  refine ⟨hbf1, ?_⟩
                  intro z hz hzs
                  rcases List.mem_append.mp hz with h | h
                  · exact hbf2 z h hzs
                  · rw [List.mem_singleton.mp h] at hzs
                    omega)
              (by intro hbf z hz
                  rcases List.mem_append.mp hz with h | h
                  · exact hnone hbf z h
                  · rw [List.mem_singleton.mp h]
                    omega)
            rw [hc1, List.append_assoc, List.singleton_append] at hrec
            constructor
            · intro hres
              rw [hstep] at hres
              exact hrec.1 hres
            · intro b hres hcnt z hz hzfit
              rw [hstep] at hres
              exact hrec.2 b hres hcnt z hz hzfit

/-- Claim C4 (amended): the fit search walks the free list from its head;
an exact-size match returns immediately (stated here for an exactly-sized
list head); the bound of 50 counts only blocks that fit the request, not
scanned candidates, so arbitrarily many too-small candidates may be
examined (see `find_fit_cex`); and the best-fit bookkeeping holds in this
form: every returned block is a chain node of size at least the request, a
null return means no chain node fits, and whenever at most 50 chain nodes
fit, a returned block is smallest among all fitting nodes of the chain. -/
theorem find_fit_bounded_best_fit (s : Heap) (asize : Nat) (L : List Nat)
    (hchain : chainPtrs s.pmem none s.flst L = true)
    (hlen : L.length ≤ s.blocks.length) :
    (∀ b, find_fit s asize = some b → b ∈ L ∧ asize ≤ sizeAtD s b) ∧
    (∀ h0, s.flst = some h0 → sizeAtD s h0 = asize →
      find_fit s asize = some h0) ∧
    (find_fit s asize = none → ∀ z ∈ L, sizeAtD s z < asize) ∧
    (L.countP (fun z => decide (asize ≤ sizeAtD s z)) ≤ 50 →
      ∀ b, find_fit s asize = some b →
        ∀ z ∈ L, asize ≤ sizeAtD s z → sizeAtD s b ≤ sizeAtD s z) := by
  have hmain := find_fit_loop_best s asize (s.blocks.length + 1) L [] none
    s.flst none hchain (by omega)
    (by intro z hz; exact absurd hz (List.not_mem_nil z))
    (by intro bf hbf; exact absurd hbf (by simp))
    (by intro _ z hz; exact absurd hz (List.not_mem_nil z))
  rw [List.countP_nil, List.nil_append] at hmain
  refine ⟨?_, ?_, ?_, ?_⟩
  · intro b hb
    exact find_fit_spec hchain hb
  · intro h0 hf hsz
    show find_fit_loop s asize (s.blocks.length + 1) s.flst none 0 = some h0
    rw [hf]
    simp only [find_fit_loop]
    rw [if_pos (by decide), if_pos (by rw [hsz]; exact beq_self_eq_true asize)]
  · intro hres z hz
    exact hmain.1 hres z hz
  · intro hcnt b hres z hz hzfit
    exact hmain.2 b hres hcnt z hz hzfit

/-- Witness for C4's amended theorem on a one-node free list holding an
exact match. -/
theorem find_fit_bounded_best_fit_witness :
    (∀ b, find_fit (⟨[⟨32, false, true⟩], false, some 8,
        [(8, (none, none))], 48⟩ : Heap) 32 = some b →
      b ∈ [8] ∧ 32 ≤ sizeAtD (⟨[⟨32, false, true⟩], false, some 8,
        [(8, (none, none))], 48⟩ : Heap) b) ∧
    (∀ h0, (⟨[⟨32, false, true⟩], false, some 8,
        [(8, (none, none))], 48⟩ : Heap).flst = some h0 →
      sizeAtD (⟨[⟨32, false, true⟩], false, some 8,
        [(8, (none, none))], 48⟩ : Heap) h0 = 32 →
      find_fit (⟨[⟨32, false, true⟩], false, some 8,
        [(8, (none, none))], 48⟩ : Heap) 32 = some h0) ∧
    (find_fit (⟨[⟨32, false, true⟩], false, some 8,
        [(8, (none, none))], 48⟩ : Heap) 32 = none →
      ∀ z ∈ [8], sizeAtD (⟨[⟨32, false, true⟩], false, some 8,
        [(8, (none, none))], 48⟩ : Heap) z < 32) ∧
    (([8] : List Nat).countP (fun z => decide (32 ≤ sizeAtD
        (⟨[⟨32, false, true⟩], false, some 8,
          [(8, (none, none))], 48⟩ : Heap) z)) ≤ 50 →
      ∀ b, find_fit (⟨[⟨32, false, true⟩], false, some 8,
          [(8, (none, none))], 48⟩ : Heap) 32 = some b →
        ∀ z ∈ [8], 32 ≤ sizeAtD (⟨[⟨32, false, true⟩], false, some 8,
            [(8, (none, none))], 48⟩ : Heap) z →
          sizeAtD (⟨[⟨32, false, true⟩], false, some 8,
            [(8, (none, none))], 48⟩ : Heap) b ≤
            sizeAtD (⟨[⟨32, false, true⟩], false, some 8,
              [(8, (none, none))], 48⟩ : Heap) z) :=
  find_fit_bounded_best_fit (⟨[⟨32, false, true⟩], false, some 8,
    [(8, (none, none))], 48⟩ : Heap) 32 [8] (by decide) (by decide)

/-! ## Claim C5 -/

/-- When `malloc` returns null the heap is unchanged: the only null paths
are the zero request and a failed heap extension, both of which leave the
state as it was. -/
theorem malloc_fail_unchanged {s : Heap} {n : Nat}
    (h : (malloc s n).1 = none) : (malloc s n).2 = s := by
  by_cases h0 : (n == 0) = true
  · simp only [malloc]
    rw [if_pos h0]
  · simp only [malloc] at h ⊢
    rw [if_neg h0] at h ⊢
    generalize hA : (if round_up ((n + wsize) % W) dsize < min_block_size
      then min_block_size else round_up ((n + wsize) % W) dsize) = asz at h ⊢
    cases hff : find_fit s asz with
    | some b =>
      rw [hff] at h
      have h2 : some (b + wsize) = none := h
      exact absurd h2 (by simp)
    | none =>
      rw [hff] at h
      cases hee : extend_heap s (maxW asz chunksize) with
      | none => rfl
      | some pr =>
        obtain ⟨s1, b⟩ := pr
        rw [hee] at h
        have h2 : some (b + wsize) = none := h
        exact absurd h2 (by simp)

/-- C5: `resize` (realloc).  For every state, pointer and size:
a zero size releases the pointer and returns null; a null pointer behaves
exactly as `allocate(size)` (same return value, same state, nothing
copied); otherwise, when the fresh allocation of the new size succeeds the
result is the fresh pointer, `min(new size, old block's payload size)`
bytes are copied (the middle component is the byte count handed to
`memcpy`, reading the old block's payload size with the allocator's
`get_payload_size`), and the old block is released in the post-allocation
state; and when the fresh allocation fails the result is null with the
original state returned untouched — nothing copied, nothing released. -/
theorem realloc_cases (s : Heap) (p size : Nat) :
    (∀ ptr, realloc s ptr 0 = (none, 0, free s ptr)) ∧
    (0 < size →
      realloc s none size = ((malloc s size).1, 0, (malloc s size).2)) ∧
    (0 < size → ∀ q, (malloc s size).1 = some q →
      realloc s (some p) size =
        (some q, min size (get_payload_size (malloc s size).2 (p - wsize)),
          free (malloc s size).2 (some p))) ∧
    (0 < size → (malloc s size).1 = none →
      realloc s (some p) size = (none, 0, s)) := by
  refine ⟨?_, ?_, ?_, ?_⟩
  · intro ptr
    rfl
  · intro hs
    simp only [realloc]
    rw [if_neg (by simp only [beq_iff_eq]; omega)]
  · intro hs q hq
    simp only [realloc]
    rw [if_neg (by simp only [beq_iff_eq]; omega)]
    rw [hq]
    have hmin : (if size < get_payload_size (malloc s size).2 (p - wsize)
        then size else get_payload_size (malloc s size).2 (p - wsize)) =
        min size (get_payload_size (malloc s size).2 (p - wsize)) := by
      split <;> omega
    rw [hmin]
  · intro hs hq
    simp only [realloc]
    rw [if_neg (by simp only [beq_iff_eq]; omega)]
    rw [hq, malloc_fail_unchanged hq]

/-- Witness for C5 on the freshly initialized heap: resize to 0 releases,
and a genuine resize of the 4096-byte free heap succeeds with the code's
copy count. -/
theorem realloc_cases_witness :
    realloc (⟨[⟨4096, false, true⟩], false, some 8, [(8, (none, none))],
        4200⟩ : Heap) (some 16) 0 =
      (none, 0, free (⟨[⟨4096, false, true⟩], false, some 8,
        [(8, (none, none))], 4200⟩ : Heap) (some 16)) ∧
    realloc (⟨[⟨4096, false, true⟩], false, some 8, [(8, (none, none))],
        4200⟩ : Heap) (some 16) 24 =
      (some 16, min 24 (get_payload_size
          (malloc (⟨[⟨4096, false, true⟩], false, some 8,
            [(8, (none, none))], 4200⟩ : Heap) 24).2 (16 - wsize)),
        free (malloc (⟨[⟨4096, false, true⟩], false, some 8,
          [(8, (none, none))], 4200⟩ : Heap) 24).2 (some 16)) :=
  ⟨(realloc_cases (⟨[⟨4096, false, true⟩], false, some 8,
      [(8, (none, none))], 4200⟩ : Heap) 16 24).1 (some 16),
    (realloc_cases (⟨[⟨4096, false, true⟩], false, some 8,
      [(8, (none, none))], 4200⟩ : Heap) 16 24).2.2.1 (by decide) 16 rfl⟩

/-! ## Claim C2 -/

/-- A sum of 16-byte-multiple block sizes is a 16-byte multiple. -/
theorem sumSize_mod16 {A : List Blk} (h : ∀ b ∈ A, b.size % 16 = 0) :
    sumSize A % 16 = 0 := by
  induction A with
  | nil => rfl
  | cons b r ih =>
    have hb := h b (List.mem_cons_self _ _)
    have hr := ih (fun x hx => h x (List.mem_cons_of_mem _ hx))
    show (b.size + sumSize r) % 16 = 0
    omega

/-- Two different decompositions of one block list give blocks whose byte
ranges are disjoint (the earlier block ends before the later one starts). -/
theorem decomp_disjoint {bs A A' : List Blk} {y y' : Blk} {B B' : List Blk}
    (h : bs = A ++ y :: B) (h' : bs = A' ++ y' :: B') (hne : A ≠ A') :
    sumSize A + y.size ≤ sumSize A' ∨
      sumSize A' + y'.size ≤ sumSize A := by
  induction A generalizing A' bs with
  | nil =>
    cases A' with
    | nil => exact absurd rfl hne
    | cons b' r' =>
      rw [h] at h'
      simp only [List.nil_append, List.cons_append] at h'
      injection h' with h1 h2
      left
      have hs : sumSize (b' :: r') = b'.size + sumSize r' := rfl
      have hs0 : sumSize ([] : List Blk) = 0 := rfl
      rw [h1]
      omega
  | cons b r ih =>
    cases A' with
    | nil =>
      rw [h'] at h
      simp only [List.nil_append, List.cons_append] at h
      injection h with h1 h2
      right
      have hs : sumSize (b :: r) = b.size + sumSize r := rfl
      have hs0 : sumSize ([] : List Blk) = 0 := rfl
      rw [h1]
      omega
    | cons b' r' =>
      rw [h] at h'
      simp only [List.cons_append] at h'
      injection h' with h1 h2
      have hne2 : r ≠ r' := fun he => hne (by rw [he, h1])
      have h3 := ih rfl h2 hne2
      have hsb : sumSize (b :: r) = b.size + sumSize r := rfl
      have hsb' : sumSize (b' :: r') = b'.size + sumSize r' := rfl
      rcases h3 with h3 | h3
      · left
        rw [hsb, hsb', h1]
        omega
      · right
        rw [hsb, hsb', h1]
        omega

/-- `place` on a block of a well-formed heap, packaging what claim C2
needs: the allocated block, its size bounds, the 16-byte alignment of the
prefix, and positivity of all result blocks. -/
theorem place_result_props (s : Heap) (A : List Blk) (x : Blk) (B : List Blk)
    (L : List Nat) (asize : Nat)
    (hL : WfL s L) (hblocks : s.blocks = A ++ x :: B)
    (hxfree : x.alloc = false) (h32a : min_block_size ≤ asize)
    (h16a : asize % 16 = 0) (hle2 : asize ≤ x.size) :
    ∃ y Bp, (place s (base + sumSize A) asize).blocks = A ++ y :: Bp ∧
      y.alloc = true ∧ asize ≤ y.size ∧ y.size < W ∧
      sumSize A % 16 = 0 ∧
      (∀ b2 ∈ (place s (base + sumSize A) asize).blocks, 0 < b2.size) := by
  obtain ⟨y, Bp, L2, hpb, hya, hyW, hyge, hypal, hwf2⟩ :=
    place_spec s A x B L asize hL hblocks hxfree h32a h16a hle2
  refine ⟨y, Bp, hpb, hya, hyge, hyW, ?_, sizesPos hwf2.sizes⟩
  have hall := sizesOkB_mem hwf2.sizes
  apply sumSize_mod16
  intro b2 hb2
  exact (hall b2 (by rw [hpb]; exact List.mem_append.mpr (Or.inl hb2))).2

/-- Claim C2 (counterexample): the exact-size formula and the universal
payload bound both fail.  First, after `[alloc 40, alloc 40, release 16]`
on a fresh heap, `allocate(17)` returns a block of size 48, not the
formula's `max(round_up(17 + 8, 16), 32) = 32`: the fit search reuses a
48-byte free block and `place` does not split it (the remainder 16 is below
the minimum block size).  Second, `allocate(2^64 - 4)` succeeds with a
32-byte block (usable payload 24 bytes, far less than the request): the
adjusted size `round_up((n + 8) mod 2^64, 16)` wraps around. -/
theorem malloc_size_formula_cex :
    ((malloc (run (⟨[⟨4096, false, true⟩], false, some 8,
        [(8, (none, none))], 4200⟩ : Heap)
        [Op.alloc 40, Op.alloc 40, Op.release 16]) 17).1 = some 16 ∧
      sizeAtD (malloc (run (⟨[⟨4096, false, true⟩], false, some 8,
        [(8, (none, none))], 4200⟩ : Heap)
        [Op.alloc 40, Op.alloc 40, Op.release 16]) 17).2 (16 - wsize) = 48 ∧
      (if round_up (17 + wsize) dsize < min_block_size then min_block_size
        else round_up (17 + wsize) dsize) = 32) ∧
    ((malloc (⟨[⟨4096, false, true⟩], false, some 8, [(8, (none, none))],
        4200⟩ : Heap) (2 ^ 64 - 4)).1 = some 16 ∧
      sizeAtD (malloc (⟨[⟨4096, false, true⟩], false, some 8,
        [(8, (none, none))], 4200⟩ : Heap) (2 ^ 64 - 4)).2 (16 - wsize)
        = 32 ∧
      32 - wsize < 2 ^ 64 - 4) := by
  decide

/-- Claim C2 (amended): for every `n > 0` with `n + 8 ≤ 2^64 - 16` (no
`size_t` wraparound in the adjusted size), if `allocate(n)` on a
well-formed heap returns a pointer `p`, then `p` is 16-byte aligned and is
the payload address (header address + one word) of an allocated block of
size at least `n + 8` — so at least `max(round_up(n + 8, 16), 32)`, but not
always equal to it — whose usable payload `size - 8` is at least `n`, and
whose byte range is disjoint from every other block of the resulting heap,
in particular from every other currently-allocated region. -/
theorem malloc_success (s : Heap) (n : Nat) (hwf : Wf s) (hn : 0 < n)
    (hfit : n + wsize ≤ W - 16) (p : Nat)
    (hp : (malloc s n).1 = some p) :
    p % 16 = 0 ∧
    ∃ A y B, (malloc s n).2.blocks = A ++ y :: B ∧
      p = base + sumSize A + wsize ∧
      y.alloc = true ∧
      n + wsize ≤ y.size ∧ y.size < W ∧ n ≤ y.size - wsize ∧
      (∀ A' y' B', (malloc s n).2.blocks = A' ++ y' :: B' → A' ≠ A →
        base + sumSize A' + y'.size ≤ base + sumSize A ∨
        base + sumSize A + y.size ≤ base + sumSize A') := by
  obtain ⟨L, hL⟩ := hwf
  have hW : W = 18446744073709551616 := by norm_num [W]
  have h32c : min_block_size = 32 := rfl
  have hws : wsize = 8 := rfl
  have hb8 : base = 8 := rfl
  have h0 : ¬((n == 0) = true) := by simp only [beq_iff_eq]; omega
  simp only [malloc] at hp ⊢
  rw [if_neg h0] at hp ⊢
  have hnw : (n + wsize) % W = n + wsize := Nat.mod_eq_of_lt (by omega)
  generalize hA0 : round_up ((n + wsize) % W) dsize = a0 at hp ⊢
  generalize hA : (if a0 < min_block_size then min_block_size else a0) = asz
    at hp ⊢
  have h16 : asz % 16 = 0 := by
    rw [← hA]
    by_cases hc : a0 < min_block_size
    · rw [if_pos hc]
      omega
    · rw [if_neg hc]
      rw [← hA0]
      exact round_up_16_mod _
  have hge : n + wsize ≤ asz := by
    have h1 : n + wsize ≤ a0 := by
      rw [← hA0, hnw]
      exact round_up_16_ge hfit
    rw [← hA]
    by_cases hc : a0 < min_block_size
    · rw [if_pos hc]
      omega
    · rw [if_neg hc]
      omega
  have h32 : min_block_size ≤ asz := by
    rw [← hA]
    by_cases hc : a0 < min_block_size
    · rw [if_pos hc]
    · rw [if_neg hc]
      omega
  have hle : asz ≤ W - 16 := by
    rw [← hA]
    by_cases hc : a0 < min_block_size
    · rw [if_pos hc]
      omega
    · rw [if_neg hc]
      rw [← hA0]
      exact round_up_16_le _
  cases hff : find_fit s asz with
  | some b =>
    rw [hff] at hp
    have hp2 : some (b + wsize) = some p := hp
    injection hp2 with hp3
    obtain ⟨hbL, hbsz⟩ := find_fit_spec hL.chain hff
    have hbF : b ∈ freeAddrs s := hL.perm.mem_iff.mp hbL
    obtain ⟨A, x, B, hbs, hba, hxf⟩ := freeAddrsFrom_mem_decomp hbF
    subst hba
    have hposA : ∀ bb ∈ A, 0 < bb.size := fun bb hb =>
      sizesPos hL.sizes bb (by rw [hbs]; exact List.mem_append.mpr (Or.inl hb))
    have hsz : sizeAtD s (base + sumSize A) = x.size := by
      unfold sizeAtD
      rw [getBlkA_decomp s A x B hbs hposA]
    rw [hsz] at hbsz
    obtain ⟨y, Bp, hpb, hya, hyge, hyW, hA16, hposR⟩ :=
      place_result_props s A x B L asz hL hbs hxf h32 h16 hbsz
    subst hp3
    refine ⟨?_, A, y, Bp, ?_, rfl, hya, by omega, hyW, by omega, ?_⟩
    · show (base + sumSize A + wsize) % 16 = 0
      omega
    · exact hpb
    · intro A' y' B' hbs' hne
      have hbs'' : (place s (base + sumSize A) asz).blocks =
          A' ++ y' :: B' := hbs'
      rcases decomp_disjoint hpb hbs'' (fun he => hne he.symm) with h3 | h3
      · right
        omega
      · left
        omega
  | none =>
    rw [hff] at hp
    cases hee : extend_heap s (maxW asz chunksize) with
    | none =>
      rw [hee] at hp
      have hp2 : (none : Option Nat) = some p := hp
      exact absurd hp2 (by simp)
    | some pr =>
      obtain ⟨s1, b⟩ := pr
      rw [hee] at hp
      have hp2 : some (b + wsize) = some p := hp
      injection hp2 with hp3
      have hmax16 : maxW asz chunksize % 16 = 0 := by
        unfold maxW chunksize
        split <;> omega
      have hmaxle : maxW asz chunksize ≤ W - 16 := by
        unfold maxW chunksize
        split <;> omega
      have hmaxge : asz ≤ maxW asz chunksize := by
        unfold maxW chunksize
        split <;> omega
      have hru : round_up (maxW asz chunksize) dsize = maxW asz chunksize :=
        round_up_16_of_dvd hmax16 hmaxle
      have h32e : min_block_size ≤ round_up (maxW asz chunksize) dsize := by
        rw [hru]
        omega
      obtain ⟨A2, m, B2, L2, hub, hbeq, hmfree, hmsz, hnotL2, hwf1⟩ :=
        extend_heap_spec s L (maxW asz chunksize) hL h32e hee
      subst hbeq
      have hasz_le : asz ≤ m.size := by
        rw [hru] at hmsz
        omega
      obtain ⟨y, Bp, hpb, hya, hyge, hyW, hA16, hposR⟩ :=
        place_result_props s1 A2 m B2 ((base + sumSize A2) :: L2) asz hwf1
          hub hmfree h32 h16 hasz_le
      subst hp3
      refine ⟨?_, A2, y, Bp, ?_, rfl, hya, by omega, hyW, by omega, ?_⟩
      · show (base + sumSize A2 + wsize) % 16 = 0
        omega
      · exact hpb
      · intro A' y' B' hbs' hne
        have hbs'' : (place s1 (base + sumSize A2) asz).blocks =
            A' ++ y' :: B' := hbs'
        rcases decomp_disjoint hpb hbs'' (fun he => hne he.symm) with h3 | h3
        · right
          omega
        · left
          omega

/-- Witness for C2's amended theorem: `allocate(100)` on the freshly
initialized heap. -/
theorem malloc_success_witness :
    (16 : Nat) % 16 = 0 ∧
    ∃ A y B, (malloc (⟨[⟨4096, false, true⟩], false, some 8,
        [(8, (none, none))], 4200⟩ : Heap) 100).2.blocks = A ++ y :: B ∧
      16 = base + sumSize A + wsize ∧
      y.alloc = true ∧
      100 + wsize ≤ y.size ∧ y.size < W ∧ 100 ≤ y.size - wsize ∧
      (∀ A' y' B', (malloc (⟨[⟨4096, false, true⟩], false, some 8,
          [(8, (none, none))], 4200⟩ : Heap) 100).2.blocks =
            A' ++ y' :: B' → A' ≠ A →
        base + sumSize A' + y'.size ≤ base + sumSize A ∨
        base + sumSize A + y.size ≤ base + sumSize A') :=
  malloc_success (⟨[⟨4096, false, true⟩], false, some 8,
      [(8, (none, none))], 4200⟩ : Heap) 100
    ⟨[8], by decide, by decide, by decide, by decide, by decide, by decide,
      by decide, by decide, by decide⟩
    (by decide) (by decide) 16 rfl

end MM
